import Mathlib

/-!
# Blitzar: the Pippenger-partition multi-scalar multiplication

A shallow embedding of the kernels of `sxt/multiexp/pippenger2` and of the
host drivers around them, of the pinned-buffer pool and the host-to-device
copier, of the element types `element_p3` and `element97`, of the limb
arithmetic of `field12` and `field25`, and of the benchmark driver, with the
properties of the specification proved about the embedded code.

Conventions of the embedding.

* A `basct::span<T>` / raw device pointer is a `Span T`: a length together with
  the contents. Every read is bounds checked; a read outside the span is
  undefined behaviour in the source and the fault `Fault.out_of_bounds` here.
* `unsigned` is a natural number below `2^32`; every `unsigned` operation of
  the source is followed by the reduction `u32`, subtraction is `usub`.
* Fallible code returns `Except Fault _`.
* The curve element type `T` is any commutative group, together with the two
  in-place operations of the `bascrv::element` concept (`Curve T`).
* A coroutine is run to completion; the operations it issues on its stream are
  kept in a list (`StreamOp`).
* An array of `uint64_t` limbs is a list, least significant limb first; the
  128-bit helpers `sbb`, `mac` and `adc` return the low and the high 64 bits.
-/

namespace Blitzar

/-! ## Memory and machine arithmetic -/

/-- Ways in which the embedded code stops without a result. -/
inductive Fault where
  /-- A read or write outside the addressed array (undefined behaviour in C++). -/
  | out_of_bounds
  /-- An integer division by zero (undefined behaviour in C++). -/
  | division_by_zero
  /-- A failed `assert` inside a device function. -/
  | device_assert
  /-- A failed `SXT_DEBUG_ASSERT`. -/
  | debug_assert
  /-- A failed `SXT_RELEASE_ASSERT`: the process logs and aborts. -/
  | release_assert
  /-- The iteration budget of an embedded `while` loop was exhausted. -/
  | out_of_fuel
  /-- A failed `assert` of `<cassert>` in host code. -/
  | host_assert
  /-- A call of `baser::panic`: the process logs and aborts. -/
  | panicked
  deriving DecidableEq, Repr

instance instDecidableEqExcept {ε α : Type} [DecidableEq ε] [DecidableEq α] :
    DecidableEq (Except ε α)
  | .ok a, .ok b => if h : a = b then isTrue (by rw [h]) else isFalse (fun h' => h (by cases h'; rfl))
  | .error a, .error b =>
    if h : a = b then isTrue (by rw [h]) else isFalse (fun h' => h (by cases h'; rfl))
  | .ok _, .error _ => isFalse (fun h => by cases h)
  | .error _, .ok _ => isFalse (fun h => by cases h)

/-- A contiguous array: `basct::span<T>`, `basct::cspan<T>`, or a pointer into
an allocation of known length. -/
structure Span (T : Type) where
  /-- Number of elements. -/
  size : Nat
  /-- Contents; only the indices below `size` are meaningful. -/
  data : Nat → T

/-- Bounds-checked read of element `i`. -/
def Span.read {T : Type} (s : Span T) (i : Nat) : Except Fault T :=
  if i < s.size then .ok (s.data i) else .error .out_of_bounds

/-- Bounds-checked store of `v` to element `i`. -/
def Span.write {T : Type} (s : Span T) (i : Nat) (v : T) : Except Fault (Span T) :=
  if i < s.size then .ok ⟨s.size, fun j => if j = i then v else s.data j⟩
  else .error .out_of_bounds

/-- Store of the values `vals` to the elements `first, first + 1, …`: a copy
into `s.subspan(first, vals.size())`. -/
def Span.write_range {T : Type} (s : Span T) (first : Nat) (vals : List T) :
    Except Fault (Span T) :=
  if first + vals.length ≤ s.size then
    .ok ⟨s.size, fun j => if first ≤ j ∧ j < first + vals.length then vals.getD (j - first) (s.data j)
      else s.data j⟩
  else .error .out_of_bounds

/-- Modelled from the spec: `basct::subspan(s, first, size)` of
`sxt/base/container/span_utility.h`, which is not among the sources: the `size`
elements of `s` that begin at element `first`. -/
def Span.subspan {T : Type} (s : Span T) (first size : Nat) : Except Fault (Span T) :=
  if first + size ≤ s.size then .ok ⟨size, fun j => s.data (first + j)⟩
  else .error .out_of_bounds

/-- The span holding the elements of a list. -/
def Span.ofList {T : Type} [Inhabited T] (xs : List T) : Span T :=
  ⟨xs.length, fun i => xs.getD i default⟩

/-- The elements of a span, as a list. -/
def Span.toList {T : Type} (s : Span T) : List T :=
  (List.range s.size).map s.data

/-- Reduction of a natural number to the range of `unsigned`. -/
def u32 (x : Nat) : Nat := x % 4294967296

/-- Reduction of a natural number to the range of `uint16_t`. -/
def u16 (x : Nat) : Nat := x % 65536

/-- Subtraction of `unsigned` values, wrapping around below zero. -/
def usub (a b : Nat) : Nat := (a % 4294967296 + (4294967296 - b % 4294967296)) % 4294967296

/-- Decrement of a pointer held as an index into its array. Moving a pointer
before the start of its array is undefined behaviour. -/
def ptr_dec (p : Nat) : Except Fault Nat :=
  match p with
  | 0 => .error .out_of_bounds
  | q + 1 => .ok q

/-! ## The curve element concept (`sxt/base/curve/element.h`) -/

/-- The operations of the `bascrv::element` concept that the kernels use.
`add_inplace e x` returns the new value of `e` and the value left in `x`, which
the concept allows to be arbitrary. -/
structure Curve (T : Type) [AddCommGroup T] where
  /-- The source function `add_inplace(res, x)`: new `res` and new `x`. -/
  add_inplace : T → T → T × T
  /-- The source function `double_element(res, e)`: new `res`. -/
  double_element : T → T
  /-- The source constant `T::identity()`. -/
  identity : T
  /-- The first operand receives the sum. -/
  add_inplace_fst : ∀ e x, (add_inplace e x).1 = e + x
  /-- Doubling agrees with adding an element to itself. -/
  double_element_eq : ∀ e, double_element e = e + e
  /-- The identity is the neutral element. -/
  identity_eq : identity = 0

/-- The curve whose `add_inplace` leaves its second operand untouched. -/
def Curve.plain (T : Type) [AddCommGroup T] : Curve T where
  add_inplace e x := (e + x, x)
  double_element e := e + e
  identity := 0
  add_inplace_fst _ _ := rfl
  double_element_eq _ := rfl
  identity_eq := rfl

/-! ## Functions of the repository outside the sources -/

/-- Modelled from the spec: `basn::divide_up(a, b)` of `sxt/base/num/divide_up.h`,
which is not among the sources: the quotient `⌈a / b⌉`. -/
def divide_up (a b : Nat) : Nat := (a + b - 1) / b

/-- Modelled from the spec: `partition_table_accessor<T>::host_view(alloc, first,
size)` of `partition_table_accessor.h`, which is not among the sources: a
host-visible slice of `size` entries of the table `table_` that begins at entry
`first`. -/
def host_view {T : Type} (table : Span T) (first size : Nat) : Except Fault (Span T) :=
  if first + size ≤ table.size then .ok ⟨size, fun i => table.data (first + i)⟩
  else .error .debug_assert

/-- Modelled from the spec: `xendv::strided_copy_host_to_device(dst, stream, src,
stride, slice_size, offset)` of `sxt/execution/device/copy.h`, of which only the
test `copy.t.cc` is among the sources. The destination of `dst_size` elements
receives `dst_size / slice_size` slices of `slice_size` elements, slice `r`
being read from `src` at `offset + r * stride`. -/
def strided_copy_host_to_device {T : Type} (dst_size : Nat) (src : Span T)
    (stride slice_size offset : Nat) : Except Fault (Span T) :=
  if dst_size = 0 then .ok ⟨0, src.data⟩
  else if slice_size = 0 ∨ dst_size % slice_size ≠ 0 then .error .release_assert
  else if offset + (dst_size / slice_size - 1) * stride + slice_size ≤ src.size then
    .ok ⟨dst_size, fun i => src.data (offset + i / slice_size * stride + i % slice_size)⟩
  else .error .out_of_bounds

/-- Modelled from the spec: `algi::launch_for_each_kernel(stream, f, n)` of
`sxt/algorithm/iteration/for_each.h`, which is not among the sources: one device
thread per index, so `f` runs once for every index below `n`. The result lists,
in index order, the values the invocations store. -/
def launch_for_each_kernel {T : Type} (f : Nat → Except Fault T) : Nat → Except Fault (List T)
  | 0 => .ok []
  | n + 1 => do
    let rs ← launch_for_each_kernel f n
    let r ← f n
    pure (rs ++ [r])

/-! ## `sxt/multiexp/pippenger2/partition_product.h` -/

/-- The loop of `compute_partition_index`: `fuel` iterations remain, `i` is the
loop counter and `res` the mask built so far. -/
def compute_partition_index_loop (scalars : Span (Fin 256)) (ptr step mask : Nat) :
    Nat → Nat → Nat → Except Fault Nat
  | 0, _, res => .ok res
  | fuel + 1, i, res => do
    let byte ← scalars.read (ptr + u32 (i * step))
    let bit_value := if byte.val &&& mask ≠ 0 then 1 else 0
    compute_partition_index_loop scalars ptr step mask fuel (i + 1)
      (res ||| u16 (bit_value <<< i))

/-- The source function `compute_partition_index`; `ptr` is the position of
the pointer `scalars` inside its array. -/
def compute_partition_index (scalars : Span (Fin 256)) (ptr step n bit_index : Nat) :
    Except Fault Nat :=
  let num_elements := min 16 n
  let mask := u32 (1 <<< bit_index)
  compute_partition_index_loop scalars ptr step mask num_elements 0 0

/-- The `while (n > 16u)` loop of `partition_product_kernel`. `table_ptr` and
`scalars_ptr` are the positions of the two moving pointers. -/
def partition_product_kernel_loop {T : Type} [AddCommGroup T] (c : Curve T)
    (partition_table : Span T) (scalars : Span (Fin 256)) (step bit_offset : Nat) :
    Nat → Nat → Nat → Nat → T → Except Fault T
  | fuel, n, table_ptr, scalars_ptr, res =>
    if n > 16 then
      match fuel with
      | 0 => .error .out_of_fuel
      | fuel + 1 => do
        let n := n - 16
        let table_ptr := table_ptr + 65536
        let scalars_ptr := scalars_ptr + u32 (16 * step)
        let partition_index ← compute_partition_index scalars scalars_ptr step n bit_offset
        let e ← partition_table.read (table_ptr + partition_index)
        partition_product_kernel_loop c partition_table scalars step bit_offset
          fuel n table_ptr scalars_ptr (c.add_inplace res e).1
    else .ok res

/-- The source function `partition_product_kernel`. The result is the index of
`products` that is written together with the value written there. -/
def partition_product_kernel {T : Type} [AddCommGroup T] (c : Curve T)
    (partition_table : Span T) (scalars : Span (Fin 256))
    (byte_index bit_offset num_products n : Nat) : Except Fault (Nat × T) := do
  let step := num_products / 8
  let scalars_ptr := byte_index
  let products_ptr := u32 (u32 (byte_index * 8) + bit_offset)
  let partition_index ← compute_partition_index scalars scalars_ptr step n bit_offset
  let res ← partition_table.read partition_index
  let res ← partition_product_kernel_loop c partition_table scalars step bit_offset
    n n 0 scalars_ptr res
  pure (products_ptr, res)

/-- The `for` loop of `partition_product`: `fuel` iterations remain, starting
at `product_index`. -/
def partition_product_loop {T : Type} [AddCommGroup T] (c : Curve T)
    (partition_table : Span T) (scalars : Span (Fin 256)) (num_products n : Nat) :
    Nat → Nat → Span T → Except Fault (Span T)
  | 0, _, products => .ok products
  | fuel + 1, product_index, products => do
    let byte_index := product_index / 8
    let bit_offset := product_index % 8
    let w ← partition_product_kernel c partition_table scalars byte_index bit_offset
      (u32 num_products) n
    let products ← products.write w.1 w.2
    partition_product_loop c partition_table scalars num_products n fuel (product_index + 1)
      products

/-- The source function `partition_product`; `table` is the table `table_` of
the accessor and the result is the content of `products` afterwards. -/
def partition_product {T : Type} [AddCommGroup T] (c : Curve T) (products : Span T)
    (table : Span T) (scalars : Span (Fin 256)) (offset : Nat) : Except Fault (Span T) :=
  let num_products := products.size
  if num_products = 0 then .error .division_by_zero
  else
    let n := u32 (scalars.size * 8 / num_products)
    if offset % 16 ≠ 0 then .error .debug_assert
    else do
      let partition_table ← host_view table offset (divide_up n 16 * 65536)
      partition_product_loop c partition_table scalars num_products n num_products 0 products

/-! ## `sxt/multiexp/pippenger2/combine_reduce.h` -/

/-- The loops over `reduction_index` in `combine_reduce_output`: `fuel`
iterations remain, starting at `reduction_index`. -/
def combine_reduce_output_reduction {T : Type} [AddCommGroup T] (c : Curve T)
    (partials : Span T) (ptr num_partials : Nat) : Nat → Nat → T → Except Fault T
  | 0, _, e => .ok e
  | fuel + 1, reduction_index, e => do
    let ep ← partials.read (ptr + u32 (reduction_index * num_partials))
    combine_reduce_output_reduction c partials ptr num_partials fuel (reduction_index + 1)
      (c.add_inplace e ep).1

/-- The loop `for (; bit_index-- > 0u;)` of `combine_reduce_output`, which runs
`bit_index` times. -/
def combine_reduce_output_bits {T : Type} [AddCommGroup T] (c : Curve T)
    (partials : Span T) (num_partials reduction_size : Nat) : Nat → Nat → T → Except Fault T
  | 0, _, e => .ok e
  | bit_index + 1, ptr, e => do
    let ptr ← ptr_dec ptr
    let e := c.double_element e
    let e ← combine_reduce_output_reduction c partials ptr num_partials reduction_size 0 e
    combine_reduce_output_bits c partials num_partials reduction_size bit_index ptr e

/-- The source function `combine_reduce_output`; `ptr` is the position of the
pointer `partials` inside its array and the result is the value stored to
`*res`. -/
def combine_reduce_output {T : Type} [AddCommGroup T] (c : Curve T) (partials : Span T)
    (ptr num_partials reduction_size bit_width : Nat) : Except Fault T := do
  let bit_index := usub bit_width 1
  let ptr ← ptr_dec ptr
  let e ← partials.read ptr
  let e ← combine_reduce_output_reduction c partials ptr num_partials (reduction_size - 1) 1 e
  combine_reduce_output_bits c partials num_partials reduction_size bit_index ptr e

/-- The source function `combine_reduce_chunk_kernel`, bit-table overload. The
result is the value stored to `res[output_index]`. -/
def combine_reduce_chunk_kernel {T : Type} [AddCommGroup T] (c : Curve T) (partials : Span T)
    (bit_table_partial_sums : Span Nat)
    (num_partials reduction_size partials_offset output_index : Nat) : Except Fault T := do
  let output_index_p := usub (max output_index 1) 1
  let sum_p ← bit_table_partial_sums.read output_index_p
  let sum_i ← bit_table_partial_sums.read output_index
  let output_correction :=
    u32 (u32 (sum_p * (if output_index ≠ 0 then 1 else 0)) +
         u32 (partials_offset * (if output_index = 0 then 1 else 0)))
  let bit_width := usub sum_i output_correction
  if bit_width > 0 then
    let ptr := usub sum_i partials_offset
    combine_reduce_output c partials ptr num_partials reduction_size bit_width
  else .error .device_assert

/-- The source function `combine_reduce_chunk_kernel`, bit-width overload. -/
def combine_reduce_chunk_kernel_width {T : Type} [AddCommGroup T] (c : Curve T)
    (partials : Span T) (bit_width num_partials reduction_size _output_index : Nat) :
    Except Fault T :=
  combine_reduce_output c partials bit_width num_partials reduction_size bit_width

/-- The device lambda `f` of the `element_num_bytes` overload of
`combine_reduce_chunk`. The result is the value stored to `res[output_index]`. -/
def combine_reduce_chunk_bytes_f {T : Type} [AddCommGroup T] (c : Curve T)
    (partials : Span T) (bit_width num_partials reduction_size output_index : Nat) :
    Except Fault T :=
  combine_reduce_output c partials (u32 (bit_width * u32 (output_index + 1)))
    num_partials reduction_size bit_width

/-- The source function `combine_reduce_chunk`, bit-table overload. `res_size`
is `res.size()`, `on_device` the value of
`basdv::is_active_device_pointer(partial_products.data())`; the result is the
content copied to `res`. -/
def combine_reduce_chunk {T : Type} [AddCommGroup T] (c : Curve T) (res_size : Nat)
    (output_bit_table_partial_sums : Span Nat) (partial_products : Span T) (on_device : Bool)
    (reduction_size partials_offset : Nat) : Except Fault (List T) :=
  if reduction_size = 0 then .error .division_by_zero
  else
    let num_partials := partial_products.size / reduction_size
    let num_outputs := output_bit_table_partial_sums.size
    match output_bit_table_partial_sums.read (num_outputs - 1) with
    | .error e => .error e
    | .ok last =>
      let slice_num_partials := usub last partials_offset
      if num_outputs > 0 ∧ res_size = num_outputs ∧
          partial_products.size = num_partials * reduction_size ∧ partials_offset < last then
        let partials_dev :=
          if on_device then
            if partial_products.size = u32 (slice_num_partials * reduction_size) then
              .ok partial_products
            else .error .release_assert
          else
            strided_copy_host_to_device (u32 (slice_num_partials * reduction_size))
              partial_products num_partials slice_num_partials partials_offset
        match partials_dev with
        | .error e => .error e
        | .ok partials_dev =>
          launch_for_each_kernel (fun output_index =>
            combine_reduce_chunk_kernel c partials_dev output_bit_table_partial_sums
              slice_num_partials reduction_size partials_offset output_index) num_outputs
      else .error .release_assert

/-- The source function `combine_reduce_chunk`, `element_num_bytes` overload. -/
def combine_reduce_chunk_bytes {T : Type} [AddCommGroup T] (c : Curve T) (res_size : Nat)
    (element_num_bytes : Nat) (partial_products : Span T) (on_device : Bool)
    (reduction_size partials_offset : Nat) : Except Fault (List T) :=
  if reduction_size = 0 then .error .division_by_zero
  else
    let num_partials := partial_products.size / reduction_size
    let num_outputs := res_size
    let bit_width := u32 (8 * element_num_bytes)
    let slice_num_partials := num_outputs * bit_width
    if num_outputs > 0 ∧ partial_products.size = num_partials * reduction_size ∧
        partials_offset < num_partials then
      let partials_dev :=
        if on_device then
          if partial_products.size = slice_num_partials * reduction_size then
            .ok partial_products
          else .error .release_assert
        else
          strided_copy_host_to_device (slice_num_partials * reduction_size)
            partial_products num_partials slice_num_partials partials_offset
      match partials_dev with
      | .error e => .error e
      | .ok partials_dev =>
        launch_for_each_kernel (fun output_index =>
          combine_reduce_chunk_bytes_f c partials_dev bit_width (u32 slice_num_partials)
            reduction_size output_index) num_outputs
    else .error .release_assert

/-- The running sums of `std::partial_sum` over `unsigned` values, continued
from the accumulator `acc`. -/
def partial_sum_from (acc : Nat) : List Nat → List Nat
  | [] => []
  | b :: bs => u32 (acc + b) :: partial_sum_from (u32 (acc + b)) bs

/-- The source call `std::partial_sum(first, last, out)` on `unsigned` values. -/
def partial_sum (xs : List Nat) : List Nat := partial_sum_from 0 xs

/-- The source function `combine_reduce`, bit-table overload taking
`split_options`. `chunks` lists the index ranges `[a, b)` that
`basit::split(basit::index_range{0, num_outputs}, split_options)` yields;
the result is the content of `res` afterwards. -/
def combine_reduce {T : Type} [AddCommGroup T] (c : Curve T) (res : Span T)
    (chunks : List (Nat × Nat)) (output_bit_table : List Nat) (partial_products : Span T)
    (on_device : Bool) : Except Fault (Span T) :=
  let num_outputs := output_bit_table.length
  if res.size ≠ num_outputs then .error .release_assert
  else if res.size = 0 then .ok res
  else
    let bit_table_partial_sums : Span Nat := Span.ofList (partial_sum output_bit_table)
    match bit_table_partial_sums.read (num_outputs - 1) with
    | .error e => .error e
    | .ok last =>
      if last = 0 then .error .division_by_zero
      else
        let reduction_size := partial_products.size / last
        if on_device then do
          let vals ← combine_reduce_chunk c res.size bit_table_partial_sums partial_products
            on_device (u32 reduction_size) 0
          res.write_range 0 vals
        else
          chunks.foldlM (fun res rng => do
            let output_first := rng.1
            let rng_size := rng.2 - rng.1
            let bit_table_partial_sums_chunk ← bit_table_partial_sums.subspan output_first rng_size
            let partials_offset ←
              if output_first > 0 then bit_table_partial_sums.read (output_first - 1) else pure 0
            let vals ← combine_reduce_chunk c rng_size bit_table_partial_sums_chunk
              partial_products on_device (u32 reduction_size) partials_offset
            res.write_range output_first vals) res

/-- The source function `combine_reduce`, `element_num_bytes` overload taking
`split_options`; `chunks` as for `combine_reduce`. -/
def combine_reduce_bytes {T : Type} [AddCommGroup T] (c : Curve T) (res : Span T)
    (chunks : List (Nat × Nat)) (element_num_bytes : Nat) (partial_products : Span T)
    (on_device : Bool) : Except Fault (Span T) :=
  let num_outputs := res.size
  let bit_width := u32 (element_num_bytes * 8)
  if res.size = 0 then .ok res
  else if num_outputs * bit_width = 0 then .error .division_by_zero
  else
    let reduction_size := partial_products.size / (num_outputs * bit_width)
    if on_device then do
      let vals ← combine_reduce_chunk_bytes c res.size element_num_bytes partial_products
        on_device (u32 reduction_size) 0
      res.write_range 0 vals
    else
      chunks.foldlM (fun res rng => do
        let output_first := rng.1
        let rng_size := rng.2 - rng.1
        let partials_offset := output_first * bit_width
        let vals ← combine_reduce_chunk_bytes c rng_size element_num_bytes partial_products
          on_device (u32 reduction_size) (u32 partials_offset)
        res.write_range output_first vals) res

/-! ## `sxt/multiexp/pippenger2/variable_length_multiexponentiation.h` -/

/-- The indices that a copy of `len` values to `s.subspan(first, len)` stores to. -/
def write_range_indices (first len : Nat) : List Nat := (List.range len).map (first + ·)

/-- The state that `async_partition_product_chunk` leaves: the content of
`products` and, for each of its two writers, the indices it stored to. -/
structure ChunkProducts (T : Type) where
  /-- Content of `products` afterwards. -/
  products : Span T
  /-- Indices stored to by the copy of `identities_host`. -/
  identity_indices : List Nat
  /-- Indices stored to by the partition product. -/
  product_indices : List Nat

/-- The source function `async_partition_product_chunk`. Two functions it calls
are not among the sources and enter as parameters: `num_products_p` is the size
that `compute_product_length_table` leaves in `product_lengths`, and
`active_products j` is the value that the variable-length
`async_partition_product` stores to entry `j` of the span
`products.subspan(num_products - num_products_p)` handed to it. -/
def async_partition_product_chunk {T : Type} [AddCommGroup T] (c : Curve T) (products : Span T)
    (num_products_p : Nat) (active_products : Nat → T) : Except Fault (ChunkProducts T) :=
  let num_products := products.size
  if num_products_p ≤ num_products then
    let products_fut : Except Fault (Span T × List Nat) :=
      if num_products_p > 0 then
        match products.write_range (num_products - num_products_p)
            ((List.range num_products_p).map active_products) with
        | .error e => .error e
        | .ok written =>
          .ok (written, write_range_indices (num_products - num_products_p) num_products_p)
      else .ok (products, [])
    match products_fut with
    | .error e => .error e
    | .ok (after_product, product_indices) =>
      let identities_host := List.replicate (num_products - num_products_p) c.identity
      match after_product.write_range 0 identities_host with
      | .error e => .error e
      | .ok after_fill =>
        .ok ⟨after_fill, write_range_indices 0 identities_host.length, product_indices⟩
  else .error .debug_assert

/-! ## Vocabulary of the specification -/

/-- The bit of the mask that scalar `i` of a group of sixteen contributes. -/
def scalar_bit (scalars : Span (Fin 256)) (ptr step bit_index i : Nat) : Bool :=
  (scalars.data (ptr + u32 (i * step))).val.testBit bit_index

/-- The number below `2^k` whose bit `i` is `f i`, for `i < k`. -/
def bits_to_nat (f : Nat → Bool) : Nat → Nat
  | 0 => 0
  | k + 1 => bits_to_nat f k ||| (if f k = true then 2 ^ k else 0)

/-- The mask of window `w`. -/
def window_mask (scalars : Span (Fin 256)) (byte_index step bit_offset n w : Nat) : Nat :=
  bits_to_nat (fun k => decide (16 * w + k < n) &&
    (scalars.data (byte_index + (16 * w + k) * step)).val.testBit bit_offset) 16

/-- The partition table holds the subset sums of the generators `G`: entry `m`
of window `w` is the sum of the generators `G (16 * w + k)` over the bits `k`
set in `m`. -/
def is_partition_table {T : Type} [AddCommGroup T] (partition_table : Span T) (G : Nat → T)
    (num_windows : Nat) : Prop :=
  ∀ w, w < num_windows → ∀ m, m < 65536 →
    partition_table.data (w * 65536 + m) =
      ∑ k in Finset.range 16, if m.testBit k = true then G (16 * w + k) else 0

/-- The sum of the generators `G (16 * w + k)` over the bits `k < bound` set in `m`. -/
def subset_sum {T : Type} [AddCommGroup T] (G : Nat → T) (w m : Nat) : Nat → T
  | 0 => 0
  | k + 1 => subset_sum G w m k + (if m.testBit k = true then G (16 * w + k) else 0)

/-- The partition table of the generators `G` for `num_windows` windows: entry
`w * 2^16 + m` is the sum of `G (16 * w + k)` over the bits `k` set in `m`. -/
def make_partition_table {T : Type} [AddCommGroup T] (G : Nat → T) (num_windows : Nat) : Span T :=
  ⟨num_windows * 65536, fun idx => subset_sum G (idx / 65536) (idx % 65536) 16⟩

/-- The little-endian unsigned integer formed by the `element_num_bytes` bytes
of the scalar of output `o` and generator `g`. -/
def scalar_value (scalars : Span (Fin 256)) (element_num_bytes num_outputs o g : Nat) : Nat :=
  ∑ b in Finset.range element_num_bytes,
    256 ^ b * (scalars.data (b + element_num_bytes * o + element_num_bytes * num_outputs * g)).val

/-- The sum over the `reduction_size` chunks of the partial at position `q`. -/
def chunk_sum {T : Type} [AddCommGroup T] (partials : Span T) (num_partials reduction_size q : Nat) :
    T :=
  ∑ r in Finset.range reduction_size, partials.data (q + r * num_partials)

/-- The element-wise sum of the `reduction_size` chunk vectors of the partials:
entry `j` is the sum over `r` of `partials[j + r * num_partials]`. -/
def sum_chunks {T : Type} [AddCommGroup T] (partials : Span T) (num_partials reduction_size : Nat) :
    Span T :=
  ⟨num_partials, fun j => ∑ r in Finset.range reduction_size, partials.data (j + r * num_partials)⟩

/-- The partials with their `reduction_size` chunk vectors stored in another
order: chunk `r` of the result is chunk `σ r` of the argument. -/
def permute_chunks {T : Type} (partials : Span T) (num_partials reduction_size : Nat)
    (σ : Equiv.Perm (Fin reduction_size)) : Span T :=
  ⟨partials.size, fun idx =>
    if h : idx / num_partials < reduction_size then
      partials.data (idx % num_partials + (σ ⟨idx / num_partials, h⟩).val * num_partials)
    else partials.data idx⟩

/-- The Horner expression `p_0 + 2·(p_1 + 2·(… + 2·p_{B-1}))` over the partials
`p_0, …, p_{B-1}` listed in increasing product-index order. -/
def horner_low_first {T : Type} [AddCommGroup T] (ps : List T) : T :=
  ps.foldr (fun p acc => p + 2 • acc) 0

/-- The Horner expression `p_{B-1} + 2·(p_{B-2} + 2·(… + 2·p_0))` over the
partials `p_0, …, p_{B-1}` listed in increasing product-index order. -/
def horner_high_first {T : Type} [AddCommGroup T] (ps : List T) : T :=
  ps.foldl (fun acc p => p + 2 • acc) 0

/-- The ranges `[a, b)` of `chunks` are non-empty, consecutive and tile
`[lo, hi)`: what `basit::split` yields for `basit::index_range{lo, hi}`. -/
def is_split : List (Nat × Nat) → Nat → Nat → Bool
  | [], lo, hi => decide (lo = hi)
  | rng :: rest, lo, hi => decide (rng.1 = lo) && decide (rng.1 < rng.2) && decide (rng.2 ≤ hi) &&
      is_split rest rng.2 hi

/-- The two generators `g0 = (1, 0)` and `g1 = (0, 1)` of the free commutative
group `ℤ × ℤ`; every further generator is the identity. -/
def two_generators (g : Nat) : Int × Int :=
  match g with
  | 0 => (1, 0)
  | 1 => (0, 1)
  | _ => (0, 0)


/-! ## `sxt/base/device/pinned_buffer.h` -/

/-- The class `pinned_buffer`: the bytes staged in the page-locked host memory of the buffer, oldest
first; the member `size_` is their number. -/
structure pinned_buffer where
  bytes : List (Fin 256)
  deriving DecidableEq

/-- The member `pinned_buffer::size`. -/
def pinned_buffer.size (b : pinned_buffer) : Nat := b.bytes.length

/-- The member `pinned_buffer::empty`: `size_ == 0`. -/
def pinned_buffer.empty (b : pinned_buffer) : Bool := b.size == 0

/-- The member `pinned_buffer::full`: `size_ == this->capacity()`; the static `capacity()` returns
the constant `pinned_buffer_size`, which is not among the sources and is the parameter `capacity`. -/
def pinned_buffer.full (capacity : Nat) (b : pinned_buffer) : Bool := b.size == capacity

/-- Modelled from the spec: `pinned_buffer::fill_from_host` is declared in `pinned_buffer.h` and
defined in `pinned_buffer.cc`, which is not among the sources. It appends bytes of `src` to the
buffer until the buffer is full or `src` is used up, and returns the rest of `src` ("Fill `active`
from source. If the source does not fill `active`, ... keep pending bytes in `active`"). -/
def pinned_buffer.fill_from_host (capacity : Nat) (b : pinned_buffer) (src : List (Fin 256)) :
    pinned_buffer × List (Fin 256) :=
  let n := min src.length (capacity - b.size)
  (⟨b.bytes ++ src.take n⟩, src.drop n)

/-- Modelled from the spec: `pinned_buffer::reset` is declared in `pinned_buffer.h` and defined in
`pinned_buffer.cc`, which is not among the sources. It gives the pinned memory back and leaves the
buffer empty ("reset both buffers"). -/
def pinned_buffer.reset (_b : pinned_buffer) : pinned_buffer := ⟨[]⟩

/-! ## `sxt/execution/device/to_device_copier.cc` -/

/-- The operations a copier issues on its stream. -/
inductive StreamOp where
  /-- The call `basdv::async_memcpy_host_to_device(dst, src, count, stream)`: `dst` is the offset of
  the target in the destination given to the constructor, `bytes` the `count` bytes of the pinned
  buffer at the time of the call. -/
  | async_memcpy_host_to_device (dst : Nat) (bytes : List (Fin 256))
  /-- The suspension `co_await await_stream(stream)`: the caller resumes when every operation
  issued before on the stream has completed. -/
  | await_stream
  deriving DecidableEq

/-- The class `to_device_copier`. The span `dst_` is the pair of `dst_data`, the offset of
`dst_.data()` in the destination given to the constructor, and `dst_size`; `stream_` is the list of
the operations issued so far on the stream, oldest first. -/
structure to_device_copier where
  dst_data : Nat
  dst_size : Nat
  active_buffer_ : pinned_buffer
  alt_buffer_ : pinned_buffer
  stream_ : List StreamOp
  deriving DecidableEq

/-- The constructor `to_device_copier(dst, stream)` for a destination of `dst_size` bytes and a
stream without operations. -/
def to_device_copier.create (dst_size : Nat) : to_device_copier :=
  ⟨0, dst_size, ⟨[]⟩, ⟨[]⟩, []⟩

/-- The statements of `to_device_copier::copy` after its loop, reached by `break`. The copy of the
active buffer writes `active_buffer_.size()` bytes at `dst_.data()`, which is inside the
destination only if `dst_` has that many bytes. -/
def to_device_copier.copy_finish (c : to_device_copier) (src : List (Fin 256)) :
    Except Fault to_device_copier :=
  if ¬ src.isEmpty then .error .release_assert
  else if c.dst_size < c.active_buffer_.size then .error .out_of_bounds
  else
    .ok { dst_data := 0
          dst_size := 0
          active_buffer_ := c.active_buffer_.reset
          alt_buffer_ := c.alt_buffer_.reset
          stream_ := c.stream_ ++
            [StreamOp.async_memcpy_host_to_device c.dst_data c.active_buffer_.bytes, StreamOp.await_stream] }

/-- The loop `while (true)` of `to_device_copier::copy` with an iteration budget, followed by the
statements after the loop when it is left by `break`. -/
def to_device_copier.copy_loop (capacity : Nat) :
    Nat → to_device_copier → List (Fin 256) → Except Fault to_device_copier
  | 0, _, _ => .error .out_of_fuel
  | fuel + 1, c, src =>
    if src.isEmpty then .ok c
    else
      let filled := c.active_buffer_.fill_from_host capacity src
      let c1 := { c with active_buffer_ := filled.1 }
      let src1 := filled.2
      if c1.active_buffer_.size = c1.dst_size then
        c1.copy_finish src1
      else if ¬ c1.active_buffer_.full capacity then
        if src1.isEmpty then .ok c1 else .error .debug_assert
      else
        let c2 :=
          if ¬ c1.alt_buffer_.empty then
            { c1 with stream_ := c1.stream_ ++ [StreamOp.await_stream], alt_buffer_ := c1.alt_buffer_.reset }
          else c1
        if c2.dst_size < c2.active_buffer_.size then .error .out_of_bounds
        else
          let c3 :=
            { c2 with stream_ := c2.stream_ ++
                [StreamOp.async_memcpy_host_to_device c2.dst_data c2.active_buffer_.bytes] }
          let c4 :=
            { c3 with dst_data := c3.dst_data + c3.active_buffer_.size
                      dst_size := c3.dst_size - c3.active_buffer_.size }
          let c5 := { c4 with active_buffer_ := c4.alt_buffer_, alt_buffer_ := c4.active_buffer_ }
          to_device_copier.copy_loop capacity fuel c5 src1

/-- The coroutine `to_device_copier::copy`, run to completion. Every iteration of the loop that
does not leave it takes at least one byte of `src` when the capacity is positive, so that
`src.size() + 1` iterations are enough. -/
def to_device_copier.copy (capacity : Nat) (c : to_device_copier) (src : List (Fin 256)) :
    Except Fault to_device_copier :=
  if ¬ src.length ≤ c.dst_size then .error .release_assert
  else if c.dst_size = 0 then .ok c
  else to_device_copier.copy_loop capacity (src.length + 1) c src

/-- A sequence of calls of `copy` on one copier, each run to completion before the next. -/
def to_device_copier.copy_all (capacity : Nat) (c : to_device_copier)
    (calls : List (List (Fin 256))) : Except Fault to_device_copier :=
  calls.foldlM (fun c src => c.copy capacity src) c

/-! ## Vocabulary of the specification: streams and device memory -/

/-- The effect of a completed stream operation on the destination: the byte at every offset, `none`
where nothing was written. -/
def StreamOp.apply (mem : Nat → Option (Fin 256)) : StreamOp → Nat → Option (Fin 256)
  | .async_memcpy_host_to_device dst bytes => fun i =>
      if dst ≤ i ∧ i < dst + bytes.length then bytes[i - dst]? else mem i
  | .await_stream => mem

/-- The destination after all operations of a stream have completed, in the order of issue. -/
def device_memory (ops : List StreamOp) : Nat → Option (Fin 256) :=
  ops.foldl StreamOp.apply (fun _ => none)

/-- The number of copies issued and not yet awaited after the operations `ops`, when `k` were in
flight before them. -/
def in_flight : Nat → List StreamOp → Nat
  | k, [] => k
  | k, .async_memcpy_host_to_device _ _ :: ops => in_flight (k + 1) ops
  | _, .await_stream :: ops => in_flight 0 ops

/-- The largest number of copies in flight at any moment of the operations `ops`, when `k` were in
flight before them. -/
def max_in_flight : Nat → List StreamOp → Nat
  | k, [] => k
  | k, .async_memcpy_host_to_device _ _ :: ops => max k (max_in_flight (k + 1) ops)
  | k, .await_stream :: ops => max k (max_in_flight 0 ops)

/-- The pacing of the copies of a stream for a destination of `D` bytes: every copy is issued with
no copy in flight, except that the copy ending at the last byte of the destination may be issued
with one copy in flight and is then followed at once by an await. -/
def paced (D : Nat) : Nat → List StreamOp → Bool
  | _, [] => true
  | k, .async_memcpy_host_to_device dst bytes :: ops =>
      (k == 0 || (k == 1 && dst + bytes.length == D && ops.head? == some .await_stream))
        && paced D (k + 1) ops
  | _, .await_stream :: ops => paced D 0 ops

/-- The states of a copier for a destination of `D` bytes between two calls of `copy`, when the
bytes `P` have been written to the device: either the destination is not complete, `dst_` is the
part behind `P` and the active buffer holds fewer bytes than its capacity and than `dst_`, or the
destination is complete and both the span and the active buffer are empty. -/
def copier_inv (D capacity : Nat) (c : to_device_copier) (P : List (Fin 256)) : Prop :=
  (∀ i, device_memory c.stream_ i = P[i]?) ∧
  ((c.dst_size ≠ 0 ∧ c.dst_data = P.length ∧ c.dst_data + c.dst_size = D ∧
      c.active_buffer_.size < capacity ∧ c.active_buffer_.size < c.dst_size) ∨
   (c.dst_size = 0 ∧ c.active_buffer_.bytes = [] ∧ P.length = D))

/-- The states of a copier for a destination of `D` bytes in which the stream is paced, a copy is
in flight exactly when the alternate buffer holds bytes, and a non-empty `dst_` ends at the end of
the destination. -/
def pace_inv (D : Nat) (c : to_device_copier) : Prop :=
  paced D 0 c.stream_ = true ∧
  in_flight 0 c.stream_ = (if c.alt_buffer_.empty then 0 else 1) ∧
  (c.dst_size ≠ 0 → c.dst_data + c.dst_size = D)

/-! ## `sxt/base/device/pinned_buffer_pool.cc` -/

/-- The class `pinned_buffer_pool` together with the heap of the `pinned_buffer_handle` objects. A
handle is the address of its object, a natural number, and `none` is `nullptr`. The field `head_`
is the member of the class; `next h` is the member `next` of the handle `h`; `allocated` counts the
objects created by `new` so far, the next object getting the address `allocated`. -/
structure pinned_buffer_pool where
  head_ : Option Nat
  next : Nat → Option Nat
  allocated : Nat

/-- The function `new_handle`: `new pinned_buffer_handle{}` gives a fresh object whose `next` is
`nullptr`; `malloc_ok` tells whether `cudaMallocHost` returns `cudaSuccess`. -/
def new_handle (malloc_ok : Bool) (s : pinned_buffer_pool) :
    Except Fault (Nat × pinned_buffer_pool) :=
  let res := s.allocated
  let s1 : pinned_buffer_pool :=
    { s with next := fun h => if h = res then none else s.next h, allocated := s.allocated + 1 }
  if ¬ malloc_ok then .error .panicked else .ok (res, s1)

/-- The member `pinned_buffer_pool::acquire_handle`; it returns the handle and the new state. -/
def pinned_buffer_pool.acquire_handle (malloc_ok : Bool) (s : pinned_buffer_pool) :
    Except Fault (Nat × pinned_buffer_pool) :=
  let filled : Except Fault pinned_buffer_pool :=
    if s.head_ = none then
      match new_handle malloc_ok s with
      | .error e => .error e
      | .ok (h, s1) => .ok { s1 with head_ := some h }
    else .ok s
  match filled with
  | .error e => .error e
  | .ok s1 =>
    match s1.head_ with
    | none => .error .out_of_bounds
    | some res =>
      .ok (res, { s1 with head_ := s1.next res
                          next := fun h => if h = res then none else s1.next h })

/-- The member `pinned_buffer_pool::release_handle`. -/
def pinned_buffer_pool.release_handle (s : pinned_buffer_pool) (handle : Nat) :
    Except Fault pinned_buffer_pool :=
  if s.next handle ≠ none then .error .host_assert
  else .ok { s with next := fun h => if h = handle then s.head_ else s.next h
                    head_ := some handle }

/-- The loop of `pinned_buffer_pool::size` with an iteration budget: `h` walks the list and `res`
counts. -/
def pinned_buffer_pool.size_loop (next : Nat → Option Nat) :
    Nat → Option Nat → Nat → Except Fault Nat
  | _, none, res => .ok res
  | 0, some _, _ => .error .out_of_fuel
  | fuel + 1, some h, res => pinned_buffer_pool.size_loop next fuel (next h) (res + 1)

/-- The member `pinned_buffer_pool::size` with an iteration budget for its loop. -/
def pinned_buffer_pool.size (fuel : Nat) (s : pinned_buffer_pool) : Except Fault Nat :=
  pinned_buffer_pool.size_loop s.next fuel s.head_ 0

/-! ## Vocabulary of the specification: free lists -/

/-- The free list that starts at the pointer `p` consists of the handles `l`, in this order, and
ends with `nullptr`. -/
def is_free_list (next : Nat → Option Nat) : Option Nat → List Nat → Bool
  | p, [] => p == none
  | p, h :: l => p == some h && is_free_list next (next h) l

/-! ## `sxt/multiexp/pippenger2/in_memory_partition_table_accessor.h` -/

/-- Modelled from the spec: `basdv::async_copy_host_to_device(dst, src, stream)` of
`sxt/base/device/memory_utility.h`, which is not among the sources: the elements of `src` are
copied to the front of `dst`. -/
def async_copy_host_to_device {T : Type} (dst src : Span T) : Except Fault (Span T) :=
  if src.size ≤ dst.size then
    .ok ⟨dst.size, fun i => if i < src.size then src.data i else dst.data i⟩
  else .error .out_of_bounds

/-- The constructor of `in_memory_partition_table_accessor<T>`; the result is the member `table_`.
The file is `none` when the stream opened on `filename` is not good and otherwise its bytes;
`sizeof_T` is `sizeof(T)`. The call `in.read` stores byte `k` of the file to byte `k` of the
array, so element `i` of the table is made of the bytes `i * sizeof(T), …, (i + 1) * sizeof(T) - 1`
of the file. -/
def in_memory_partition_table_accessor (sizeof_T : Nat) (file : Option (List (Fin 256))) :
    Except Fault (Span (List (Fin 256))) :=
  match file with
  | none => .error .panicked
  | some bytes =>
    let size := bytes.length
    if ¬ size % sizeof_T = 0 then .error .release_assert
    else .ok ⟨size / sizeof_T, fun i => (bytes.drop (i * sizeof_T)).take sizeof_T⟩

/-- The member `async_copy_precomputed_sums_to_device(dest, stream, first)`; the result is the
content of `dest` after the copy. The flag `dest_on_device` is the value of
`basdv::is_active_device_pointer(dest.data())`. The macro `SXT_DEBUG_ASSERT` is defined in
`sxt/base/error/assert.h`, which is not among the sources; as its name says, and as the use of
`SXT_RELEASE_ASSERT` for the check of the constructor shows, it is checked only in a build with
debug assertions. The flag `debug_asserts` tells whether the build has them; without them the
function goes on to `basct::subspan(table_, first, dest.size())` whatever the arguments are. -/
def async_copy_precomputed_sums_to_device {T : Type} (debug_asserts : Bool) (table_ : Span T)
    (dest : Span T) (dest_on_device : Bool) (first : Nat) : Except Fault (Span T) :=
  if debug_asserts = true ∧ ¬ (table_.size ≥ dest.size + first ∧ dest_on_device = true) then
    .error .debug_assert
  else do
    let src ← table_.subspan first dest.size
    async_copy_host_to_device dest src

/-! ## `benchmark/multi_exp_triangle/benchmark.m.cc` -/

/-- The element types `main` instantiates `run_benchmark` with, named by their curves. -/
inductive BenchmarkCurve where
  | curve25519
  | bls12_381
  | bn254
  | grumpkin
  deriving DecidableEq

/-- A call of `run_benchmark` with its arguments. -/
structure BenchmarkRun where
  curve : BenchmarkCurve
  num_samples : Nat
  num_outputs : Nat
  element_num_bytes : Nat
  n : Nat
  verbose : Bool
  deriving DecidableEq

/-- The outcome of `main`: the value it returns and the call of `run_benchmark` it made, if any. -/
structure MainResult where
  exit_code : Int
  benchmarked : Option BenchmarkRun
  deriving DecidableEq

/-- The function `main` of the benchmark. The list `argv` holds the `argc` arguments with the
program name first; `from_chars s` is the value `std::from_chars` stores for the string `s`, and
`none` when its error code is not `std::errc{}`. Printing is left out. -/
def main (from_chars : String → Option Nat) (argv : List String) : MainResult :=
  if argv.length ≠ 7 then ⟨-1, none⟩
  else
    let curve_str := argv.getD 1 ""
    let n_str := argv.getD 2 ""
    let num_samples_str := argv.getD 3 ""
    let num_outputs_str := argv.getD 4 ""
    let element_num_bytes_str := argv.getD 5 ""
    let verbose := argv.getD 6 "" != "0"
    match from_chars n_str with
    | none => ⟨-1, none⟩
    | some n =>
    match from_chars num_samples_str with
    | none => ⟨-1, none⟩
    | some num_samples =>
    match from_chars num_outputs_str with
    | none => ⟨-1, none⟩
    | some num_outputs =>
    match from_chars element_num_bytes_str with
    | none => ⟨-1, none⟩
    | some element_num_bytes =>
      let benchmarked : Option BenchmarkRun :=
        if curve_str = "curve25519" then
          some ⟨.curve25519, num_samples, num_outputs, element_num_bytes, n, verbose⟩
        else if curve_str = "bls12_381" ∨ curve_str = "bls12-381" then
          some ⟨.bls12_381, num_samples, num_outputs, element_num_bytes, n, verbose⟩
        else if curve_str = "bn254" then
          some ⟨.bn254, num_samples, num_outputs, element_num_bytes, n, verbose⟩
        else if curve_str = "grumpkin" then
          some ⟨.grumpkin, num_samples, num_outputs, element_num_bytes, n, verbose⟩
        else none
      ⟨0, benchmarked⟩

/-! ## `sxt/curve21/type/element_p3.cc` -/

/-- Modelled from the spec: the type `f51t::element` of `sxt/field51/type/element.h`, which is not
among the sources: the five 64-bit limbs of an element of the field, read and written with
`operator[]`. -/
structure f51_element where
  limb0 : Nat
  limb1 : Nat
  limb2 : Nat
  limb3 : Nat
  limb4 : Nat
  deriving DecidableEq

/-- The functions on `f51t::element` that `element_p3.cc` calls and that are not among the
sources, for a representation `E` of the elements of a commutative ring `F` such as the field of
curve25519: `value` is the element of `F` that a representation stands for, `mul f g` is the
result `h` of `f51o::mul(h, f, g)` and `eq` is `operator==`, with `operator!=` its negation. -/
structure Field51 (E F : Type) [CommRing F] where
  value : E → F
  mul : E → E → E
  eq : E → E → Bool
  /-- The function `f51o::mul` multiplies in the field. -/
  mul_value : ∀ f g, value (mul f g) = value f * value g
  /-- The operator `==` compares the field elements. -/
  eq_iff : ∀ f g, eq f g = true ↔ value f = value g

/-- The field operations on a ring that represents itself. -/
def Field51.plain (F : Type) [CommRing F] [DecidableEq F] : Field51 F F where
  value f := f
  mul f g := f * g
  eq f g := decide (f = g)
  mul_value _ _ := rfl
  eq_iff _ _ := by simp

/-- The struct `element_p3` over a representation `E` of the field elements. -/
structure element_p3 (E : Type) where
  X : E
  Y : E
  Z : E
  T : E
  deriving DecidableEq

/-- The constant `unset_marker_v`: `static_cast<uint64_t>(-1)`. -/
def unset_marker_v : Nat := 18446744073709551615

/-- The function `mark(element_p3& e)`: the element after the call. -/
def element_p3.mark (e : element_p3 f51_element) : element_p3 f51_element :=
  { e with Z := { e.Z with limb4 := unset_marker_v } }

/-- The function `is_marked(const element_p3& e)`. -/
def element_p3.is_marked (e : element_p3 f51_element) : Bool :=
  e.Z.limb4 != unset_marker_v

/-- The function `operator==(const element_p3& lhs, const element_p3& rhs)`. -/
def element_p3.eq {E F : Type} [CommRing F] (f51 : Field51 E F) (lhs rhs : element_p3 E) : Bool :=
  let lhs_p := f51.mul lhs.X rhs.Z
  let rhs_p := f51.mul rhs.X lhs.Z
  if ! f51.eq lhs_p rhs_p then false
  else
    let lhs_p := f51.mul lhs.Y rhs.Z
    let rhs_p := f51.mul rhs.Y lhs.Z
    f51.eq lhs_p rhs_p

/-! ## `sxt/base/curve/example_element.h` -/

/-- The struct `element97`. -/
structure element97 where
  value : Nat
  marked : Bool
  deriving DecidableEq

/-- The constructor `element97(uint32_t val)`; the member `marked` keeps its initializer. -/
def element97.create (val : Nat) : element97 := ⟨u32 val % 97, false⟩

/-- The defaulted constructor `element97()`: `value` is not initialized and holds the arbitrary
`uint32_t` value `garbage`; `marked` is `false`. -/
def element97.uninitialized (garbage : Nat) : element97 := ⟨u32 garbage, false⟩

/-- The function `element97::identity`. -/
def element97.identity : element97 := element97.create 0

/-- The function `double_element(res, e)`: `res` after the call. -/
def element97.double_element (res e : element97) : element97 :=
  { res with value := u32 (e.value + e.value) % 97 }

/-- The function `neg(res, e)`: `res` after the call. -/
def element97.neg (res e : element97) : element97 :=
  { res with value := usub 97 e.value % 97 }

/-- The function `cneg(res, b)`: `res` after the call. -/
def element97.cneg (res : element97) (b : Int) : element97 :=
  if b ≠ 0 then { res with value := usub 97 res.value % 97 } else res

/-- The function `add(res, x, y)`: `res` after the call. -/
def element97.add (res x y : element97) : element97 :=
  { res with value := u32 (x.value + y.value) % 97 }

/-- The function `add_inplace(res, x)`: `res` and `x` after the call. -/
def element97.add_inplace (res x : element97) : element97 × element97 :=
  ({ res with value := u32 (res.value + x.value) % 97 }, element97.create 13)

/-- The function `mark(element97& res)`: `res` after the call. -/
def element97.mark (res : element97) : element97 := { res with marked := true }

/-- The function `is_marked(const element97& e)`. -/
def element97.is_marked (e : element97) : Bool := e.marked

/-! ## The kernels with their stores -/

/-- The curve whose `add_inplace` leaves the value `junk` in its second operand, as the
`add_inplace` of `element97` leaves 13. -/
def Curve.clobber (T : Type) [AddCommGroup T] (junk : T) : Curve T where
  add_inplace e x := (e + x, junk)
  double_element e := e + e
  identity := 0
  add_inplace_fst _ _ := rfl
  double_element_eq _ := rfl
  identity_eq := rfl

/-- The source function `partition_product_kernel` with its store `*products = res`: the arrays
`products` and `partition_table` after the call. The table is reached through a pointer to
`const` and the second operand of `add_inplace` is the local copy `e` of a table entry. -/
def partition_product_kernel_run {T : Type} [AddCommGroup T] (c : Curve T)
    (products partition_table : Span T) (scalars : Span (Fin 256))
    (byte_index bit_offset num_products n : Nat) : Except Fault (Span T × Span T) := do
  let w ← partition_product_kernel c partition_table scalars byte_index bit_offset num_products n
  let products ← products.write w.1 w.2
  pure (products, partition_table)

/-- The source function `combine_reduce_output` with its store `*res = e`, `res` pointing to
element `res_index` of its array: the arrays `res` and `partials` after the call. The partials
are reached through a pointer to `const` and the second operand of `add_inplace` is the local
copy `ep` of a partial. -/
def combine_reduce_output_run {T : Type} [AddCommGroup T] (c : Curve T) (res : Span T)
    (res_index : Nat) (partials : Span T) (ptr num_partials reduction_size bit_width : Nat) :
    Except Fault (Span T × Span T) := do
  let e ← combine_reduce_output c partials ptr num_partials reduction_size bit_width
  let res ← res.write res_index e
  pure (res, partials)

/-! ## `run_benchmark` of `benchmark/multi_exp_triangle/benchmark.m.cc` -/

/-- The loop of `run_benchmark` that fills `output_lengths`: `fuel` iterations remain,
`length_counter` is the counter captured by reference and `output_lengths` holds the entries
written so far. -/
def output_lengths_loop (n : Nat) : Nat → Nat → List Nat → List Nat
  | 0, _, output_lengths => output_lengths
  | fuel + 1, length_counter, output_lengths =>
    let length_counter := u32 (length_counter + 1)
    output_lengths_loop n fuel length_counter (output_lengths ++ [min length_counter n])

/-- The part of `run_benchmark` that computes `output_lengths` from `num_outputs` and `n`. -/
def run_benchmark_output_lengths (num_outputs n : Nat) : List Nat :=
  let length_counter := if n > num_outputs then usub n num_outputs else 0
  output_lengths_loop n num_outputs length_counter []

/-! ## `sxt/scalar25/operation/inner_product.cc` -/

/-- Modelled from the spec: `s25o::mul(s, a, b)` of `sxt/scalar25/operation/mul.h`, which is not
among the sources: the product in the scalar field. -/
def s25o_mul {F : Type} [CommRing F] (a b : F) : F := a * b

/-- Modelled from the spec: `s25o::muladd(s, a, b, c)` of `sxt/scalar25/operation/muladd.h`, which
is not among the sources: `s = a * b + c` in the scalar field. -/
def s25o_muladd {F : Type} [CommRing F] (a b c : F) : F := a * b + c

/-- The loop of `inner_product`: `fuel` iterations remain, starting at `i`. -/
def inner_product_loop {F : Type} [CommRing F] (lhs rhs : Span F) : Nat → Nat → F → Except Fault F
  | 0, _, res => .ok res
  | fuel + 1, i, res => do
    let a ← lhs.read i
    let b ← rhs.read i
    inner_product_loop lhs rhs fuel (i + 1) (s25o_muladd a b res)

/-- The source function `inner_product(res, lhs, rhs)`; the result is the value of `res`. -/
def inner_product {F : Type} [CommRing F] (lhs rhs : Span F) : Except Fault F :=
  let n := min lhs.size rhs.size
  if ¬ n > 0 then .error .debug_assert
  else do
    let a ← lhs.read 0
    let b ← rhs.read 0
    inner_product_loop lhs rhs (n - 1) 1 (s25o_mul a b)

/-! ## Vocabulary of the specification: copies inside the destination -/

/-- Every copy of the stream writes inside a destination of `D` bytes. -/
def copies_in_bounds (D : Nat) : List StreamOp → Bool
  | [] => true
  | .async_memcpy_host_to_device dst bytes :: ops =>
      decide (dst + bytes.length ≤ D) && copies_in_bounds D ops
  | .await_stream :: ops => copies_in_bounds D ops

/-! ## The table reads of `partition_product_kernel` -/

/-- The `while (n > 16u)` loop of `partition_product_kernel`, keeping instead of the sum the
indices at which `partition_table`, as passed to the kernel, is read, in the order of the reads.
A run that stops at a fault has read the indices listed up to there. -/
def partition_product_kernel_loop_reads (scalars : Span (Fin 256)) (step bit_offset : Nat) :
    Nat → Nat → Nat → Nat → List Nat
  | 0, _, _, _ => []
  | fuel + 1, n, table_ptr, scalars_ptr =>
    if n > 16 then
      match compute_partition_index scalars (scalars_ptr + u32 (16 * step)) step (n - 16)
          bit_offset with
      | .error _ => []
      | .ok partition_index =>
        (table_ptr + 65536 + partition_index) ::
          partition_product_kernel_loop_reads scalars step bit_offset fuel (n - 16)
            (table_ptr + 65536) (scalars_ptr + u32 (16 * step))
    else []

/-- The source function `partition_product_kernel`, keeping instead of its result the indices at
which it reads `partition_table`. -/
def partition_product_kernel_reads (scalars : Span (Fin 256))
    (byte_index bit_offset num_products n : Nat) : List Nat :=
  let step := num_products / 8
  let scalars_ptr := byte_index
  match compute_partition_index scalars scalars_ptr step n bit_offset with
  | .error _ => []
  | .ok partition_index =>
    partition_index ::
      partition_product_kernel_loop_reads scalars step bit_offset n n 0 scalars_ptr

/-! ## `sxt/curve_g1/type/conversion_utility.h` -/

/-- Modelled from the spec: `basn::cmov(h, g, b)` of `sxt/base/num/cmov.h`, which is not among the
sources, and `f12o::cmov(h, g, b)` of `sxt/field12/operation/cmov.h`, likewise: the value of `h`
after the call, which is `g` if `b` holds and the old `h` otherwise. -/
def basn_cmov {α : Type} (h g : α) (b : Bool) : α := if b then g else h

/-- Modelled from the spec: `f12o::invert(h, f)` of `sxt/field12/operation/invert.h`, which is not
among the sources: the value of `h` after the call, the inverse of `f` and zero for `f = 0`,
together with the returned flag, which tells whether `f` is zero. A field element stands for
itself. -/
def f12o_invert {F : Type} [Field F] [DecidableEq F] (f : F) : F × Bool := (f⁻¹, decide (f = 0))

/-- The struct `cg1t::element_p2` of `element_p2.h`, which is not among the sources: projective
coordinates. -/
structure element_p2 (F : Type) where
  X : F
  Y : F
  Z : F

/-- The struct `cg1t::element_affine` of `element_affine.h`, which is not among the sources:
affine coordinates and the flag of the point at infinity. -/
structure element_affine (F : Type) where
  X : F
  Y : F
  infinity : Bool

/-- The source function `to_element_affine(a, p)`: the value of `a` after the call. The constant
`element_affine::identity()` is outside the sources and is the parameter `identity`;
`f12o::mul` is the product of the field, `f12cn::zero_v` its zero. -/
def to_element_affine {F : Type} [Field F] [DecidableEq F] (identity : element_affine F)
    (p : element_p2 F) : element_affine F :=
  let inverted := f12o_invert p.Z
  let z_inv := inverted.1
  let is_zero := inverted.2
  let z_inv := basn_cmov z_inv 0 is_zero
  let x := p.X * z_inv
  let y := p.Y * z_inv
  let a : element_affine F := ⟨x, y, false⟩
  let a := { a with X := basn_cmov a.X identity.X is_zero }
  let a := { a with Y := basn_cmov a.Y identity.Y is_zero }
  { a with infinity := basn_cmov a.infinity identity.infinity is_zero }

/-- The source function `to_element_p2(p, a)`: the value of `p` after the call; `f12cn::one_v`
and `f12cn::zero_v` are the one and the zero of the field. -/
def to_element_p2 {F : Type} [Field F] (a : element_affine F) : element_p2 F :=
  let p : element_p2 F := ⟨a.X, a.Y, 1⟩
  { p with Z := basn_cmov p.Z 0 a.infinity }

/-! ## `transpose_scalars` (tested in `sxt/multiexp/base/scalar_array.t.cc`) -/

/-- The position in `scalars` of the byte that the transposition puts at position `j`: byte
`j / n` of scalar `j mod n`. -/
def transpose_index (element_num_bytes n j : Nat) : Nat :=
  j / n + j % n * element_num_bytes

/-- Modelled from the spec: `mtxb::transpose_scalars(array, scalars, element_num_bytes, n, offset)`
of `sxt/multiexp/base/scalar_array.cc`, which is not among the sources; only its test
`scalar_array.t.cc` is. For `n` scalars of `element_num_bytes` bytes the function writes
`array[i] = scalars[(i + offset) / n + ((i + offset) mod n) * element_num_bytes]` for every
`i < array.size()`, as the test cases and the loop of the section "problem case" require. The
result is the content of `array`; `array_size` is `array.size()`. -/
def transpose_scalars (array_size : Nat) (scalars : Span (Fin 256))
    (element_num_bytes n offset : Nat) : Except Fault (List (Fin 256)) :=
  (List.range array_size).mapM
    (fun i => scalars.read (transpose_index element_num_bytes n (i + offset)))

/-! ## `sxt/proof/inner_product/verification_kernel.cc` -/

/-- The loop `while (a != np)` of `async_compute_g_exponents_partial` with an iteration budget.
`multiplier_iter` is the position of the iterator in `x_sq_vector`, `reads` lists the positions of
`x_sq_vector` read so far. The call of `algi::transform`, which is not among the sources, applies
`f` to the elements of `g_exponents.subspan(0, a)` and stores the results to
`g_exponents.subspan(a, a)`. -/
def g_exponents_loop {F : Type} [CommRing F] (x_sq_vector : Span F) (np : Nat) :
    Nat → Nat → Nat → Span F → List Nat → Except Fault (Span F × List Nat)
  | 0, a, _, g_exponents, reads =>
    if a ≠ np then .error .out_of_fuel else .ok (g_exponents, reads)
  | fuel + 1, a, multiplier_iter, g_exponents, reads =>
    if a ≠ np then
      match ptr_dec multiplier_iter with
      | .error e => .error e
      | .ok multiplier_iter =>
        match x_sq_vector.read multiplier_iter with
        | .error e => .error e
        | .ok multiplier =>
          if ¬ a + a ≤ g_exponents.size then .error .out_of_bounds
          else
            g_exponents_loop x_sq_vector np fuel (u32 (a * 2)) multiplier_iter
              ⟨g_exponents.size, fun i =>
                if a ≤ i ∧ i < a + a then s25o_mul multiplier (g_exponents.data (i - a))
                else g_exponents.data i⟩
              (reads ++ [multiplier_iter])
    else .ok (g_exponents, reads)

/-- The source function `async_compute_g_exponents_partial`, run to completion: the content of
`g_exponents` afterwards and the positions of `x_sq_vector` read, in the order of the reads.
`host_pointers` is the value of the two calls of `basdv::is_host_pointer`. Every iteration moves
the iterator by one element, so that `x_sq_vector.size()` iterations are enough. The shifts are
those of the source for `num_rounds < 64`, which the first conjunct of the assertion implies
here. -/
def async_compute_g_exponents_partial {F : Type} [CommRing F] (g_exponents x_sq_vector : Span F)
    (round_first : Nat) (host_pointers : Bool) : Except Fault (Span F × List Nat) :=
  let num_rounds := round_first - 1 + x_sq_vector.size
  let np := 1 <<< num_rounds
  if ¬ (np ≤ 4294967295 ∧ host_pointers = true ∧ g_exponents.size = np ∧
      x_sq_vector.size ≠ 0 ∧ round_first > 0) then .error .debug_assert
  else
    let a := u32 (1 <<< (round_first - 1))
    let multiplier_iter := x_sq_vector.size
    g_exponents_loop x_sq_vector np x_sq_vector.size a multiplier_iter g_exponents []

/-! ## Vocabulary of the specification: the expanded exponents -/

/-- The product of the multipliers `x_sq_vector[k - 1 - t]` over the steps `t < steps` for which
bit `round_first - 1 + t` of `i` is set. -/
def g_exponent_factor {F : Type} [CommRing F] (x_sq_vector : Span F) (round_first k steps i : Nat) :
    F :=
  ∏ t in Finset.range steps,
    if i.testBit (round_first - 1 + t) then x_sq_vector.data (k - 1 - t) else 1

/-! ## `sxt/field12/base/subtract_p.h` -/

/-- Reduction of a natural number to the range of `uint64_t`. -/
def u64 (x : Nat) : Nat := x % 18446744073709551616

/-- Modelled from the spec: `basfld::sbb(ret, borrow, a, b)` of
`sxt/base/field/arithmetic_utility.h`, which is not among the sources: the difference
`a - (b + (borrow >> 63))` in 128-bit arithmetic, of which `ret` receives the low and `borrow`
the high 64 bits. The result is the pair of the new `ret` and the new `borrow`. -/
def basfld_sbb (borrow a b : Nat) : Nat × Nat :=
  let ret_tmp := (a + (340282366920938463463374607431768211456 - (b + borrow >>> 63))) %
    340282366920938463463374607431768211456
  (u64 ret_tmp, u64 (ret_tmp >>> 64))

/-- The value of an array of 64-bit limbs, least significant limb first. -/
def limbs_value : List Nat → Nat
  | [] => 0
  | x :: xs => x + 18446744073709551616 * limbs_value xs

/-- The source function `subtract_p(ret, a)` of `field12`: the six limbs of `ret` after the call.
The constant `p_v` of `constants.h`, which is not among the sources, is the parameter `p_v`;
arrays are lists and a limb outside a list reads as 0. -/
def subtract_p (p_v a : List Nat) : List Nat :=
  let s0 := basfld_sbb 0 (a.getD 0 0) (p_v.getD 0 0)
  let s1 := basfld_sbb s0.2 (a.getD 1 0) (p_v.getD 1 0)
  let s2 := basfld_sbb s1.2 (a.getD 2 0) (p_v.getD 2 0)
  let s3 := basfld_sbb s2.2 (a.getD 3 0) (p_v.getD 3 0)
  let s4 := basfld_sbb s3.2 (a.getD 4 0) (p_v.getD 4 0)
  let s5 := basfld_sbb s4.2 (a.getD 5 0) (p_v.getD 5 0)
  let borrow := s5.2
  let mask := basn_cmov 0 (u64 (borrow + 18446744073709551615)) (borrow == 0)
  [(a.getD 0 0 &&& borrow) ||| (s0.1 &&& mask),
   (a.getD 1 0 &&& borrow) ||| (s1.1 &&& mask),
   (a.getD 2 0 &&& borrow) ||| (s2.1 &&& mask),
   (a.getD 3 0 &&& borrow) ||| (s3.1 &&& mask),
   (a.getD 4 0 &&& borrow) ||| (s4.1 &&& mask),
   (a.getD 5 0 &&& borrow) ||| (s5.1 &&& mask)]

/-- Modelled from the spec: the constant `f12b::p_v` of `sxt/field12/base/constants.h`, which is
not among the sources: the limbs of the modulus of the base field of BLS12-381. -/
def f12b_p_v : List Nat :=
  [13402431016077863595, 2210141511517208575, 7435674573564081700, 7239337960414712511,
   5412103778470702295, 1873798617647539866]

/-! ## `sxt/field25/base/reduce.cc` -/

/-- Modelled from the spec: `basfld::mac(ret, carry, a, b, c)` of
`sxt/base/field/arithmetic_utility.h`, which is not among the sources: the sum
`a + b * c + carry` in 128-bit arithmetic, of which `ret` receives the low and `carry` the high
64 bits. The result is the pair of the new `ret` and the new `carry`. -/
def basfld_mac (carry a b c : Nat) : Nat × Nat :=
  let ret_tmp := (a + b * c + carry) % 340282366920938463463374607431768211456
  (u64 ret_tmp, u64 (ret_tmp >>> 64))

/-- Modelled from the spec: `basfld::adc(ret, carry, a, b, c)` of
`sxt/base/field/arithmetic_utility.h`, which is not among the sources: the sum `a + b + c` in
128-bit arithmetic, of which `ret` receives the low and `carry` the high 64 bits. The result is
the pair of the new `ret` and the new `carry`. -/
def basfld_adc (a b c : Nat) : Nat × Nat :=
  let ret_tmp := (a + b + c) % 340282366920938463463374607431768211456
  (u64 ret_tmp, u64 (ret_tmp >>> 64))

/-- Modelled from the spec: `f25b::subtract_p(ret, a)` of `sxt/field25/base/subtract_p.h`, which
is not among the sources: the counterpart for four limbs of the function of the same name of
`field12`, which is among them. -/
def f25b_subtract_p (p_v a : List Nat) : List Nat :=
  let s0 := basfld_sbb 0 (a.getD 0 0) (p_v.getD 0 0)
  let s1 := basfld_sbb s0.2 (a.getD 1 0) (p_v.getD 1 0)
  let s2 := basfld_sbb s1.2 (a.getD 2 0) (p_v.getD 2 0)
  let s3 := basfld_sbb s2.2 (a.getD 3 0) (p_v.getD 3 0)
  let borrow := s3.2
  let mask := basn_cmov 0 (u64 (borrow + 18446744073709551615)) (borrow == 0)
  [(a.getD 0 0 &&& borrow) ||| (s0.1 &&& mask),
   (a.getD 1 0 &&& borrow) ||| (s1.1 &&& mask),
   (a.getD 2 0 &&& borrow) ||| (s2.1 &&& mask),
   (a.getD 3 0 &&& borrow) ||| (s3.1 &&& mask)]

/-- The statements of the source function `reduce(h, t)` before the call of `subtract_p`: the
array `a`, made of `ret[4], …, ret[7]`, and the carry that the last `adc` leaves in `tmp`, which
the function does not use. The constants `p_v` and `inv_v` of `constants.h`, which is not among
the sources, are parameters. -/
def reduce_limbs (p_v : List Nat) (inv_v : Nat) (t : List Nat) : List Nat × Nat :=
  let k := u64 (t.getD 0 0 * inv_v)
  let m0 := basfld_mac 0 (t.getD 0 0) k (p_v.getD 0 0)
  let m1 := basfld_mac m0.2 (t.getD 1 0) k (p_v.getD 1 0)
  let m2 := basfld_mac m1.2 (t.getD 2 0) k (p_v.getD 2 0)
  let m3 := basfld_mac m2.2 (t.getD 3 0) k (p_v.getD 3 0)
  let d4 := basfld_adc (t.getD 4 0) 0 m3.2
  let k := u64 (m1.1 * inv_v)
  let n0 := basfld_mac 0 m1.1 k (p_v.getD 0 0)
  let n1 := basfld_mac n0.2 m2.1 k (p_v.getD 1 0)
  let n2 := basfld_mac n1.2 m3.1 k (p_v.getD 2 0)
  let n3 := basfld_mac n2.2 d4.1 k (p_v.getD 3 0)
  let d5 := basfld_adc (t.getD 5 0) d4.2 n3.2
  let k := u64 (n1.1 * inv_v)
  let o0 := basfld_mac 0 n1.1 k (p_v.getD 0 0)
  let o1 := basfld_mac o0.2 n2.1 k (p_v.getD 1 0)
  let o2 := basfld_mac o1.2 n3.1 k (p_v.getD 2 0)
  let o3 := basfld_mac o2.2 d5.1 k (p_v.getD 3 0)
  let d6 := basfld_adc (t.getD 6 0) d5.2 o3.2
  let k := u64 (o1.1 * inv_v)
  let q0 := basfld_mac 0 o1.1 k (p_v.getD 0 0)
  let q1 := basfld_mac q0.2 o2.1 k (p_v.getD 1 0)
  let q2 := basfld_mac q1.2 o3.1 k (p_v.getD 2 0)
  let q3 := basfld_mac q2.2 d6.1 k (p_v.getD 3 0)
  let d7 := basfld_adc (t.getD 7 0) d6.2 q3.2
  ([q1.1, q2.1, q3.1, d7.1], d7.2)

/-- The source function `reduce(h, t)`: the four limbs of `h` after the call. -/
def reduce (p_v : List Nat) (inv_v : Nat) (t : List Nat) : List Nat :=
  f25b_subtract_p p_v (reduce_limbs p_v inv_v t).1

/-- Modelled from the spec: the constant `f25b::p_v` of `sxt/field25/base/constants.h`, which is
not among the sources: the limbs of the modulus of the base field of BN254. -/
def f25b_p_v : List Nat :=
  [4332616871279656263, 10917124144477883021, 13281191951274694749, 3486998266802970665]

/-- Modelled from the spec: the constant `f25b::inv_v` of `sxt/field25/base/constants.h`, which is
not among the sources: `-p^(-1) mod 2^64` for the modulus `p` of the base field of BN254. -/
def f25b_inv_v : Nat := 9786893198990664585

/-! # Theorems -/

/-! ## Machine arithmetic -/

theorem u32_of_lt {x : Nat} (h : x < 4294967296) : u32 x = x := Nat.mod_eq_of_lt h

theorem usub_of_le {a b : Nat} (ha : a < 4294967296) (hb : b ≤ a) : usub a b = a - b := by
  unfold usub; omega

theorem and_two_pow_ne_zero_iff (x k : Nat) : (x &&& 2 ^ k ≠ 0) ↔ x.testBit k = true := by
  constructor
  · intro h
    by_contra hx
    apply h
    apply Nat.eq_of_testBit_eq
    intro i
    simp only [Nat.testBit_and, Nat.testBit_two_pow, Nat.zero_testBit]
    by_cases hik : k = i
    · subst hik; simp [hx]
    · simp [hik]
  · intro hx h
    have := congrArg (fun y => Nat.testBit y k) h
    simp [Nat.testBit_two_pow, hx] at this

theorem u32_one_shiftLeft {k : Nat} (hk : k < 8) : u32 (1 <<< k) = 2 ^ k := by
  unfold u32
  rw [Nat.one_shiftLeft]
  apply Nat.mod_eq_of_lt
  calc 2 ^ k < 2 ^ 8 := Nat.pow_lt_pow_right (by decide) hk
    _ < 4294967296 := by decide

theorem u16_bit_shiftLeft {i : Nat} (hi : i < 16) (b : Bool) :
    u16 ((if b = true then 1 else 0) <<< i) = if b = true then 2 ^ i else 0 := by
  unfold u16
  cases b
  · simp
  · simp only [if_true, Nat.one_shiftLeft]
    apply Nat.mod_eq_of_lt
    calc 2 ^ i < 2 ^ 16 := Nat.pow_lt_pow_right (by decide) hi
      _ = 65536 := by decide

theorem testBit_bits_to_nat (f : Nat → Bool) (k j : Nat) :
    (bits_to_nat f k).testBit j = (decide (j < k) && f j) := by
  induction k with
  | zero => simp [bits_to_nat]
  | succ k ih =>
    simp only [bits_to_nat, Nat.testBit_or, ih]
    by_cases hjk : k = j
    · subst hjk
      cases hf : f k <;> simp [Nat.testBit_two_pow]
    · have h1 : decide (j < k + 1) = decide (j < k) := by
        apply decide_eq_decide.mpr; omega
      rw [h1]
      cases hf : f k <;> simp [Nat.testBit_two_pow, hjk]

theorem bits_to_nat_lt (f : Nat → Bool) (k : Nat) : bits_to_nat f k < 2 ^ k := by
  apply Nat.lt_pow_two_of_testBit
  intro i hi
  rw [testBit_bits_to_nat]
  have : ¬ i < k := by omega
  simp [this]

theorem bits_to_nat_congr (f g : Nat → Bool) (k : Nat) (h : ∀ i, i < k → f i = g i) :
    bits_to_nat f k = bits_to_nat g k := by
  apply Nat.eq_of_testBit_eq
  intro j
  rw [testBit_bits_to_nat, testBit_bits_to_nat]
  by_cases hj : j < k
  · simp [hj, h j hj]
  · simp [hj]

theorem sum_bits_eq_mod (x k : Nat) :
    ∑ t in Finset.range k, 2 ^ t * (if x.testBit t = true then 1 else 0) = x % 2 ^ k := by
  induction k with
  | zero => simp [Nat.mod_one]
  | succ k ih =>
    rw [Finset.sum_range_succ, ih, Nat.mod_pow_succ, Nat.testBit_to_div_mod]
    congr 2
    have : x / 2 ^ k % 2 < 2 := Nat.mod_lt _ (by decide)
    by_cases h : x / 2 ^ k % 2 = 1
    · simp [h]
    · have h0 : x / 2 ^ k % 2 = 0 := by omega
      simp [h0]

theorem sum_bits_byte (x : Fin 256) :
    ∑ t in Finset.range 8, 2 ^ t * (if x.val.testBit t = true then 1 else 0) = x.val := by
  rw [sum_bits_eq_mod]
  exact Nat.mod_eq_of_lt x.isLt

theorem sum_blocks {T : Type} [AddCommMonoid T] (m : Nat) (h : Nat → T) (W : Nat) :
    ∑ w in Finset.range W, ∑ k in Finset.range m, h (m * w + k) =
      ∑ g in Finset.range (m * W), h g := by
  induction W with
  | zero => simp
  | succ W ih =>
    rw [Finset.sum_range_succ, ih, Nat.mul_succ, Finset.sum_range_add]

theorem sum_range_restrict {T : Type} [AddCommMonoid T] (h : Nat → T) (n m : Nat) (hnm : n ≤ m) :
    ∑ g in Finset.range m, (if g < n then h g else 0) = ∑ g in Finset.range n, h g := by
  have hsub : Finset.range n ⊆ Finset.range m := Finset.range_subset.mpr hnm
  rw [← Finset.sum_subset hsub]
  · apply Finset.sum_congr rfl
    intro g hg
    simp [Finset.mem_range.mp hg]
  · intro g _ hg
    have : ¬ g < n := by simpa using hg
    simp [this]

/-! ## Bit tables and their prefix sums -/

theorem length_partial_sum_from (acc : Nat) (bs : List Nat) :
    (partial_sum_from acc bs).length = bs.length := by
  induction bs generalizing acc with
  | nil => rfl
  | cons b bs ih => simp [partial_sum_from, ih]

theorem getD_partial_sum_from (bs : List Nat) :
    ∀ (acc i : Nat), acc + bs.sum < 4294967296 → i < bs.length →
      (partial_sum_from acc bs).getD i 0 = acc + (bs.take (i + 1)).sum := by
  induction bs with
  | nil => intro acc i _ hi; simp at hi
  | cons b bs ih =>
    intro acc i h hi
    simp only [List.sum_cons] at h
    have hu : u32 (acc + b) = acc + b := u32_of_lt (by omega)
    cases i with
    | zero => simp [partial_sum_from, hu]
    | succ i =>
      simp only [partial_sum_from, hu, List.getD_cons_succ, List.take_succ_cons, List.sum_cons]
      rw [ih (acc + b) i (by omega) (by simpa using hi)]
      omega

theorem sum_take_le (B : List Nat) (k : Nat) : (B.take k).sum ≤ B.sum := by
  have := List.sum_take_add_sum_drop B k
  omega

theorem sum_take_succ_getD (B : List Nat) (i : Nat) (hi : i < B.length) :
    (B.take (i + 1)).sum = (B.take i).sum + B.getD i 0 := by
  rw [List.sum_take_succ B i hi, List.getD_eq_getElem B 0 hi]

theorem getD_pos (B : List Nat) (hpos : ∀ b ∈ B, 1 ≤ b) (i : Nat) (hi : i < B.length) :
    1 ≤ B.getD i 0 := by
  rw [List.getD_eq_getElem B 0 hi]
  exact hpos _ (List.getElem_mem hi)

theorem length_le_sum (B : List Nat) (hpos : ∀ b ∈ B, 1 ≤ b) : B.length ≤ B.sum := by
  induction B with
  | nil => simp
  | cons b bs ih =>
    have h1 := hpos b (List.mem_cons_self _ _)
    have h2 := ih (fun x hx => hpos x (List.mem_cons_of_mem _ hx))
    simp only [List.length_cons, List.sum_cons]
    omega

theorem sum_take_mono (B : List Nat) {k l : Nat} (hkl : k ≤ l) :
    (B.take k).sum ≤ (B.take l).sum := by
  have h := sum_take_le (B.take l) k
  rwa [List.take_take, Nat.min_eq_left hkl] at h

theorem sum_take_lt (B : List Nat) (hpos : ∀ x ∈ B, 1 ≤ x) {k l : Nat} (hkl : k < l)
    (hl : l ≤ B.length) : (B.take k).sum < (B.take l).sum := by
  have h1 := sum_take_succ_getD B k (by omega)
  have h2 := getD_pos B hpos k (by omega)
  have h3 := sum_take_mono B (show k + 1 ≤ l by omega)
  omega

theorem span_ofList_partial_sum_size (B : List Nat) :
    (Span.ofList (partial_sum B)).size = B.length := by
  simp [Span.ofList, partial_sum, length_partial_sum_from]

theorem span_ofList_partial_sum_data (B : List Nat) (h32 : B.sum < 4294967296) (k : Nat)
    (hk : k < B.length) :
    (Span.ofList (partial_sum B)).data k = (B.take (k + 1)).sum := by
  have := getD_partial_sum_from B 0 k (by omega) hk
  simp only [Span.ofList, partial_sum]
  rw [show (default : Nat) = 0 from rfl, this, Nat.zero_add]

/-! ## Spans, kernel launches and splits -/

theorem write_range_map {T : Type} (res : Span T) (a len : Nat) (out : Nat → T)
    (h : a + len ≤ res.size) :
    res.write_range a ((List.range len).map fun i => out (a + i)) =
      .ok ⟨res.size, fun j => if a ≤ j ∧ j < a + len then out j else res.data j⟩ := by
  unfold Span.write_range
  simp only [List.length_map, List.length_range, h, if_true]
  refine congrArg Except.ok ?_
  congr 1
  funext j
  by_cases hj : a ≤ j ∧ j < a + len
  · simp only [hj, and_self, if_true]
    have hlt : j - a < ((List.range len).map fun i => out (a + i)).length := by
      simp only [List.length_map, List.length_range]; omega
    rw [List.getD_eq_getElem _ _ hlt]
    simp only [List.getElem_map, List.getElem_range]
    congr 1
    omega
  · simp only [hj, if_false]

theorem write_range_replicate {T : Type} (res : Span T) (a len : Nat) (x : T)
    (h : a + len ≤ res.size) :
    res.write_range a (List.replicate len x) =
      .ok ⟨res.size, fun j => if a ≤ j ∧ j < a + len then x else res.data j⟩ := by
  have hmap : List.replicate len x = (List.range len).map (fun i => (fun _ => x) (a + i)) := by
    apply List.ext_getElem
    · simp
    · intro i h1 h2
      simp
  rw [hmap]
  exact write_range_map res a len (fun _ => x) h

theorem write_range_active {T : Type} (res : Span T) (a len : Nat) (active : Nat → T)
    (h : a + len ≤ res.size) :
    res.write_range a ((List.range len).map active) =
      .ok ⟨res.size, fun j => if a ≤ j ∧ j < a + len then active (j - a) else res.data j⟩ := by
  have hmap : (List.range len).map active =
      (List.range len).map (fun i => (fun j => active (j - a)) (a + i)) := by
    apply List.map_congr_left
    intro i _
    simp
  rw [hmap]
  exact write_range_map res a len (fun j => active (j - a)) h

theorem mem_write_range_indices (first len i : Nat) :
    i ∈ write_range_indices first len ↔ first ≤ i ∧ i < first + len := by
  unfold write_range_indices
  simp only [List.mem_map, List.mem_range]
  constructor
  · rintro ⟨k, hk, rfl⟩
    omega
  · intro h
    exact ⟨i - first, by omega, by omega⟩

theorem launch_for_each_kernel_eq {T : Type} (f : Nat → Except Fault T) (g : Nat → T) :
    ∀ n, (∀ i, i < n → f i = .ok (g i)) →
      launch_for_each_kernel f n = .ok ((List.range n).map g) := by
  intro n
  induction n with
  | zero => intro _; rfl
  | succ n ih =>
    intro h
    rw [launch_for_each_kernel, ih (fun i hi => h i (by omega)), h n (by omega)]
    simp only [bind, Except.bind, pure, Except.pure, List.range_succ, List.map_append,
      List.map_cons, List.map_nil]

theorem foldlM_split {T : Type} (step : Span T → Nat × Nat → Except Fault (Span T))
    (out : Nat → T) (n : Nat)
    (hstep : ∀ (res : Span T) (a b : Nat), a < b → b ≤ n → res.size = n →
      step res (a, b) = .ok ⟨res.size, fun j => if a ≤ j ∧ j < b then out j else res.data j⟩) :
    ∀ (chunks : List (Nat × Nat)) (lo : Nat) (res : Span T),
      is_split chunks lo n = true → res.size = n →
      ∃ res', chunks.foldlM step res = .ok res' ∧ res'.size = n ∧
        (∀ o, o < lo → res'.data o = res.data o) ∧
        (∀ o, lo ≤ o → o < n → res'.data o = out o) := by
  intro chunks
  induction chunks with
  | nil =>
    intro lo res hsplit hsize
    simp only [is_split, decide_eq_true_eq] at hsplit
    refine ⟨res, rfl, hsize, fun _ _ => rfl, ?_⟩
    intro o h1 h2
    omega
  | cons rng rest ih =>
    intro lo res hsplit hsize
    obtain ⟨a, b⟩ := rng
    simp only [is_split, Bool.and_eq_true, decide_eq_true_eq] at hsplit
    obtain ⟨⟨⟨ha, hab⟩, hb⟩, hrest⟩ := hsplit
    subst ha
    obtain ⟨res', hfold, hsize', hlow, hhigh⟩ := ih b
      ⟨res.size, fun j => if a ≤ j ∧ j < b then out j else res.data j⟩ hrest hsize
    refine ⟨res', ?_, hsize', ?_, ?_⟩
    · rw [List.foldlM_cons, hstep res a b hab hb hsize]
      exact hfold
    · intro o ho
      rw [hlow o (by omega)]
      have : ¬ (a ≤ o ∧ o < b) := by omega
      simp only [this, if_false]
    · intro o h1 h2
      by_cases hob : o < b
      · rw [hlow o hob]
        simp only [h1, hob, and_self, if_true]
      · exact hhigh o (by omega) h2

theorem strided_copy_host_to_device_eq {T : Type} (src : Span T) (slice C P off : Nat)
    (hslice : 1 ≤ slice) (hC : 1 ≤ C) (hfit : off + slice ≤ P) (hsize : src.size = P * C) :
    ∃ dev, strided_copy_host_to_device (slice * C) src P slice off = .ok dev ∧
      dev.size = slice * C ∧
      ∀ q, q < slice → ∀ r, r < C → dev.data (q + r * slice) = src.data (off + q + r * P) := by
  have hpos : 0 < slice * C := Nat.mul_pos hslice hC
  have hdiv : slice * C / slice = C := Nat.mul_div_cancel_left _ hslice
  have hmod : slice * C % slice = 0 := Nat.mul_mod_right _ _
  have hbound : off + (C - 1) * P + slice ≤ src.size := by
    obtain ⟨k, rfl⟩ : ∃ k, C = k + 1 := ⟨C - 1, by omega⟩
    rw [hsize, Nat.add_sub_cancel, Nat.mul_succ, Nat.mul_comm P k]
    omega
  refine ⟨⟨slice * C, fun i => src.data (off + i / slice * P + i % slice)⟩, ?_, rfl, ?_⟩
  · unfold strided_copy_host_to_device
    rw [if_neg (by omega), if_neg (by rw [hmod]; omega), hdiv, if_pos hbound]
  · intro q hq r _
    show src.data (off + (q + r * slice) / slice * P + (q + r * slice) % slice) = _
    rw [Nat.add_mul_div_right _ _ (by omega), Nat.div_eq_of_lt hq, Nat.zero_add,
      Nat.add_mul_mod_self_right, Nat.mod_eq_of_lt hq]
    congr 1
    omega

/-! ## `compute_partition_index` -/

theorem compute_partition_index_loop_spec (scalars : Span (Fin 256)) (ptr step bit_index : Nat) :
    ∀ (fuel i res : Nat), i + fuel ≤ 16 →
      (∀ j, i ≤ j → j < i + fuel → ptr + u32 (j * step) < scalars.size) →
      ∃ r, compute_partition_index_loop scalars ptr step (2 ^ bit_index) fuel i res = .ok r ∧
        ∀ j, r.testBit j =
          (res.testBit j || (decide (i ≤ j ∧ j < i + fuel) && scalar_bit scalars ptr step bit_index j)) := by
  intro fuel
  induction fuel with
  | zero =>
    intro i res _ _
    refine ⟨res, rfl, ?_⟩
    intro j
    have : ¬ (i ≤ j ∧ j < i + 0) := by omega
    simp [this]
  | succ fuel ih =>
    intro i res hle hread
    have hin : ptr + u32 (i * step) < scalars.size := hread i (Nat.le_refl _) (by omega)
    obtain ⟨r, hr, hbits⟩ := ih (i + 1)
      (res ||| u16 ((if (scalars.data (ptr + u32 (i * step))).val &&& 2 ^ bit_index ≠ 0 then 1 else 0) <<< i))
      (by omega) (fun j h1 h2 => hread j (by omega) (by omega))
    refine ⟨r, ?_, ?_⟩
    · simp only [compute_partition_index_loop, Span.read, hin, if_true]
      exact hr
    · intro j
      rw [hbits j]
      have hb : ((scalars.data (ptr + u32 (i * step))).val &&& 2 ^ bit_index ≠ 0) ↔
          scalar_bit scalars ptr step bit_index i = true := and_two_pow_ne_zero_iff _ _
      have hshift := u16_bit_shiftLeft (show i < 16 by omega) (scalar_bit scalars ptr step bit_index i)
      simp only [hb]
      rw [hshift, Nat.testBit_or]
      by_cases hij : i = j
      · subst hij
        cases hsb : scalar_bit scalars ptr step bit_index i <;> simp [Nat.testBit_two_pow]
      · have h1 : (decide (i ≤ j ∧ j < i + (fuel + 1))) = decide (i + 1 ≤ j ∧ j < i + 1 + fuel) := by
          apply decide_eq_decide.mpr; omega
        rw [h1]
        cases hsb : scalar_bit scalars ptr step bit_index i <;> simp [Nat.testBit_two_pow, hij]

theorem compute_partition_index_eq (scalars : Span (Fin 256)) (ptr step n bit_index : Nat)
    (hbit : bit_index < 8)
    (hread : ∀ i, i < min 16 n → ptr + u32 (i * step) < scalars.size) :
    compute_partition_index scalars ptr step n bit_index =
      .ok (bits_to_nat (fun i => decide (i < min 16 n) &&
        (scalars.data (ptr + u32 (i * step))).val.testBit bit_index) 16) := by
  obtain ⟨r, hr, hbits⟩ := compute_partition_index_loop_spec scalars ptr step bit_index
    (min 16 n) 0 0 (by omega) (fun j _ h => hread j (by omega))
  unfold compute_partition_index
  simp only [u32_one_shiftLeft hbit]
  rw [hr]
  congr 1
  apply Nat.eq_of_testBit_eq
  intro j
  rw [hbits j, testBit_bits_to_nat]
  simp only [Nat.zero_testBit, Bool.false_or, scalar_bit, Nat.zero_le, true_and, Nat.zero_add]
  by_cases hj : j < min 16 n
  · have : j < 16 := by omega
    simp [hj, this]
  · simp [hj]

/-- C3. `compute_partition_index` succeeds whenever the scalars it addresses lie
inside the buffer, and returns the 16-bit mask whose bit `i` is set exactly when
`i < min(16, n)` and bit `bit_index` of `scalars[i * step]` is set; the mask is
below `2 ^ min(16, n)`. -/
theorem compute_partition_index_mask (scalars : Span (Fin 256)) (ptr step n bit_index : Nat)
    (hbit : bit_index < 8)
    (hread : ∀ i, i < min 16 n → ptr + u32 (i * step) < scalars.size) :
    ∃ r, compute_partition_index scalars ptr step n bit_index = .ok r ∧
      r < 65536 ∧ r < 2 ^ min 16 n ∧
      ∀ i, (r.testBit i = true ↔
        (i < min 16 n ∧ (scalars.data (ptr + u32 (i * step))).val.testBit bit_index = true)) := by
  refine ⟨_, compute_partition_index_eq scalars ptr step n bit_index hbit hread, ?_, ?_, ?_⟩
  · exact bits_to_nat_lt _ 16
  · apply Nat.lt_pow_two_of_testBit
    intro i hi
    rw [testBit_bits_to_nat]
    have : ¬ i < min 16 n := by omega
    simp [this]
  · intro i
    rw [testBit_bits_to_nat]
    by_cases hi : i < min 16 n
    · have : i < 16 := by omega
      simp [hi, this]
    · simp [hi]

theorem compute_partition_index_mask_witness :
    ∃ r, compute_partition_index (Span.ofList [1, 0, 0, 2]) 1 2 2 1 = .ok r ∧
      r < 65536 ∧ r < 2 ^ min 16 2 ∧
      ∀ i, (r.testBit i = true ↔
        (i < min 16 2 ∧
          ((Span.ofList ([1, 0, 0, 2] : List (Fin 256))).data (1 + u32 (i * 2))).val.testBit 1 = true)) :=
  compute_partition_index_mask (Span.ofList [1, 0, 0, 2]) 1 2 2 1 (by decide) (by
    intro i hi
    have : i = 0 ∨ i = 1 := by omega
    rcases this with h | h <;> subst h <;> decide)

/-! ## `partition_product_kernel` -/

theorem window_mask_lt (scalars : Span (Fin 256)) (byte_index step bit_offset n w : Nat) :
    window_mask scalars byte_index step bit_offset n w < 65536 :=
  bits_to_nat_lt _ 16

theorem compute_partition_index_window (scalars : Span (Fin 256))
    (byte_index step bit_offset n w : Nat) (hbit : bit_offset < 8)
    (hstep : 16 * step < 4294967296) (hw : 16 * w < n)
    (hread : ∀ g, g < n → byte_index + g * step < scalars.size) :
    compute_partition_index scalars (byte_index + w * (16 * step)) step (n - 16 * w) bit_offset =
      .ok (window_mask scalars byte_index step bit_offset n w) := by
  have hk : ∀ k, k < 16 → u32 (k * step) = k * step := by
    intro k hk
    apply u32_of_lt
    have : k * step ≤ 16 * step := Nat.mul_le_mul_right _ (by omega)
    omega
  have hidx : ∀ k, byte_index + w * (16 * step) + k * step = byte_index + (16 * w + k) * step := by
    intro k; ring
  rw [compute_partition_index_eq scalars _ step _ bit_offset hbit]
  · unfold window_mask
    congr 1
    apply bits_to_nat_congr
    intro k hk16
    rw [hk k hk16, hidx k]
    have : (k < min 16 (n - 16 * w)) ↔ (16 * w + k < n) := by omega
    simp only [this]
  · intro i hi
    have hi16 : i < 16 := by omega
    rw [hk i hi16, hidx i]
    apply hread
    omega

theorem partition_product_kernel_loop_spec {T : Type} [AddCommGroup T] (c : Curve T)
    (partition_table : Span T) (scalars : Span (Fin 256))
    (byte_index step bit_offset n : Nat) (hbit : bit_offset < 8)
    (hstep : 16 * step < 4294967296)
    (hread : ∀ g, g < n → byte_index + g * step < scalars.size)
    (htable : (n + 15) / 16 * 65536 ≤ partition_table.size) :
    ∀ (fuel w : Nat) (res : T), 16 * w < n → n - 16 * w ≤ fuel →
      partition_product_kernel_loop c partition_table scalars step bit_offset fuel
          (n - 16 * w) (65536 * w) (byte_index + w * (16 * step)) res =
        .ok (res + ∑ v in Finset.Ico (w + 1) ((n + 15) / 16),
          partition_table.data (v * 65536 + window_mask scalars byte_index step bit_offset n v)) := by
  intro fuel
  induction fuel with
  | zero =>
    intro w res hw hfuel
    omega
  | succ fuel ih =>
    intro w res hw hfuel
    rw [partition_product_kernel_loop]
    by_cases hn : n - 16 * w > 16
    · simp only [hn, if_true]
      have hu : u32 (16 * step) = 16 * step := u32_of_lt hstep
      have hptr : byte_index + w * (16 * step) + u32 (16 * step) =
          byte_index + (w + 1) * (16 * step) := by rw [hu]; ring
      have hnn : n - 16 * w - 16 = n - 16 * (w + 1) := by omega
      have hw1 : 16 * (w + 1) < n := by omega
      have hlt : w + 1 < (n + 15) / 16 := by omega
      have hm := window_mask_lt scalars byte_index step bit_offset n (w + 1)
      have hin : 65536 * w + 65536 + window_mask scalars byte_index step bit_offset n (w + 1) <
          partition_table.size := by
        have : (w + 2) * 65536 ≤ (n + 15) / 16 * 65536 := Nat.mul_le_mul_right _ (by omega)
        omega
      rw [hptr, hnn, compute_partition_index_window scalars byte_index step bit_offset n (w + 1)
        hbit hstep hw1 hread]
      simp only [bind, Except.bind, Span.read, hin, if_true, c.add_inplace_fst]
      have h65 : 65536 * w + 65536 = 65536 * (w + 1) := by ring
      rw [h65, ih (w + 1) _ hw1 (by omega)]
      congr 1
      rw [Finset.sum_eq_sum_Ico_succ_bot hlt, add_assoc]
      congr 2
      ring_nf
    · simp only [hn, if_false]
      have : (n + 15) / 16 = w + 1 := by omega
      rw [this]
      simp

theorem subset_sum_eq {T : Type} [AddCommGroup T] (G : Nat → T) (w m k : Nat) :
    subset_sum G w m k =
      ∑ i in Finset.range k, if m.testBit i = true then G (16 * w + i) else 0 := by
  induction k with
  | zero => rfl
  | succ k ih => rw [subset_sum, ih, Finset.sum_range_succ]

theorem is_partition_table_make {T : Type} [AddCommGroup T] (G : Nat → T) (num_windows : Nat) :
    is_partition_table (make_partition_table G num_windows) G num_windows := by
  intro w _ m hm
  show subset_sum G ((w * 65536 + m) / 65536) ((w * 65536 + m) % 65536) 16 = _
  have h1 : (w * 65536 + m) / 65536 = w := by omega
  have h2 : (w * 65536 + m) % 65536 = m := by omega
  rw [h1, h2, subset_sum_eq]

theorem sum_window_entries {T : Type} [AddCommGroup T] (partition_table : Span T) (G : Nat → T)
    (scalars : Span (Fin 256)) (byte_index step bit_offset n : Nat)
    (htab : is_partition_table partition_table G ((n + 15) / 16)) :
    ∑ w in Finset.range ((n + 15) / 16),
        partition_table.data (w * 65536 + window_mask scalars byte_index step bit_offset n w) =
      ∑ g in Finset.range n,
        if (scalars.data (byte_index + g * step)).val.testBit bit_offset = true then G g else 0 := by
  have h1 : ∀ w ∈ Finset.range ((n + 15) / 16),
      partition_table.data (w * 65536 + window_mask scalars byte_index step bit_offset n w) =
      ∑ k in Finset.range 16, (fun g => if g < n then
        (if (scalars.data (byte_index + g * step)).val.testBit bit_offset = true then G g else 0)
        else 0) (16 * w + k) := by
    intro w hw
    rw [htab w (Finset.mem_range.mp hw) _ (window_mask_lt _ _ _ _ _ _)]
    apply Finset.sum_congr rfl
    intro k hk
    have hk16 : k < 16 := Finset.mem_range.mp hk
    unfold window_mask
    rw [testBit_bits_to_nat]
    by_cases hg : 16 * w + k < n <;> simp [hg, hk16]
  rw [Finset.sum_congr rfl h1]
  have h2 := sum_blocks 16 (fun g => if g < n then
      (if (scalars.data (byte_index + g * step)).val.testBit bit_offset = true then G g else 0)
      else 0) ((n + 15) / 16)
  have h3 := sum_range_restrict (fun g =>
      if (scalars.data (byte_index + g * step)).val.testBit bit_offset = true then G g else 0)
      n (16 * ((n + 15) / 16)) (by omega)
  exact h2.trans h3

theorem partition_product_kernel_eq {T : Type} [AddCommGroup T] (c : Curve T)
    (partition_table : Span T) (scalars : Span (Fin 256)) (num_products n p : Nat)
    (hn : 1 ≤ n) (hdvd : 8 ∣ num_products) (hp : p < num_products)
    (hrange : 2 * num_products < 4294967296)
    (hscalars : n * (num_products / 8) ≤ scalars.size)
    (htable : (n + 15) / 16 * 65536 ≤ partition_table.size) :
    partition_product_kernel c partition_table scalars (p / 8) (p % 8) num_products n =
      .ok (p, ∑ w in Finset.range ((n + 15) / 16),
        partition_table.data (w * 65536 +
          window_mask scalars (p / 8) (num_products / 8) (p % 8) n w)) := by
  have hbit : p % 8 < 8 := Nat.mod_lt _ (by decide)
  have hstep : 16 * (num_products / 8) < 4294967296 := by omega
  have hp8 : p / 8 < num_products / 8 := by omega
  have hread : ∀ g, g < n → p / 8 + g * (num_products / 8) < scalars.size := by
    intro g hg
    have : (g + 1) * (num_products / 8) ≤ n * (num_products / 8) :=
      Nat.mul_le_mul_right _ (by omega)
    have h2 : (g + 1) * (num_products / 8) = g * (num_products / 8) + num_products / 8 := by ring
    omega
  have hptr : u32 (u32 (p / 8 * 8) + p % 8) = p := by
    rw [u32_of_lt (by omega : p / 8 * 8 < 4294967296), u32_of_lt (by omega)]
    omega
  have hfirst := compute_partition_index_window scalars (p / 8) (num_products / 8) (p % 8) n 0
    hbit hstep (by omega) hread
  simp only [Nat.mul_zero, Nat.zero_mul, Nat.add_zero, Nat.sub_zero] at hfirst
  have hm := window_mask_lt scalars (p / 8) (num_products / 8) (p % 8) n 0
  have hW : 0 < (n + 15) / 16 := by omega
  have hin : window_mask scalars (p / 8) (num_products / 8) (p % 8) n 0 < partition_table.size := by
    have : 1 * 65536 ≤ (n + 15) / 16 * 65536 := Nat.mul_le_mul_right _ hW
    omega
  have hloop := partition_product_kernel_loop_spec c partition_table scalars (p / 8)
    (num_products / 8) (p % 8) n hbit hstep hread htable n 0
    (partition_table.data (window_mask scalars (p / 8) (num_products / 8) (p % 8) n 0))
    (by omega) (by omega)
  simp only [Nat.mul_zero, Nat.zero_mul, Nat.add_zero, Nat.sub_zero, Nat.zero_add] at hloop
  unfold partition_product_kernel
  simp only [hfirst, bind, Except.bind, Span.read, hin, if_true, hloop, hptr, pure, Except.pure]
  congr 2
  rw [Finset.range_eq_Ico, Finset.sum_eq_sum_Ico_succ_bot hW]
  simp

theorem partition_product_kernel_generators {T : Type} [AddCommGroup T] (c : Curve T)
    (partition_table : Span T) (scalars : Span (Fin 256)) (num_products n p : Nat) (G : Nat → T)
    (hn : 1 ≤ n) (hdvd : 8 ∣ num_products) (hp : p < num_products)
    (hrange : 2 * num_products < 4294967296)
    (hscalars : n * (num_products / 8) ≤ scalars.size)
    (htable : (n + 15) / 16 * 65536 ≤ partition_table.size)
    (hG : is_partition_table partition_table G ((n + 15) / 16)) :
    partition_product_kernel c partition_table scalars (p / 8) (p % 8) num_products n =
      .ok (p, ∑ g in Finset.range n,
        if (scalars.data (p / 8 + g * (num_products / 8))).val.testBit (p % 8) = true
        then G g else 0) := by
  rw [partition_product_kernel_eq c partition_table scalars num_products n p hn hdvd hp hrange
    hscalars htable, sum_window_entries partition_table G scalars _ _ _ n hG]

/-- C2. For `n ≥ 1`, `num_products` a positive multiple of 8 (with
`2 * num_products` in the range of `unsigned`) and a product index
`p < num_products`, `partition_product_kernel` writes only `products[p]` and
stores there the sum over the windows `w < ⌈n/16⌉` of
`partition_table[w * 2^16 + mask_w]`, where bit `k` of `mask_w` is set iff
`16 w + k < n` and bit `p mod 8` of `scalars[p/8 + (16 w + k) * (num_products/8)]`
is set. When the table holds the subset sums of the generators `G`, the value is
the sum of `G g` over exactly those `g < n` whose scalar bit for slot `p` is set. -/
theorem partition_product_kernel_sum {T : Type} [AddCommGroup T] (c : Curve T)
    (partition_table : Span T) (scalars : Span (Fin 256)) (num_products n p : Nat)
    (hn : 1 ≤ n) (hdvd : 8 ∣ num_products) (hp : p < num_products)
    (hrange : 2 * num_products < 4294967296)
    (hscalars : n * (num_products / 8) ≤ scalars.size)
    (htable : (n + 15) / 16 * 65536 ≤ partition_table.size) :
    partition_product_kernel c partition_table scalars (p / 8) (p % 8) num_products n =
        .ok (p, ∑ w in Finset.range ((n + 15) / 16),
          partition_table.data (w * 65536 +
            bits_to_nat (fun k => decide (16 * w + k < n) &&
              (scalars.data (p / 8 + (16 * w + k) * (num_products / 8))).val.testBit (p % 8)) 16)) ∧
      ∀ G : Nat → T, is_partition_table partition_table G ((n + 15) / 16) →
        partition_product_kernel c partition_table scalars (p / 8) (p % 8) num_products n =
          .ok (p, ∑ g in Finset.range n,
            if (scalars.data (p / 8 + g * (num_products / 8))).val.testBit (p % 8) = true
            then G g else 0) :=
  ⟨partition_product_kernel_eq c partition_table scalars num_products n p hn hdvd hp hrange
      hscalars htable,
    fun G hG => partition_product_kernel_generators c partition_table scalars num_products n p G
      hn hdvd hp hrange hscalars htable hG⟩

theorem partition_product_kernel_sum_witness :
    partition_product_kernel (Curve.plain (Int × Int)) (make_partition_table two_generators 1)
        (Span.ofList [1, 0, 0, 2]) (9 / 8) (9 % 8) 16 2 =
      .ok (9, (0, 1)) :=
  ((partition_product_kernel_sum (Curve.plain (Int × Int)) (make_partition_table two_generators 1)
    (Span.ofList [1, 0, 0, 2]) 16 2 9 (by decide) (by decide) (by decide) (by decide)
    (by decide) (by decide)).2 two_generators (is_partition_table_make two_generators 1)).trans
    (by decide)

/-! ## `combine_reduce_output` -/

theorem combine_reduce_output_reduction_spec {T : Type} [AddCommGroup T] (c : Curve T)
    (partials : Span T) (ptr num_partials : Nat) :
    ∀ (fuel r : Nat) (e : T),
      (∀ k, k < fuel → (r + k) * num_partials < 4294967296 ∧
        ptr + (r + k) * num_partials < partials.size) →
      combine_reduce_output_reduction c partials ptr num_partials fuel r e =
        .ok (e + ∑ k in Finset.range fuel, partials.data (ptr + (r + k) * num_partials)) := by
  intro fuel
  induction fuel with
  | zero => intro r e _; simp [combine_reduce_output_reduction]
  | succ fuel ih =>
    intro r e h
    have h0 := h 0 (by omega)
    simp only [Nat.add_zero] at h0
    rw [combine_reduce_output_reduction]
    simp only [u32_of_lt h0.1, Span.read, h0.2, if_true, bind, Except.bind, c.add_inplace_fst]
    rw [ih (r + 1) _ (fun k hk => by
      have := h (k + 1) (by omega)
      rwa [show r + 1 + k = r + (k + 1) by omega])]
    congr 1
    rw [Finset.sum_range_succ', add_assoc]
    congr 1
    rw [add_comm]
    congr 1
    apply Finset.sum_congr rfl
    intro k _
    rw [show r + 1 + k = r + (k + 1) by omega]

theorem combine_reduce_output_bits_spec {T : Type} [AddCommGroup T] (c : Curve T)
    (partials : Span T) (num_partials reduction_size base : Nat)
    (hmul : ∀ r, r < reduction_size → r * num_partials < 4294967296) :
    ∀ (k : Nat) (e : T),
      (∀ j, j < k → ∀ r, r < reduction_size → base + j + r * num_partials < partials.size) →
      combine_reduce_output_bits c partials num_partials reduction_size k (base + k) e =
        .ok (2 ^ k • e +
          ∑ j in Finset.range k, 2 ^ j • chunk_sum partials num_partials reduction_size (base + j)) := by
  intro k
  induction k with
  | zero => intro e _; simp [combine_reduce_output_bits]
  | succ k ih =>
    intro e h
    rw [combine_reduce_output_bits]
    have hdec : ptr_dec (base + (k + 1)) = .ok (base + k) := rfl
    have hred := combine_reduce_output_reduction_spec c partials (base + k) num_partials
      reduction_size 0 (c.double_element e) (fun r hr => by
        rw [Nat.zero_add]
        exact ⟨hmul r hr, h k (by omega) r hr⟩)
    simp only [hdec, bind, Except.bind, hred, Nat.zero_add]
    rw [ih _ (fun j hj r hr => h j (by omega) r hr)]
    congr 1
    rw [Finset.sum_range_succ, c.double_element_eq, smul_add, pow_succ, mul_smul, two_nsmul]
    unfold chunk_sum
    abel

theorem combine_reduce_output_eq {T : Type} [AddCommGroup T] (c : Curve T)
    (partials : Span T) (base num_partials reduction_size bit_width : Nat)
    (hB : 1 ≤ bit_width) (hB32 : bit_width < 4294967296) (hC : 1 ≤ reduction_size)
    (hmul : ∀ r, r < reduction_size → r * num_partials < 4294967296)
    (hread : ∀ j, j < bit_width → ∀ r, r < reduction_size →
      base + j + r * num_partials < partials.size) :
    combine_reduce_output c partials (base + bit_width) num_partials reduction_size bit_width =
      .ok (∑ j in Finset.range bit_width,
        2 ^ j • chunk_sum partials num_partials reduction_size (base + j)) := by
  obtain ⟨k, rfl⟩ : ∃ k, bit_width = k + 1 := ⟨bit_width - 1, by omega⟩
  obtain ⟨C, rfl⟩ : ∃ C, reduction_size = C + 1 := ⟨reduction_size - 1, by omega⟩
  unfold combine_reduce_output
  have hsub : usub (k + 1) 1 = k := by unfold usub; omega
  have hdec : ptr_dec (base + (k + 1)) = .ok (base + k) := rfl
  have h0 := hread k (by omega) 0 (by omega)
  simp only [Nat.zero_mul, Nat.add_zero] at h0
  have hred := combine_reduce_output_reduction_spec c partials (base + k) num_partials
    C 1 (partials.data (base + k)) (fun r hr => by
      rw [Nat.add_comm 1 r]
      exact ⟨hmul (r + 1) (by omega), hread k (by omega) (r + 1) (by omega)⟩)
  simp only [hsub, hdec, bind, Except.bind, Span.read, h0, if_true, Nat.add_sub_cancel, hred]
  rw [combine_reduce_output_bits_spec c partials num_partials (C + 1) base hmul k _
    (fun j hj r hr => hread j (by omega) r hr)]
  refine congrArg Except.ok ?_
  have hcs : partials.data (base + k) +
      ∑ r in Finset.range C, partials.data (base + k + (1 + r) * num_partials) =
      chunk_sum partials num_partials (C + 1) (base + k) := by
    unfold chunk_sum
    rw [Finset.sum_range_succ']
    simp only [Nat.zero_mul, Nat.add_zero]
    rw [add_comm]
    refine congrArg (fun x => x + partials.data (base + k)) ?_
    apply Finset.sum_congr rfl
    intro r _
    rw [Nat.add_comm 1 r]
  rw [hcs, Finset.sum_range_succ, add_comm]

theorem chunk_sum_one {T : Type} [AddCommGroup T] (partials : Span T) (num_partials q : Nat) :
    chunk_sum partials num_partials 1 q = partials.data q := by
  simp [chunk_sum]

theorem chunk_sum_congr {T : Type} [AddCommGroup T] (dev pp : Span T) (slice P C q q' : Nat)
    (h : ∀ r, r < C → dev.data (q + r * slice) = pp.data (q' + r * P)) :
    chunk_sum dev slice C q = chunk_sum pp P C q' := by
  unfold chunk_sum
  apply Finset.sum_congr rfl
  intro r hr
  exact h r (Finset.mem_range.mp hr)

theorem horner_low_first_range {T : Type} [AddCommGroup T] (B : Nat) :
    ∀ f : Nat → T, horner_low_first ((List.range B).map f) = ∑ j in Finset.range B, 2 ^ j • f j := by
  induction B with
  | zero => intro f; simp [horner_low_first]
  | succ B ih =>
    intro f
    have h := ih (fun j => f (j + 1))
    unfold horner_low_first at h ⊢
    rw [List.range_succ_eq_map, List.map_cons, List.foldr_cons, List.map_map]
    have hcomp : (f ∘ Nat.succ) = fun j => f (j + 1) := rfl
    rw [hcomp, h, Finset.sum_range_succ', Finset.smul_sum, add_comm]
    simp only [pow_zero, one_smul]
    refine congrArg (fun x => x + f 0) ?_
    apply Finset.sum_congr rfl
    intro j _
    rw [pow_succ, mul_comm, mul_smul]

theorem combine_reduce_output_one {T : Type} [AddCommGroup T] (c : Curve T)
    (partials : Span T) (base num_partials bit_width : Nat)
    (hB : 1 ≤ bit_width) (hB32 : bit_width < 4294967296)
    (hsize : base + bit_width ≤ partials.size) :
    combine_reduce_output c partials (base + bit_width) num_partials 1 bit_width =
      .ok (horner_low_first ((List.range bit_width).map fun j => partials.data (base + j))) := by
  rw [combine_reduce_output_eq c partials base num_partials 1 bit_width hB hB32 (by omega)
    (fun r hr => by have : r = 0 := by omega
                    subst this; simp)
    (fun j hj r hr => by have : r = 0 := by omega
                         subst this; simp; omega)]
  rw [horner_low_first_range]
  simp only [chunk_sum_one]

/-- C4 (as stated, refuted). With bit width 2 and the partials `p_0 = 1`,
`p_1 = 0`, `combine_reduce_output` returns `1 = p_0 + 2·p_1`, whereas the
expression `p_{B-1} + 2·(p_{B-2} + 2·(… + 2·p_0))` of the claim is `2`. -/
theorem combine_reduce_output_high_first_fails :
    combine_reduce_output (Curve.plain Int) (Span.ofList [1, 0]) 2 2 1 2 = .ok 1 ∧
      horner_high_first ([1, 0] : List Int) = 2 ∧
      combine_reduce_output (Curve.plain Int) (Span.ofList [1, 0]) 2 2 1 2 ≠
        .ok (horner_high_first ([1, 0] : List Int)) := by
  refine ⟨rfl, rfl, ?_⟩
  decide

/-- C4 (amended). For an output of bit width `B ≥ 1` and reduction size 1 whose
partials in increasing product-index order are `p_0, …, p_{B-1}`,
`combine_reduce_output` returns `p_0 + 2·(p_1 + 2·(… + 2·p_{B-1}))`: the partial
of the lowest product index carries weight 1. -/
theorem combine_reduce_output_horner {T : Type} [AddCommGroup T] (c : Curve T)
    (partials : Span T) (base num_partials bit_width : Nat)
    (hB : 1 ≤ bit_width) (hB32 : bit_width < 4294967296)
    (hsize : base + bit_width ≤ partials.size) :
    combine_reduce_output c partials (base + bit_width) num_partials 1 bit_width =
      .ok (horner_low_first ((List.range bit_width).map fun j => partials.data (base + j))) :=
  combine_reduce_output_one c partials base num_partials bit_width hB hB32 hsize

theorem combine_reduce_output_horner_witness :
    combine_reduce_output (Curve.plain Int) (Span.ofList [1, 10, 100]) (0 + 3) 3 1 3 =
      .ok (1 + 2 * (10 + 2 * 100)) :=
  (combine_reduce_output_horner (Curve.plain Int) (Span.ofList [1, 10, 100]) 0 3 3
    (by decide) (by decide) (by decide)).trans (by decide)

theorem chunk_sum_permute_chunks {T : Type} [AddCommGroup T] (partials : Span T)
    (num_partials C q : Nat) (σ : Equiv.Perm (Fin C)) (hq : q < num_partials) :
    chunk_sum (permute_chunks partials num_partials C σ) num_partials C q =
      chunk_sum partials num_partials C q := by
  unfold chunk_sum
  rw [Finset.sum_range, Finset.sum_range]
  rw [← Equiv.sum_comp σ (fun r : Fin C => partials.data (q + r.val * num_partials))]
  apply Finset.sum_congr rfl
  intro r _
  have hdiv : (q + r.val * num_partials) / num_partials = r.val := by
    rw [Nat.add_mul_div_right _ _ (by omega), Nat.div_eq_of_lt hq, Nat.zero_add]
  have hmod : (q + r.val * num_partials) % num_partials = q := by
    rw [Nat.add_mul_mod_self_right, Nat.mod_eq_of_lt hq]
  simp only [permute_chunks, hdiv, hmod, r.isLt, dif_pos, Fin.eta]

/-- C7. Chunk reduction is equivalent to the single-chunk path. For a bit width
`B ≥ 1`, a reduction size `C ≥ 1` and partials laid out as `C` chunk-strided
vectors of `num_partials` elements (addressable with `unsigned` indices),
`combine_reduce_output` with reduction size `C` succeeds and returns the same
element as `combine_reduce_output` with reduction size 1 applied to the
element-wise sum `q_j = Σ_{r < C} partials[j + r * num_partials]`; and the
result is the same for every order in which the `C` chunk vectors are stored. -/
theorem combine_reduce_output_chunks {T : Type} [AddCommGroup T] (c : Curve T)
    (partials : Span T) (base num_partials C B : Nat)
    (hB : 1 ≤ B) (hC : 1 ≤ C) (hsize : partials.size = num_partials * C)
    (h32 : num_partials * C < 4294967296) (hout : base + B ≤ num_partials) :
    combine_reduce_output c partials (base + B) num_partials C B =
        combine_reduce_output c (sum_chunks partials num_partials C) (base + B) num_partials 1 B ∧
      (∃ v, combine_reduce_output c partials (base + B) num_partials C B = .ok v) ∧
      ∀ σ : Equiv.Perm (Fin C),
        combine_reduce_output c (permute_chunks partials num_partials C σ) (base + B)
            num_partials C B =
          combine_reduce_output c partials (base + B) num_partials C B := by
  have hP : num_partials ≤ num_partials * C := Nat.le_mul_of_pos_right _ hC
  have hmul : ∀ r, r < C → r * num_partials < 4294967296 := by
    intro r hr
    have : r * num_partials ≤ C * num_partials := Nat.mul_le_mul_right _ (by omega)
    rw [Nat.mul_comm C] at this
    omega
  have hread : ∀ (s : Span T), s.size = num_partials * C → ∀ j, j < B → ∀ r, r < C →
      base + j + r * num_partials < s.size := by
    intro s hs j hj r hr
    have : (r + 1) * num_partials ≤ C * num_partials := Nat.mul_le_mul_right _ (by omega)
    rw [Nat.mul_comm C, Nat.add_mul, Nat.one_mul] at this
    omega
  have hmain := combine_reduce_output_eq c partials base num_partials C B hB (by omega) hC hmul
    (hread partials hsize)
  have hone := combine_reduce_output_eq c (sum_chunks partials num_partials C) base num_partials 1 B
    hB (by omega) (by omega)
    (fun r hr => by have : r = 0 := by omega
                    subst this; simp)
    (fun j hj r hr => by
      have : r = 0 := by omega
      subst this
      show base + j + 0 * num_partials < num_partials
      omega)
  refine ⟨?_, ⟨_, hmain⟩, ?_⟩
  · rw [hmain, hone]
    refine congrArg Except.ok ?_
    apply Finset.sum_congr rfl
    intro j _
    rw [chunk_sum_one]
    rfl
  · intro σ
    rw [hmain, combine_reduce_output_eq c (permute_chunks partials num_partials C σ) base
      num_partials C B hB (by omega) hC hmul (hread _ hsize)]
    refine congrArg Except.ok ?_
    apply Finset.sum_congr rfl
    intro j hj
    rw [chunk_sum_permute_chunks partials num_partials C (base + j) σ
      (by have := Finset.mem_range.mp hj; omega)]

theorem combine_reduce_output_chunks_witness :
    combine_reduce_output (Curve.plain Int) (Span.ofList [1, 10, 100, 1000]) (0 + 2) 2 2 2 =
        combine_reduce_output (Curve.plain Int)
          (sum_chunks (Span.ofList [1, 10, 100, 1000]) 2 2) (0 + 2) 2 1 2 ∧
      (∃ v, combine_reduce_output (Curve.plain Int) (Span.ofList [1, 10, 100, 1000]) (0 + 2) 2 2 2 =
        .ok v) ∧
      ∀ σ : Equiv.Perm (Fin 2),
        combine_reduce_output (Curve.plain Int)
            (permute_chunks (Span.ofList [1, 10, 100, 1000]) 2 2 σ) (0 + 2) 2 2 2 =
          combine_reduce_output (Curve.plain Int) (Span.ofList [1, 10, 100, 1000]) (0 + 2) 2 2 2 :=
  combine_reduce_output_chunks (Curve.plain Int) (Span.ofList [1, 10, 100, 1000]) 0 2 2 2
    (by decide) (by decide) (by decide) (by decide) (by decide)

/-! ## The kernels of `combine_reduce_chunk` -/

theorem combine_reduce_chunk_kernel_eq {T : Type} [AddCommGroup T] (c : Curve T)
    (partials : Span T) (sums : Span Nat) (S : Nat → Nat)
    (num_partials reduction_size partials_offset output_index : Nat)
    (hi : output_index < sums.size)
    (hdata : ∀ k, k < sums.size → sums.data k = S k)
    (hidx : output_index < 4294967296)
    (hprev : (if output_index = 0 then partials_offset else S (output_index - 1)) < S output_index)
    (hoff : partials_offset ≤ S output_index)
    (h32 : S output_index < 4294967296) :
    combine_reduce_chunk_kernel c partials sums num_partials reduction_size partials_offset
        output_index =
      combine_reduce_output c partials (S output_index - partials_offset) num_partials
        reduction_size
        (S output_index - (if output_index = 0 then partials_offset else S (output_index - 1))) := by
  unfold combine_reduce_chunk_kernel
  cases output_index with
  | zero =>
    simp only [if_true] at hprev
    have hp : usub (max 0 1) 1 = 0 := by decide
    have hc : u32 (u32 (S 0 * 0) + u32 (partials_offset * 1)) = partials_offset := by
      simp only [Nat.mul_zero, Nat.mul_one]
      rw [show u32 0 = 0 from rfl, Nat.zero_add]
      unfold u32; omega
    have hbw : usub (S 0) partials_offset = S 0 - partials_offset :=
      usub_of_le h32 (by omega)
    simp only [hp, Span.read, hi, if_true, bind, Except.bind, hdata 0 hi, if_false,
      ne_eq, not_true_eq_false, hc, hbw]
    have : S 0 - partials_offset > 0 := by omega
    simp [this]
  | succ i =>
    have hne : i + 1 ≠ 0 := by omega
    simp only [hne, if_false, Nat.add_sub_cancel] at hprev
    have hp : usub (max (i + 1) 1) 1 = i := by
      rw [Nat.max_eq_left (by omega), usub_of_le (by omega) (by omega)]
      omega
    have hi' : i < sums.size := by omega
    have hc : u32 (u32 (S i * 1) + u32 (partials_offset * 0)) = S i := by
      simp only [Nat.mul_zero, Nat.mul_one]
      rw [show u32 0 = 0 from rfl, Nat.add_zero]
      unfold u32; omega
    have hbw : usub (S (i + 1)) (S i) = S (i + 1) - S i := usub_of_le h32 (by omega)
    have hptr : usub (S (i + 1)) partials_offset = S (i + 1) - partials_offset :=
      usub_of_le h32 (by omega)
    simp only [hp, Span.read, hi, hi', if_true, bind, Except.bind, hdata _ hi, hdata _ hi',
      hne, ne_eq, not_false_eq_true, if_false, hc, hbw, hptr, Nat.add_sub_cancel]
    have : S (i + 1) - S i > 0 := by omega
    simp [this]

theorem combine_reduce_chunk_kernel_bit_table {T : Type} [AddCommGroup T] (c : Curve T)
    (partials : Span T) (B : List Nat) (C i : Nat)
    (hpos : 1 ≤ B.getD i 0) (hC : 1 ≤ C) (hsize : partials.size = B.sum * C)
    (h32 : B.sum * C < 4294967296) (hi32 : i < 4294967296) (hi : i < B.length) :
    combine_reduce_chunk_kernel c partials (Span.ofList (partial_sum B)) B.sum C 0 i =
      .ok (∑ j in Finset.range (B.getD i 0),
        2 ^ j • chunk_sum partials B.sum C ((B.take i).sum + j)) := by
  have hP : B.sum ≤ B.sum * C := Nat.le_mul_of_pos_right _ hC
  have hsucc := sum_take_succ_getD B i hi
  have hle := sum_take_le B (i + 1)
  have hkernel := combine_reduce_chunk_kernel_eq c partials (Span.ofList (partial_sum B))
    (fun k => (B.take (k + 1)).sum) B.sum C 0 i
    (by simp [Span.ofList, partial_sum, length_partial_sum_from, hi])
    (by
      intro k hk
      have hk' : k < B.length := by
        simpa [Span.ofList, partial_sum, length_partial_sum_from] using hk
      have := getD_partial_sum_from B 0 k (by omega) hk'
      simp only [Span.ofList, partial_sum]
      rw [show (default : Nat) = 0 from rfl, this, Nat.zero_add])
    hi32
    (by
      cases i with
      | zero => simp only [if_true]; omega
      | succ i =>
        simp only [Nat.add_sub_cancel]
        rw [if_neg (by omega)]
        omega)
    (by omega) (by show (B.take (i + 1)).sum < 4294967296; omega)
  rw [hkernel]
  have hbw : (B.take (i + 1)).sum - (if i = 0 then 0 else (B.take (i - 1 + 1)).sum) =
      B.getD i 0 := by
    cases i with
    | zero =>
      simp only [if_true, Nat.sub_zero]
      rw [hsucc]
      simp only [List.take_zero, List.sum_nil, Nat.zero_add]
    | succ i =>
      simp only [Nat.add_sub_cancel]
      rw [if_neg (by omega)]
      omega
  simp only [hbw, Nat.sub_zero]
  rw [hsucc]
  apply combine_reduce_output_eq c partials _ _ _ _ hpos (by omega) hC
  · intro r hr
    have : r * B.sum ≤ C * B.sum := Nat.mul_le_mul_right _ (by omega)
    rw [Nat.mul_comm C] at this
    omega
  · intro j hj r hr
    have : (r + 1) * B.sum ≤ C * B.sum := Nat.mul_le_mul_right _ (by omega)
    rw [Nat.mul_comm C, Nat.add_mul, Nat.one_mul] at this
    omega

/-- C5. Packed combine. For a bit table `B` with every entry at least 1, its
inclusive prefix sums `S_i`, `P = S_{m-1}`, a reduction size `C ≥ 1` and
partials of length `P * C` (addressable with `unsigned` indices), the bit-table
`combine_reduce_chunk_kernel` with `partials_offset = 0` sets
`res[i] = Σ_{j < B_i} 2^j · Σ_{r < C} partials[r * P + S_i - B_i + j]`. -/
theorem combine_reduce_chunk_kernel_packed {T : Type} [AddCommGroup T] (c : Curve T)
    (partials : Span T) (B : List Nat) (C i : Nat)
    (hpos : ∀ b ∈ B, 1 ≤ b) (hC : 1 ≤ C) (hsize : partials.size = B.sum * C)
    (h32 : B.sum * C < 4294967296) (hi : i < B.length) :
    combine_reduce_chunk_kernel c partials (Span.ofList (partial_sum B)) B.sum C 0 i =
      .ok (∑ j in Finset.range (B.getD i 0), 2 ^ j •
        ∑ r in Finset.range C,
          partials.data (r * B.sum + (B.take (i + 1)).sum - B.getD i 0 + j)) := by
  have hlen := length_le_sum B hpos
  have hP : B.sum ≤ B.sum * C := Nat.le_mul_of_pos_right _ hC
  rw [combine_reduce_chunk_kernel_bit_table c partials B C i (getD_pos B hpos i hi) hC hsize h32
    (by omega) hi]
  refine congrArg Except.ok ?_
  apply Finset.sum_congr rfl
  intro j _
  refine congrArg (fun x => 2 ^ j • x) ?_
  unfold chunk_sum
  apply Finset.sum_congr rfl
  intro r _
  refine congrArg partials.data ?_
  have := sum_take_succ_getD B i hi
  omega

theorem combine_reduce_chunk_kernel_packed_witness :
    combine_reduce_chunk_kernel (Curve.plain (Int × Int))
        (Span.ofList [(0, 1), (1, 0), (0, 1), (1, 0)]) (Span.ofList (partial_sum [3, 1])) 4 1 0 0 =
        .ok (2, 5) ∧
      combine_reduce_chunk_kernel (Curve.plain (Int × Int))
        (Span.ofList [(0, 1), (1, 0), (0, 1), (1, 0)]) (Span.ofList (partial_sum [3, 1])) 4 1 0 1 =
        .ok (1, 0) :=
  ⟨(combine_reduce_chunk_kernel_packed (Curve.plain (Int × Int))
      (Span.ofList [(0, 1), (1, 0), (0, 1), (1, 0)]) [3, 1] 1 0
      (by decide) (by decide) (by decide) (by decide) (by decide)).trans (by decide),
    (combine_reduce_chunk_kernel_packed (Curve.plain (Int × Int))
      (Span.ofList [(0, 1), (1, 0), (0, 1), (1, 0)]) [3, 1] 1 1
      (by decide) (by decide) (by decide) (by decide) (by decide)).trans (by decide)⟩

theorem combine_reduce_chunk_bytes_f_eq {T : Type} [AddCommGroup T] (c : Curve T)
    (partials : Span T) (bit_width num_outputs C i : Nat)
    (hbw : 1 ≤ bit_width) (hC : 1 ≤ C) (hsize : partials.size = bit_width * num_outputs * C)
    (h32 : bit_width * num_outputs * C < 4294967296) (hi : i < num_outputs) :
    combine_reduce_chunk_bytes_f c partials bit_width (bit_width * num_outputs) C i =
      .ok (∑ j in Finset.range bit_width,
        2 ^ j • chunk_sum partials (bit_width * num_outputs) C (bit_width * i + j)) := by
  have hP : bit_width * num_outputs ≤ bit_width * num_outputs * C := Nat.le_mul_of_pos_right _ hC
  have h1 : bit_width * (i + 1) ≤ bit_width * num_outputs := Nat.mul_le_mul_left _ (by omega)
  have h2 : num_outputs ≤ bit_width * num_outputs := Nat.le_mul_of_pos_left _ hbw
  have h3 : bit_width * (i + 1) = bit_width * i + bit_width := by ring
  unfold combine_reduce_chunk_bytes_f
  rw [u32_of_lt (by omega : i + 1 < 4294967296), u32_of_lt (by omega), h3]
  apply combine_reduce_output_eq c partials _ _ _ _ hbw (by omega) hC
  · intro r hr
    have : r * (bit_width * num_outputs) ≤ C * (bit_width * num_outputs) :=
      Nat.mul_le_mul_right _ (by omega)
    rw [Nat.mul_comm C] at this
    omega
  · intro j hj r hr
    have : (r + 1) * (bit_width * num_outputs) ≤ C * (bit_width * num_outputs) :=
      Nat.mul_le_mul_right _ (by omega)
    rw [Nat.mul_comm C, Nat.add_mul, Nat.one_mul] at this
    omega

theorem combine_reduce_chunk_kernel_equal_widths {T : Type} [AddCommGroup T] (c : Curve T)
    (partials : Span T) (bit_width num_outputs C i : Nat)
    (hbw : 1 ≤ bit_width) (hC : 1 ≤ C) (hsize : partials.size = bit_width * num_outputs * C)
    (h32 : bit_width * num_outputs * C < 4294967296) (hi : i < num_outputs) :
    combine_reduce_chunk_kernel c partials ⟨num_outputs, fun k => bit_width * (k + 1)⟩
        (bit_width * num_outputs) C 0 i =
      .ok (∑ j in Finset.range bit_width,
        2 ^ j • chunk_sum partials (bit_width * num_outputs) C (bit_width * i + j)) := by
  have hP : bit_width * num_outputs ≤ bit_width * num_outputs * C := Nat.le_mul_of_pos_right _ hC
  have h1 : bit_width * (i + 1) ≤ bit_width * num_outputs := Nat.mul_le_mul_left _ (by omega)
  have h2 : num_outputs ≤ bit_width * num_outputs := Nat.le_mul_of_pos_left _ hbw
  have h3 : bit_width * (i + 1) = bit_width * i + bit_width := by ring
  have hkernel := combine_reduce_chunk_kernel_eq c partials
    ⟨num_outputs, fun k => bit_width * (k + 1)⟩ (fun k => bit_width * (k + 1))
    (bit_width * num_outputs) C 0 i hi (fun _ _ => rfl) (by omega)
    (by
      cases i with
      | zero => simp only [if_true]; omega
      | succ i =>
        simp only [Nat.add_sub_cancel]
        rw [if_neg (by omega)]
        have : bit_width * (i + 1 + 1) = bit_width * (i + 1) + bit_width := by ring
        omega)
    (by omega) (by show bit_width * (i + 1) < 4294967296; omega)
  rw [hkernel]
  have hwidth : bit_width * (i + 1) - (if i = 0 then 0 else bit_width * (i - 1 + 1)) =
      bit_width := by
    cases i with
    | zero => simp
    | succ i =>
      simp only [Nat.add_sub_cancel]
      rw [if_neg (by omega)]
      have : bit_width * (i + 1 + 1) = bit_width * (i + 1) + bit_width := by ring
      omega
  simp only [hwidth, Nat.sub_zero]
  rw [h3]
  apply combine_reduce_output_eq c partials _ _ _ _ hbw (by omega) hC
  · intro r hr
    have : r * (bit_width * num_outputs) ≤ C * (bit_width * num_outputs) :=
      Nat.mul_le_mul_right _ (by omega)
    rw [Nat.mul_comm C] at this
    omega
  · intro j hj r hr
    have : (r + 1) * (bit_width * num_outputs) ≤ C * (bit_width * num_outputs) :=
      Nat.mul_le_mul_right _ (by omega)
    rw [Nat.mul_comm C, Nat.add_mul, Nat.one_mul] at this
    omega

/-- C6. Packed and unpacked combine agree. For `num_outputs ≥ 1`,
`element_num_bytes ≥ 1`, a reduction size `C ≥ 1` and partials of length
`8 * element_num_bytes * num_outputs * C` (addressable with `unsigned`
indices), the bit-table kernel run with the prefix sums
`S_i = 8 * element_num_bytes * (i + 1)` and `partials_offset = 0` stores to
`res[i]` the same element as the call
`combine_reduce_output(res + i, partials + bit_width * (i + 1), num_partials, C, bit_width)`
of the `element_num_bytes` overload, and both calls succeed. -/
theorem combine_reduce_packed_eq_unpacked {T : Type} [AddCommGroup T] (c : Curve T)
    (partials : Span T) (element_num_bytes num_outputs C i : Nat)
    (hno : 1 ≤ num_outputs) (henb : 1 ≤ element_num_bytes) (hC : 1 ≤ C)
    (hsize : partials.size = 8 * element_num_bytes * num_outputs * C)
    (h32 : 8 * element_num_bytes * num_outputs * C < 4294967296) (hi : i < num_outputs) :
    combine_reduce_chunk_kernel c partials
        ⟨num_outputs, fun k => 8 * element_num_bytes * (k + 1)⟩
        (8 * element_num_bytes * num_outputs) C 0 i =
      combine_reduce_chunk_bytes_f c partials (u32 (8 * element_num_bytes))
        (8 * element_num_bytes * num_outputs) C i ∧
    ∃ v, combine_reduce_chunk_bytes_f c partials (u32 (8 * element_num_bytes))
        (8 * element_num_bytes * num_outputs) C i = .ok v := by
  have hP : 8 * element_num_bytes * num_outputs ≤ 8 * element_num_bytes * num_outputs * C :=
    Nat.le_mul_of_pos_right _ hC
  have h2 : 8 * element_num_bytes ≤ 8 * element_num_bytes * num_outputs :=
    Nat.le_mul_of_pos_right _ hno
  rw [u32_of_lt (by omega : 8 * element_num_bytes < 4294967296),
    combine_reduce_chunk_kernel_equal_widths c partials (8 * element_num_bytes) num_outputs C i
      (by omega) hC hsize h32 hi,
    combine_reduce_chunk_bytes_f_eq c partials (8 * element_num_bytes) num_outputs C i
      (by omega) hC hsize h32 hi]
  exact ⟨rfl, _, rfl⟩

theorem combine_reduce_packed_eq_unpacked_witness :
    combine_reduce_chunk_kernel (Curve.plain Int) ⟨16, fun i => (i : Int)⟩
        ⟨2, fun k => 8 * 1 * (k + 1)⟩ (8 * 1 * 2) 1 0 1 =
      combine_reduce_chunk_bytes_f (Curve.plain Int) ⟨16, fun i => (i : Int)⟩ (u32 (8 * 1))
        (8 * 1 * 2) 1 1 ∧
    ∃ v, combine_reduce_chunk_bytes_f (Curve.plain Int) ⟨16, fun i => (i : Int)⟩ (u32 (8 * 1))
        (8 * 1 * 2) 1 1 = .ok v :=
  combine_reduce_packed_eq_unpacked (Curve.plain Int) ⟨16, fun i => (i : Int)⟩ 1 2 1 1
    (by decide) (by decide) (by decide) (by decide) (by decide) (by decide)

/-! ## `combine_reduce_chunk` and `combine_reduce` -/

theorem combine_reduce_chunk_bytes_f_slice {T : Type} [AddCommGroup T] (c : Curve T)
    (dev pp : Span T) (bw m C P off i : Nat)
    (hbw : 1 ≤ bw) (hC : 1 ≤ C) (hsize : dev.size = m * bw * C)
    (h32 : m * bw * C < 4294967296) (hi : i < m)
    (hdata : ∀ q, q < m * bw → ∀ r, r < C → dev.data (q + r * (m * bw)) = pp.data (off + q + r * P)) :
    combine_reduce_chunk_bytes_f c dev bw (u32 (m * bw)) C i =
      .ok (∑ j in Finset.range bw, 2 ^ j • chunk_sum pp P C (off + (bw * i + j))) := by
  have hP : m * bw ≤ m * bw * C := Nat.le_mul_of_pos_right _ hC
  have h1 : (i + 1) * bw ≤ m * bw := Nat.mul_le_mul_right _ (by omega)
  have h2 : m ≤ m * bw := Nat.le_mul_of_pos_right _ hbw
  have h3 : bw * (i + 1) = bw * i + bw := by ring
  have h4 : (i + 1) * bw = bw * i + bw := by ring
  unfold combine_reduce_chunk_bytes_f
  rw [u32_of_lt (by omega : i + 1 < 4294967296), u32_of_lt (by omega : bw * (i + 1) < 4294967296),
    u32_of_lt (by omega : m * bw < 4294967296), h3]
  rw [combine_reduce_output_eq c dev (bw * i) (m * bw) C bw hbw (by omega) hC]
  · refine congrArg Except.ok ?_
    apply Finset.sum_congr rfl
    intro j hj
    have hj' := Finset.mem_range.mp hj
    refine congrArg (fun x => 2 ^ j • x) ?_
    apply chunk_sum_congr
    intro r hr
    exact hdata (bw * i + j) (by omega) r hr
  · intro r hr
    have : r * (m * bw) ≤ C * (m * bw) := Nat.mul_le_mul_right _ (by omega)
    rw [Nat.mul_comm C] at this
    omega
  · intro j hj r hr
    have : (r + 1) * (m * bw) ≤ C * (m * bw) := Nat.mul_le_mul_right _ (by omega)
    rw [Nat.mul_comm C, Nat.add_mul, Nat.one_mul] at this
    omega

theorem combine_reduce_chunk_bytes_eq {T : Type} [AddCommGroup T] (c : Curve T)
    (pp : Span T) (enb n C a b : Nat) (on_device : Bool)
    (henb : 1 ≤ enb) (hC : 1 ≤ C) (hsize : pp.size = 8 * enb * n * C)
    (h32 : 8 * enb * n * C < 4294967296) (hab : a < b) (hbn : b ≤ n)
    (hdev : on_device = true → a = 0 ∧ b = n) :
    combine_reduce_chunk_bytes c (b - a) enb pp on_device C (a * (8 * enb)) =
      .ok ((List.range (b - a)).map fun i =>
        ∑ j in Finset.range (8 * enb),
          2 ^ j • chunk_sum pp (8 * enb * n) C (8 * enb * (a + i) + j)) := by
  have hP : 8 * enb * n ≤ 8 * enb * n * C := Nat.le_mul_of_pos_right _ hC
  have hbw : 8 * enb ≤ 8 * enb * n := Nat.le_mul_of_pos_right _ (by omega)
  have hbn' : b * (8 * enb) ≤ n * (8 * enb) := Nat.mul_le_mul_right _ hbn
  have han' : (a + 1) * (8 * enb) ≤ b * (8 * enb) := Nat.mul_le_mul_right _ (by omega)
  have hcomm : n * (8 * enb) = 8 * enb * n := Nat.mul_comm _ _
  have hA : (a + 1) * (8 * enb) = a * (8 * enb) + 8 * enb := by ring
  have hslice1 : 1 ≤ (b - a) * (8 * enb) := Nat.mul_pos (by omega) (by omega)
  have hsub : (b - a) * (8 * enb) + a * (8 * enb) = b * (8 * enb) := by
    rw [← Nat.add_mul]; congr 1; omega
  have hslice : (b - a) * (8 * enb) * C ≤ 8 * enb * n * C :=
    Nat.mul_le_mul_right _ (by omega)
  have hnp : pp.size / C = 8 * enb * n := by
    rw [hsize]; exact Nat.mul_div_cancel _ (by omega)
  have hdevspan : ∃ dev,
      (if on_device = true then
        (if pp.size = (b - a) * (8 * enb) * C then Except.ok pp else .error Fault.release_assert)
      else strided_copy_host_to_device ((b - a) * (8 * enb) * C) pp (8 * enb * n)
        ((b - a) * (8 * enb)) (a * (8 * enb))) = .ok dev ∧
      dev.size = (b - a) * (8 * enb) * C ∧
      ∀ q, q < (b - a) * (8 * enb) → ∀ r, r < C →
        dev.data (q + r * ((b - a) * (8 * enb))) =
          pp.data (a * (8 * enb) + q + r * (8 * enb * n)) := by
    cases hod : on_device with
    | true =>
      obtain ⟨ha, hb⟩ := hdev hod
      subst ha hb
      simp only [Nat.sub_zero, if_true, Nat.zero_mul, Nat.zero_add]
      refine ⟨pp, ?_, ?_, ?_⟩
      · rw [if_pos (by rw [hsize, hcomm])]
      · rw [hsize, hcomm]
      · intro q _ r _
        rw [hcomm]
    | false =>
      simp only [Bool.false_eq_true, if_false]
      exact strided_copy_host_to_device_eq pp _ C _ _ (by omega) hC (by omega) hsize
  obtain ⟨dev, hdeveq, hdevsize, hdevdata⟩ := hdevspan
  unfold combine_reduce_chunk_bytes
  rw [if_neg (by omega)]
  simp only [hnp, u32_of_lt (by omega : 8 * enb < 4294967296)]
  rw [if_pos ⟨by omega, hsize, by omega⟩, hdeveq]
  simp only []
  apply launch_for_each_kernel_eq
  intro i hi
  rw [combine_reduce_chunk_bytes_f_slice c dev pp (8 * enb) (b - a) C (8 * enb * n)
    (a * (8 * enb)) i (by omega) hC hdevsize (by omega) hi hdevdata]
  refine congrArg Except.ok ?_
  apply Finset.sum_congr rfl
  intro j _
  refine congrArg (fun x => 2 ^ j • chunk_sum pp (8 * enb * n) C x) ?_
  ring

theorem combine_reduce_bytes_eq {T : Type} [AddCommGroup T] (c : Curve T)
    (res pp : Span T) (chunks : List (Nat × Nat)) (enb C : Nat) (on_device : Bool)
    (hres : 1 ≤ res.size) (henb : 1 ≤ enb) (hC : 1 ≤ C)
    (hsize : pp.size = 8 * enb * res.size * C)
    (h32 : 8 * enb * res.size * C < 4294967296)
    (hsplit : on_device = false → is_split chunks 0 res.size = true) :
    ∃ res', combine_reduce_bytes c res chunks enb pp on_device = .ok res' ∧
      res'.size = res.size ∧
      ∀ o, o < res.size → res'.data o =
        ∑ j in Finset.range (8 * enb),
          2 ^ j • chunk_sum pp (8 * enb * res.size) C (8 * enb * o + j) := by
  have hP : 8 * enb * res.size ≤ 8 * enb * res.size * C := Nat.le_mul_of_pos_right _ hC
  have hbw : 8 * enb ≤ 8 * enb * res.size := Nat.le_mul_of_pos_right _ (by omega)
  have hPpos : 0 < 8 * enb * res.size := by omega
  have hCle : C ≤ 8 * enb * res.size * C := Nat.le_mul_of_pos_left _ hPpos
  have hbw8 : u32 (enb * 8) = 8 * enb := by
    rw [Nat.mul_comm enb 8]; exact u32_of_lt (by omega)
  have hne : res.size * (8 * enb) ≠ 0 := by
    rw [Nat.mul_comm]; omega
  have hred : pp.size / (res.size * (8 * enb)) = C := by
    rw [hsize, Nat.mul_comm res.size]
    exact Nat.mul_div_cancel_left _ hPpos
  unfold combine_reduce_bytes
  simp only [hbw8, hred, u32_of_lt (by omega : C < 4294967296)]
  rw [if_neg (by omega), if_neg hne]
  cases hod : on_device with
  | true =>
    have hchunk := combine_reduce_chunk_bytes_eq c pp enb res.size C 0 res.size true henb hC
      hsize h32 (by omega) (Nat.le_refl _) (fun _ => ⟨rfl, rfl⟩)
    simp only [Nat.sub_zero, Nat.zero_mul] at hchunk
    simp only [if_true, hchunk, bind, Except.bind]
    have hw := write_range_map res 0 res.size
      (fun o => ∑ j in Finset.range (8 * enb),
        2 ^ j • chunk_sum pp (8 * enb * res.size) C (8 * enb * o + j)) (by omega)
    rw [hw]
    refine ⟨_, rfl, rfl, ?_⟩
    intro o ho
    simp only [Nat.zero_le, Nat.zero_add, ho, and_self, if_true]
  | false =>
    simp only [Bool.false_eq_true, if_false]
    obtain ⟨res', hfold, hsize', _, hdata⟩ := foldlM_split
      (fun (res : Span T) (rng : Nat × Nat) =>
        (do
          let vals ← combine_reduce_chunk_bytes c (rng.2 - rng.1) enb pp false C
            (u32 (rng.1 * (8 * enb)))
          res.write_range rng.1 vals : Except Fault (Span T)))
      (fun o => ∑ j in Finset.range (8 * enb),
        2 ^ j • chunk_sum pp (8 * enb * res.size) C (8 * enb * o + j)) res.size
      (by
        intro r a b hab hbn hr
        have hlt : a * (8 * enb) < 4294967296 := by
          have : a * (8 * enb) ≤ res.size * (8 * enb) := Nat.mul_le_mul_right _ (by omega)
          rw [Nat.mul_comm res.size] at this
          omega
        have hchunk := combine_reduce_chunk_bytes_eq c pp enb res.size C a b false henb hC
          hsize h32 hab hbn (fun h => by cases h)
        simp only [u32_of_lt hlt, hchunk, bind, Except.bind]
        refine (write_range_map r a (b - a)
          (fun o => ∑ j in Finset.range (8 * enb),
            2 ^ j • chunk_sum pp (8 * enb * res.size) C (8 * enb * o + j)) (by omega)).trans ?_
        refine congrArg Except.ok ?_
        congr 1
        funext j
        have : (a ≤ j ∧ j < a + (b - a)) ↔ (a ≤ j ∧ j < b) := by omega
        simp only [this])
      chunks 0 res (hsplit hod) rfl
    exact ⟨res', hfold, hsize', fun o ho => hdata o (Nat.zero_le _) ho⟩

theorem combine_reduce_chunk_eq {T : Type} [AddCommGroup T] (c : Curve T)
    (pp : Span T) (sums_chunk : Span Nat) (B : List Nat) (C a b : Nat) (on_device : Bool)
    (hpos : ∀ x ∈ B, 1 ≤ x) (hC : 1 ≤ C) (hsize : pp.size = B.sum * C)
    (h32 : B.sum * C < 4294967296) (hab : a < b) (hbn : b ≤ B.length)
    (hsums_size : sums_chunk.size = b - a)
    (hsums : ∀ k, k < b - a → sums_chunk.data k = (B.take (a + k + 1)).sum)
    (hdev : on_device = true → a = 0 ∧ b = B.length) :
    combine_reduce_chunk c (b - a) sums_chunk pp on_device C (B.take a).sum =
      .ok ((List.range (b - a)).map fun i =>
        ∑ j in Finset.range (B.getD (a + i) 0),
          2 ^ j • chunk_sum pp B.sum C ((B.take (a + i)).sum + j)) := by
  have hP : B.sum ≤ B.sum * C := Nat.le_mul_of_pos_right _ hC
  have hlen := length_le_sum B hpos
  have hoff_lt : (B.take a).sum < (B.take b).sum := sum_take_lt B hpos hab hbn
  have hb_le : (B.take b).sum ≤ B.sum := sum_take_le B b
  have hnp : pp.size / C = B.sum := by
    rw [hsize]; exact Nat.mul_div_cancel _ (by omega)
  have hread : sums_chunk.read (sums_chunk.size - 1) = .ok (B.take b).sum := by
    unfold Span.read
    rw [if_pos (by omega), hsums_size, hsums _ (by omega),
      show a + (b - a - 1) + 1 = b by omega]
  have hslice : usub (B.take b).sum (B.take a).sum = (B.take b).sum - (B.take a).sum :=
    usub_of_le (by omega) (by omega)
  have hsliceC : ((B.take b).sum - (B.take a).sum) * C ≤ B.sum * C :=
    Nat.mul_le_mul_right _ (by omega)
  have hdevspan : ∃ dev,
      (if on_device = true then
        (if pp.size = ((B.take b).sum - (B.take a).sum) * C then Except.ok pp
          else .error Fault.release_assert)
      else strided_copy_host_to_device (((B.take b).sum - (B.take a).sum) * C) pp B.sum
        ((B.take b).sum - (B.take a).sum) (B.take a).sum) = .ok dev ∧
      dev.size = ((B.take b).sum - (B.take a).sum) * C ∧
      ∀ q, q < (B.take b).sum - (B.take a).sum → ∀ r, r < C →
        dev.data (q + r * ((B.take b).sum - (B.take a).sum)) =
          pp.data ((B.take a).sum + q + r * B.sum) := by
    cases hod : on_device with
    | true =>
      obtain ⟨ha, hb⟩ := hdev hod
      subst ha hb
      simp only [List.take_zero, List.sum_nil, Nat.sub_zero, if_true, Nat.zero_add,
        List.take_length]
      exact ⟨pp, by rw [if_pos hsize], hsize, fun _ _ _ _ => rfl⟩
    | false =>
      simp only [Bool.false_eq_true, if_false]
      exact strided_copy_host_to_device_eq pp _ C _ _ (by omega) hC (by omega) hsize
  obtain ⟨dev, hdeveq, hdevsize, hdevdata⟩ := hdevspan
  unfold combine_reduce_chunk
  rw [if_neg (by omega)]
  simp only [hread, hnp, hslice, u32_of_lt (show ((B.take b).sum - (B.take a).sum) * C <
    4294967296 by omega)]
  rw [if_pos ⟨by omega, by omega, hsize, hoff_lt⟩, hdeveq]
  simp only []
  rw [hsums_size]
  apply launch_for_each_kernel_eq
  intro i hi
  have hSi := sum_take_succ_getD B (a + i) (by omega)
  have hBi := getD_pos B hpos (a + i) (by omega)
  have hSle := sum_take_mono B (show a + i + 1 ≤ b by omega)
  have hSa := sum_take_mono B (show a ≤ a + i by omega)
  have hprev : (if i = 0 then (B.take a).sum else (B.take (a + (i - 1) + 1)).sum) =
      (B.take (a + i)).sum := by
    by_cases hi0 : i = 0
    · rw [if_pos hi0, hi0, Nat.add_zero]
    · rw [if_neg hi0, show a + (i - 1) + 1 = a + i by omega]
  have hkernel := combine_reduce_chunk_kernel_eq c dev sums_chunk
    (fun k => (B.take (a + k + 1)).sum) ((B.take b).sum - (B.take a).sum) C (B.take a).sum i
    (by omega) (fun k hk => hsums k (by omega)) (by omega)
    (by rw [hprev]; show (B.take (a + i)).sum < (B.take (a + i + 1)).sum; omega)
    (by show (B.take a).sum ≤ (B.take (a + i + 1)).sum; omega)
    (by show (B.take (a + i + 1)).sum < 4294967296; omega)
  rw [hkernel, hprev]
  have hwidth : (B.take (a + i + 1)).sum - (B.take (a + i)).sum = B.getD (a + i) 0 := by omega
  simp only [hwidth]
  have hptr : (B.take (a + i + 1)).sum - (B.take a).sum =
      ((B.take (a + i)).sum - (B.take a).sum) + B.getD (a + i) 0 := by omega
  rw [hptr, combine_reduce_output_eq c dev _ _ C _ hBi (by omega) hC]
  · refine congrArg Except.ok ?_
    apply Finset.sum_congr rfl
    intro j hj
    have hj' := Finset.mem_range.mp hj
    refine congrArg (fun x => 2 ^ j • x) ?_
    apply chunk_sum_congr
    intro r hr
    rw [hdevdata _ (by omega) r hr]
    congr 1
    omega
  · intro r hr
    have : r * ((B.take b).sum - (B.take a).sum) ≤ C * ((B.take b).sum - (B.take a).sum) :=
      Nat.mul_le_mul_right _ (by omega)
    rw [Nat.mul_comm C] at this
    omega
  · intro j hj r hr
    have : (r + 1) * ((B.take b).sum - (B.take a).sum) ≤
        C * ((B.take b).sum - (B.take a).sum) := Nat.mul_le_mul_right _ (by omega)
    rw [Nat.mul_comm C, Nat.add_mul, Nat.one_mul] at this
    omega

theorem combine_reduce_eq {T : Type} [AddCommGroup T] (c : Curve T)
    (res pp : Span T) (chunks : List (Nat × Nat)) (B : List Nat) (C : Nat) (on_device : Bool)
    (hres : res.size = B.length) (hne : 1 ≤ B.length) (hpos : ∀ x ∈ B, 1 ≤ x) (hC : 1 ≤ C)
    (hsize : pp.size = B.sum * C) (h32 : B.sum * C < 4294967296)
    (hsplit : on_device = false → is_split chunks 0 B.length = true) :
    ∃ res', combine_reduce c res chunks B pp on_device = .ok res' ∧
      res'.size = B.length ∧
      ∀ o, o < B.length → res'.data o =
        ∑ j in Finset.range (B.getD o 0), 2 ^ j • chunk_sum pp B.sum C ((B.take o).sum + j) := by
  have hP : B.sum ≤ B.sum * C := Nat.le_mul_of_pos_right _ hC
  have hlen := length_le_sum B hpos
  have hCle : C ≤ B.sum * C := Nat.le_mul_of_pos_left _ (by omega)
  have hSsize := span_ofList_partial_sum_size B
  have hSdata := span_ofList_partial_sum_data B (by omega)
  have hread : (Span.ofList (partial_sum B)).read (B.length - 1) = .ok B.sum := by
    unfold Span.read
    rw [hSsize, if_pos (by omega), hSdata _ (by omega),
      show B.length - 1 + 1 = B.length by omega, List.take_length]
  have hred : pp.size / B.sum = C := by
    rw [hsize]; exact Nat.mul_div_cancel_left _ (by omega)
  unfold combine_reduce
  simp only [hread, hred, u32_of_lt (by omega : C < 4294967296)]
  rw [if_neg (by omega), if_neg (by omega), if_neg (by omega)]
  cases hod : on_device with
  | true =>
    have hchunk := combine_reduce_chunk_eq c pp (Span.ofList (partial_sum B)) B C 0 B.length true
      hpos hC hsize h32 (by omega) (Nat.le_refl _) (by rw [hSsize]; rfl)
      (fun k hk => by rw [hSdata k (by omega), Nat.zero_add]) (fun _ => ⟨rfl, rfl⟩)
    simp only [Nat.sub_zero, List.take_zero, List.sum_nil] at hchunk
    simp only [if_true, hres, hchunk, bind, Except.bind]
    have hw := write_range_map res 0 B.length
      (fun o => ∑ j in Finset.range (B.getD o 0),
        2 ^ j • chunk_sum pp B.sum C ((B.take o).sum + j)) (by omega)
    rw [hw]
    refine ⟨_, rfl, hres, ?_⟩
    intro o ho
    simp only [Nat.zero_le, Nat.zero_add, ho, and_self, if_true]
  | false =>
    simp only [Bool.false_eq_true, if_false]
    obtain ⟨res', hfold, hsize', _, hdata⟩ := foldlM_split
      (fun (res : Span T) (rng : Nat × Nat) =>
        (do
          let bit_table_partial_sums_chunk ←
            (Span.ofList (partial_sum B)).subspan rng.1 (rng.2 - rng.1)
          let partials_offset ←
            if rng.1 > 0 then (Span.ofList (partial_sum B)).read (rng.1 - 1) else pure 0
          let vals ← combine_reduce_chunk c (rng.2 - rng.1) bit_table_partial_sums_chunk pp
            false C partials_offset
          res.write_range rng.1 vals : Except Fault (Span T)))
      (fun o => ∑ j in Finset.range (B.getD o 0),
        2 ^ j • chunk_sum pp B.sum C ((B.take o).sum + j)) B.length
      (by
        intro r a b hab hbn hr
        have hsub : (Span.ofList (partial_sum B)).subspan a (b - a) =
            .ok ⟨b - a, fun j => (Span.ofList (partial_sum B)).data (a + j)⟩ := by
          unfold Span.subspan
          rw [if_pos (by rw [hSsize]; omega)]
        have hchunk := combine_reduce_chunk_eq c pp
          ⟨b - a, fun j => (Span.ofList (partial_sum B)).data (a + j)⟩ B C a b false
          hpos hC hsize h32 hab hbn rfl (fun k hk => hSdata (a + k) (by omega))
          (fun h => by cases h)
        dsimp only
        rw [hsub]
        by_cases ha : a > 0
        · have hoff : (Span.ofList (partial_sum B)).read (a - 1) = .ok (B.take a).sum := by
            unfold Span.read
            rw [if_pos (by rw [hSsize]; omega), hSdata _ (by omega),
              show a - 1 + 1 = a by omega]
          simp only [bind, Except.bind, if_pos ha, hoff, hchunk]
          exact (write_range_map r a (b - a)
            (fun o => ∑ j in Finset.range (B.getD o 0),
              2 ^ j • chunk_sum pp B.sum C ((B.take o).sum + j)) (by omega)).trans
            (congrArg Except.ok (by
              congr 1
              funext j
              have : (a ≤ j ∧ j < a + (b - a)) ↔ (a ≤ j ∧ j < b) := by omega
              simp only [this]))
        · have ha0 : a = 0 := by omega
          subst ha0
          simp only [List.take_zero, List.sum_nil] at hchunk
          simp only [bind, Except.bind, if_neg ha, pure, Except.pure, hchunk]
          exact (write_range_map r 0 (b - 0)
            (fun o => ∑ j in Finset.range (B.getD o 0),
              2 ^ j • chunk_sum pp B.sum C ((B.take o).sum + j)) (by omega)).trans
            (congrArg Except.ok (by
              congr 1
              funext j
              have : (0 ≤ j ∧ j < 0 + (b - 0)) ↔ (0 ≤ j ∧ j < b) := by omega
              simp only [this])))
      chunks 0 res (hsplit hod) hres
    exact ⟨res', hfold, hsize', fun o ho => hdata o (Nat.zero_le _) ho⟩

/-! ## `partition_product` and the fixed-width multi-scalar multiplication -/

theorem partition_product_loop_eq {T : Type} [AddCommGroup T] (c : Curve T)
    (partition_table : Span T) (scalars : Span (Fin 256)) (num_products n : Nat) (val : Nat → T)
    (hk : ∀ q, q < num_products →
      partition_product_kernel c partition_table scalars (q / 8) (q % 8) (u32 num_products) n =
        .ok (q, val q)) :
    ∀ (fuel p : Nat) (products : Span T), p + fuel = num_products →
      products.size = num_products →
      ∃ products', partition_product_loop c partition_table scalars num_products n fuel p
          products = .ok products' ∧ products'.size = num_products ∧
        ∀ q, products'.data q = if p ≤ q ∧ q < p + fuel then val q else products.data q := by
  intro fuel
  induction fuel with
  | zero =>
    intro p products _ hsize
    refine ⟨products, rfl, hsize, ?_⟩
    intro q
    rw [if_neg (by omega)]
  | succ fuel ih =>
    intro p products hp hsize
    obtain ⟨products', hloop, hsize', hdata⟩ := ih (p + 1)
      ⟨products.size, fun j => if j = p then val p else products.data j⟩ (by omega) hsize
    refine ⟨products', ?_, hsize', ?_⟩
    · rw [partition_product_loop]
      simp only [hk p (by omega), bind, Except.bind, Span.write]
      rw [if_pos (by omega)]
      exact hloop
    · intro q
      rw [hdata q]
      by_cases hq : q = p
      · subst hq
        rw [if_neg (by omega), if_pos (by omega)]
        simp
      · by_cases hq2 : p + 1 ≤ q ∧ q < p + 1 + fuel
        · rw [if_pos hq2, if_pos (by omega)]
        · rw [if_neg hq2, if_neg (by omega)]
          simp [hq]

theorem partition_product_eq {T : Type} [AddCommGroup T] (c : Curve T) (G : Nat → T)
    (products table : Span T) (scalars : Span (Fin 256)) (n s : Nat)
    (hn : 1 ≤ n) (hs : 1 ≤ s) (hn32 : n < 4294967296) (hsize : products.size = 8 * s)
    (h32 : 2 * (8 * s) < 4294967296) (hscalars : scalars.size = n * s)
    (htable_size : (n + 15) / 16 * 65536 ≤ table.size)
    (htable : is_partition_table table G ((n + 15) / 16)) :
    ∃ products', partition_product c products table scalars 0 = .ok products' ∧
      products'.size = 8 * s ∧
      ∀ p, p < 8 * s → products'.data p =
        ∑ g in Finset.range n,
          if (scalars.data (p / 8 + g * s)).val.testBit (p % 8) = true then G g else 0 := by
  have hnn : u32 (scalars.size * 8 / (8 * s)) = n := by
    rw [hscalars, Nat.mul_assoc, Nat.mul_comm s 8, Nat.mul_div_cancel _ (by omega : 0 < 8 * s)]
    exact u32_of_lt hn32
  have hdiv : divide_up n 16 = (n + 15) / 16 := by unfold divide_up; omega
  have hstep : 8 * s / 8 = s := by omega
  have hview : host_view table 0 ((n + 15) / 16 * 65536) =
      .ok ⟨(n + 15) / 16 * 65536, fun i => table.data (0 + i)⟩ := by
    unfold host_view
    rw [if_pos (by omega)]
  have hviewtab : is_partition_table
      (⟨(n + 15) / 16 * 65536, fun i => table.data (0 + i)⟩ : Span T) G ((n + 15) / 16) := by
    intro w hw m hm
    show table.data (0 + (w * 65536 + m)) = _
    rw [Nat.zero_add]
    exact htable w hw m hm
  obtain ⟨products', hloop, hsize', hdata⟩ := partition_product_loop_eq c
    ⟨(n + 15) / 16 * 65536, fun i => table.data (0 + i)⟩ scalars (8 * s) n
    (fun p => ∑ g in Finset.range n,
      if (scalars.data (p / 8 + g * s)).val.testBit (p % 8) = true then G g else 0)
    (by
      intro q hq
      have := partition_product_kernel_generators c
        ⟨(n + 15) / 16 * 65536, fun i => table.data (0 + i)⟩ scalars (8 * s) n q G hn
        (Dvd.intro _ rfl) hq h32 (by rw [hstep, hscalars]) (Nat.le_refl _) hviewtab
      rw [hstep] at this
      rw [u32_of_lt (by omega : 8 * s < 4294967296)]
      exact this)
    (8 * s) 0 products (by omega) hsize
  refine ⟨products', ?_, hsize', ?_⟩
  · unfold partition_product
    simp only [hsize, hnn, hdiv, hview, bind, Except.bind]
    rw [if_neg (by omega), if_neg (by decide)]
    exact hloop
  · intro p hp
    rw [hdata p, if_pos (by omega)]

theorem sum_bit_weights (x : Nat → Fin 256) (enb : Nat) :
    ∑ j in Finset.range (8 * enb),
        2 ^ j * (if (x (j / 8)).val.testBit (j % 8) = true then 1 else 0) =
      ∑ b in Finset.range enb, 256 ^ b * (x b).val := by
  rw [← sum_blocks 8 (fun j => 2 ^ j * (if (x (j / 8)).val.testBit (j % 8) = true then 1 else 0)) enb]
  apply Finset.sum_congr rfl
  intro b _
  rw [← sum_bits_byte (x b), Finset.mul_sum]
  apply Finset.sum_congr rfl
  intro t ht
  have ht8 : t < 8 := Finset.mem_range.mp ht
  have h1 : (8 * b + t) / 8 = b := by omega
  have h2 : (8 * b + t) % 8 = t := by omega
  simp only [h1, h2]
  rw [pow_add, pow_mul, ← mul_assoc]
  norm_num

theorem sum_bit_smul {T : Type} [AddCommGroup T] (x : Nat → Fin 256) (enb : Nat) (v : T) :
    ∑ j in Finset.range (8 * enb),
        2 ^ j • (if (x (j / 8)).val.testBit (j % 8) = true then v else 0) =
      (∑ b in Finset.range enb, 256 ^ b * (x b).val) • v := by
  rw [← sum_bit_weights x enb, Finset.sum_smul]
  apply Finset.sum_congr rfl
  intro j _
  by_cases h : (x (j / 8)).val.testBit (j % 8) = true
  · simp [h]
  · simp [h]

theorem msm_regroup {T : Type} [AddCommGroup T] (scalars : Span (Fin 256)) (G : Nat → T)
    (enb num_outputs n o : Nat) :
    ∑ j in Finset.range (8 * enb), 2 ^ j •
        ∑ g in Finset.range n,
          (if (scalars.data ((8 * enb * o + j) / 8 + g * (enb * num_outputs))).val.testBit
              ((8 * enb * o + j) % 8) = true then G g else 0) =
      ∑ g in Finset.range n, scalar_value scalars enb num_outputs o g • G g := by
  simp only [Finset.smul_sum]
  rw [Finset.sum_comm]
  apply Finset.sum_congr rfl
  intro g _
  unfold scalar_value
  rw [← sum_bit_smul (fun b => scalars.data (b + enb * o + enb * num_outputs * g)) enb (G g)]
  apply Finset.sum_congr rfl
  intro j _
  have h1 : (8 * enb * o + j) / 8 = enb * o + j / 8 := by
    rw [Nat.mul_assoc, Nat.mul_add_div (by decide)]
  have h2 : (8 * enb * o + j) % 8 = j % 8 := by
    rw [Nat.mul_assoc, Nat.mul_add_mod]
  have h3 : enb * o + j / 8 + g * (enb * num_outputs) =
      j / 8 + enb * o + enb * num_outputs * g := by ring
  simp only [h1, h2, h3]

/-- C1. Fixed-width MSM correctness. For `n ≥ 1`, `element_num_bytes ≥ 1`,
`num_outputs ≥ 1` (sizes in the range of `unsigned`) and a scalar array of
`n * num_outputs * element_num_bytes` bytes, if the partition table holds the
subset sums of the generators `G`, then `partition_product` with offset 0 over
`8 * element_num_bytes * num_outputs` products succeeds, and the
`element_num_bytes` overload of `combine_reduce` applied to these products
(reduction size 1), on either of its paths, succeeds with
`res[o] = Σ_{g < n} s(o, g) · G_g`, where `s(o, g)` is the little-endian integer
of the bytes `scalars[b + element_num_bytes * o + element_num_bytes * num_outputs * g]`. -/
theorem fixed_width_msm {T : Type} [AddCommGroup T] (c : Curve T) (G : Nat → T)
    (products res table : Span T) (scalars : Span (Fin 256))
    (chunks : List (Nat × Nat)) (on_device : Bool) (n element_num_bytes num_outputs : Nat)
    (hn : 1 ≤ n) (henb : 1 ≤ element_num_bytes) (hno : 1 ≤ num_outputs)
    (hn32 : n < 4294967296) (h32 : 2 * (8 * element_num_bytes * num_outputs) < 4294967296)
    (hscalars : scalars.size = n * num_outputs * element_num_bytes)
    (hproducts : products.size = 8 * element_num_bytes * num_outputs)
    (hres : res.size = num_outputs)
    (htable_size : (n + 15) / 16 * 65536 ≤ table.size)
    (htable : is_partition_table table G ((n + 15) / 16))
    (hsplit : on_device = false → is_split chunks 0 num_outputs = true) :
    ∃ products' res', partition_product c products table scalars 0 = .ok products' ∧
      combine_reduce_bytes c res chunks element_num_bytes products' on_device = .ok res' ∧
      res'.size = num_outputs ∧
      ∀ o, o < num_outputs → res'.data o =
        ∑ g in Finset.range n, scalar_value scalars element_num_bytes num_outputs o g • G g := by
  have hassoc : 8 * element_num_bytes * num_outputs = 8 * (element_num_bytes * num_outputs) :=
    Nat.mul_assoc _ _ _
  obtain ⟨products', hpp, hppsize, hppdata⟩ := partition_product_eq c G products table scalars n
    (element_num_bytes * num_outputs) hn (Nat.mul_pos henb hno) hn32 (by rw [hproducts, hassoc])
    (by omega) (by rw [hscalars, Nat.mul_assoc, Nat.mul_comm num_outputs]) htable_size htable
  subst hres
  obtain ⟨res', hcr, hressize, hresdata⟩ := combine_reduce_bytes_eq c res products' chunks
    element_num_bytes 1 on_device hno henb (Nat.le_refl _)
    (by rw [hppsize, Nat.mul_one, hassoc]) (by omega) hsplit
  refine ⟨products', res', hpp, hcr, hressize, ?_⟩
  intro o ho
  rw [hresdata o ho, ← msm_regroup scalars G element_num_bytes res.size n o]
  apply Finset.sum_congr rfl
  intro j hj
  have hj' := Finset.mem_range.mp hj
  rw [chunk_sum_one, hppdata]
  have h1 : 8 * element_num_bytes * (o + 1) ≤ 8 * element_num_bytes * res.size :=
    Nat.mul_le_mul_left _ (by omega)
  have h2 : 8 * element_num_bytes * (o + 1) =
      8 * element_num_bytes * o + 8 * element_num_bytes := by ring
  omega

theorem fixed_width_msm_witness :
    ∃ products' res',
      partition_product (Curve.plain (Int × Int)) ⟨16, fun _ => (0, 0)⟩
          (make_partition_table two_generators 1) (Span.ofList [1, 0, 0, 2]) 0 = .ok products' ∧
        combine_reduce_bytes (Curve.plain (Int × Int)) ⟨1, fun _ => (0, 0)⟩ [(0, 1)] 2 products'
          false = .ok res' ∧
        res'.size = 1 ∧ res'.data 0 = (1, 512) := by
  obtain ⟨products', res', h1, h2, h3, h4⟩ := fixed_width_msm (Curve.plain (Int × Int))
    two_generators ⟨16, fun _ => (0, 0)⟩ ⟨1, fun _ => (0, 0)⟩
    (make_partition_table two_generators 1) (Span.ofList [1, 0, 0, 2]) [(0, 1)] false 2 2 1
    (by decide) (by decide) (by decide) (by decide) (by decide) (by decide) (by decide) (by decide)
    (by decide) (is_partition_table_make two_generators 1) (fun _ => by decide)
  exact ⟨products', res', h1, h2, h3, (h4 0 (by decide)).trans (by decide)⟩

/-! ## Rejected inputs of `combine_reduce` -/

/-- C9 (failing input). With one output of bit width 2 and a single partial
product, the reduction size is `1 / 2 = 0`; `combine_reduce_chunk` then
evaluates `partial_products.size() / reduction_size` before its release
assertion, on the device path and on the host path alike. The same happens with
bit width 1 and no partial product. -/
theorem combine_reduce_reduction_size_zero :
    combine_reduce (Curve.plain Int) ⟨1, fun _ => 7⟩ [] [2] (Span.ofList [5]) true =
        .error .division_by_zero ∧
      combine_reduce (Curve.plain Int) ⟨1, fun _ => 7⟩ [(0, 1)] [2] (Span.ofList [5]) false =
        .error .division_by_zero ∧
      combine_reduce (Curve.plain Int) ⟨1, fun _ => 7⟩ [] [1] (Span.ofList []) true =
        .error .division_by_zero := by
  refine ⟨rfl, rfl, rfl⟩

theorem combine_reduce_division_before_assert {T : Type} [AddCommGroup T] (c : Curve T)
    (res pp : Span T) (chunks : List (Nat × Nat)) (B : List Nat)
    (hres : res.size = B.length) (hne : 1 ≤ B.length) (hP : 0 < B.sum)
    (h32 : B.sum < 4294967296) (hpp : pp.size < B.sum) :
    combine_reduce c res chunks B pp true = .error .division_by_zero := by
  have hread : (Span.ofList (partial_sum B)).read (B.length - 1) = .ok B.sum := by
    unfold Span.read
    rw [span_ofList_partial_sum_size, if_pos (by omega),
      span_ofList_partial_sum_data B h32 _ (by omega),
      show B.length - 1 + 1 = B.length by omega, List.take_length]
  unfold combine_reduce
  simp only [hread]
  rw [if_neg (by omega), if_neg (by omega), if_neg (by omega)]
  simp only [if_true, Nat.div_eq_of_lt hpp]
  rfl

/-! ## `async_partition_product_chunk` -/

theorem async_partition_product_chunk_eq {T : Type} [AddCommGroup T] (c : Curve T)
    (products : Span T) (num_products_p : Nat) (active_products : Nat → T)
    (hle : num_products_p ≤ products.size) :
    async_partition_product_chunk c products num_products_p active_products =
      .ok ⟨⟨products.size, fun j =>
          if j < products.size - num_products_p then c.identity
          else if j < products.size then active_products (j - (products.size - num_products_p))
          else products.data j⟩,
        write_range_indices 0 (products.size - num_products_p),
        if num_products_p > 0 then
          write_range_indices (products.size - num_products_p) num_products_p else []⟩ := by
  unfold async_partition_product_chunk
  simp only []
  rw [if_pos hle]
  by_cases hp : num_products_p > 0
  · simp only [if_pos hp]
    rw [write_range_active products _ _ _ (by omega)]
    simp only [List.length_replicate]
    have hw := write_range_replicate
      (⟨products.size, fun j =>
        if products.size - num_products_p ≤ j ∧
            j < products.size - num_products_p + num_products_p then
          active_products (j - (products.size - num_products_p))
        else products.data j⟩ : Span T) 0 (products.size - num_products_p) c.identity
      (show 0 + (products.size - num_products_p) ≤ products.size by omega)
    rw [hw]
    refine congrArg Except.ok ?_
    congr 2
    funext j
    dsimp only
    by_cases h1 : j < products.size - num_products_p
    · rw [if_pos (by omega), if_pos h1]
    · rw [if_neg (by omega), if_neg h1]
      by_cases h2 : j < products.size
      · rw [if_pos (by omega), if_pos h2]
      · rw [if_neg (by omega), if_neg h2]
  · simp only [if_neg hp]
    simp only [List.length_replicate]
    rw [write_range_replicate products 0 _ _
      (show 0 + (products.size - num_products_p) ≤ products.size by omega)]
    refine congrArg Except.ok ?_
    congr 2
    funext j
    by_cases h1 : j < products.size - num_products_p
    · rw [if_pos (by omega), if_pos h1]
    · rw [if_neg (by omega), if_neg h1, if_neg (by omega)]

theorem sum_identity_partials {T : Type} [AddCommGroup T] (c : Curve T) (pp : Span T)
    (P base bw : Nat) (hpp : ∀ q, q < P → pp.data q = c.identity) (hfit : base + bw ≤ P) :
    ∑ j in Finset.range bw, 2 ^ j • chunk_sum pp P 1 (base + j) = c.identity := by
  rw [c.identity_eq]
  apply Finset.sum_eq_zero
  intro j hj
  have hj' := Finset.mem_range.mp hj
  rw [chunk_sum_one, hpp _ (by omega), c.identity_eq, smul_zero]

theorem combine_reduce_identity_products {T : Type} [AddCommGroup T] (c : Curve T)
    (pp : Span T) (hall : ∀ q, q < pp.size → pp.data q = c.identity) :
    (∀ (B : List Nat) (i : Nat), B.sum = pp.size → B.sum < 4294967296 →
      B.length < 4294967296 → i < B.length → 1 ≤ B.getD i 0 →
      combine_reduce_chunk_kernel c pp (Span.ofList (partial_sum B)) B.sum 1 0 i =
        .ok c.identity) ∧
    (∀ (B : List Nat) (res : Span T) (chunks : List (Nat × Nat)) (on_device : Bool),
      B.sum = pp.size → B.sum < 4294967296 → res.size = B.length → 1 ≤ B.length →
      (∀ b ∈ B, 1 ≤ b) → (on_device = false → is_split chunks 0 B.length = true) →
      ∃ res', combine_reduce c res chunks B pp on_device = .ok res' ∧
        res'.size = B.length ∧ ∀ o, o < B.length → res'.data o = c.identity) := by
  constructor
  · intro B i hsum h32 hlen hi hpos
    have hsucc := sum_take_succ_getD B i hi
    have hle' := sum_take_le B (i + 1)
    rw [combine_reduce_chunk_kernel_bit_table c pp B 1 i hpos (Nat.le_refl _)
      (by rw [Nat.mul_one]; exact hsum.symm) (by omega) (by omega) hi]
    refine congrArg Except.ok ?_
    exact sum_identity_partials c pp B.sum _ _ (fun q hq => hall q (by omega)) (by omega)
  · intro B res chunks on_device hsum h32 hres hne hpos hsplit
    obtain ⟨res', hcr, hsize, hdata⟩ := combine_reduce_eq c res pp chunks B 1 on_device hres hne
      hpos (Nat.le_refl _) (by rw [Nat.mul_one]; exact hsum.symm) (by omega) hsplit
    refine ⟨res', hcr, hsize, ?_⟩
    intro o ho
    have hsucc := sum_take_succ_getD B o ho
    have hle' := sum_take_le B (o + 1)
    rw [hdata o ho]
    exact sum_identity_partials c pp B.sum _ _ (fun q hq => hall q (by omega)) (by omega)

/-- C10. Zero-length outputs produce the identity. When the product-length
table reports `num_products_p` active products out of `num_products`,
`async_partition_product_chunk` succeeds; exactly the entries
`products[0 .. num_products - num_products_p)` are stored to by the identity
fill and hold `T::identity()`, exactly the remaining entries are stored to by
the partition product and hold its values, and no entry is stored to by both.
Consequently, if `num_products_p = 0`, all products are the identity, the
`combine_reduce_chunk_kernel` invocation of every output with `B_i ≥ 1` stores
the identity, and `combine_reduce` (bit widths at least 1, total bit count
`num_products` in the range of `unsigned`) returns the identity for every
output, on either of its paths. -/
theorem async_partition_product_chunk_zero_section {T : Type} [AddCommGroup T] (c : Curve T)
    (products : Span T) (num_products_p : Nat) (active_products : Nat → T)
    (hle : num_products_p ≤ products.size) :
    ∃ out, async_partition_product_chunk c products num_products_p active_products = .ok out ∧
      out.products.size = products.size ∧
      (∀ i, i ∈ out.identity_indices ↔ i < products.size - num_products_p) ∧
      (∀ i, i ∈ out.product_indices ↔
        (products.size - num_products_p ≤ i ∧ i < products.size)) ∧
      (∀ i, ¬ (i ∈ out.identity_indices ∧ i ∈ out.product_indices)) ∧
      (∀ i, i < products.size - num_products_p → out.products.data i = c.identity) ∧
      (∀ j, j < num_products_p →
        out.products.data (products.size - num_products_p + j) = active_products j) ∧
      (num_products_p = 0 →
        (∀ i, i < products.size → out.products.data i = c.identity) ∧
        (∀ (B : List Nat) (i : Nat), B.sum = products.size → B.sum < 4294967296 →
          B.length < 4294967296 → i < B.length → 1 ≤ B.getD i 0 →
          combine_reduce_chunk_kernel c out.products (Span.ofList (partial_sum B)) B.sum 1 0 i =
            .ok c.identity) ∧
        (∀ (B : List Nat) (res : Span T) (chunks : List (Nat × Nat)) (on_device : Bool),
          B.sum = products.size → B.sum < 4294967296 → res.size = B.length → 1 ≤ B.length →
          (∀ b ∈ B, 1 ≤ b) → (on_device = false → is_split chunks 0 B.length = true) →
          ∃ res', combine_reduce c res chunks B out.products on_device = .ok res' ∧
            res'.size = B.length ∧ ∀ o, o < B.length → res'.data o = c.identity)) := by
  refine ⟨_, async_partition_product_chunk_eq c products num_products_p active_products hle,
    rfl, ?_, ?_, ?_, ?_, ?_, ?_⟩
  · intro i
    rw [mem_write_range_indices]
    omega
  · intro i
    by_cases hp : num_products_p > 0
    · simp only [if_pos hp]
      rw [mem_write_range_indices]
      omega
    · simp only [if_neg hp, List.not_mem_nil, false_iff]
      omega
  · intro i
    by_cases hp : num_products_p > 0
    · simp only [if_pos hp]
      rw [mem_write_range_indices, mem_write_range_indices]
      omega
    · simp only [if_neg hp, List.not_mem_nil, and_false, not_false_eq_true]
  · intro i hi
    show (if i < products.size - num_products_p then c.identity else _) = _
    rw [if_pos hi]
  · intro j hj
    show (if products.size - num_products_p + j < products.size - num_products_p then c.identity
      else if products.size - num_products_p + j < products.size then
        active_products (products.size - num_products_p + j - (products.size - num_products_p))
      else _) = _
    rw [if_neg (by omega), if_pos (by omega), Nat.add_sub_cancel_left]
  · intro h0
    subst h0
    have hall : ∀ i, i < products.size →
        (⟨products.size, fun j =>
          if j < products.size - 0 then c.identity
          else if j < products.size then active_products (j - (products.size - 0))
          else products.data j⟩ : Span T).data i = c.identity := by
      intro i hi
      show (if i < products.size - 0 then c.identity else _) = _
      rw [if_pos (by omega)]
    refine ⟨hall, ?_⟩
    have hcons := combine_reduce_identity_products c
      (⟨products.size, fun j =>
        if j < products.size - 0 then c.identity
        else if j < products.size then active_products (j - (products.size - 0))
        else products.data j⟩ : Span T) hall
    exact hcons

theorem async_partition_product_chunk_zero_section_witness :
    ∃ out, async_partition_product_chunk (Curve.plain Int) ⟨4, fun _ => 7⟩ 1 (fun _ => 5) =
        .ok out ∧
      out.products.size = 4 ∧
      out.products.data 0 = 0 ∧ out.products.data 2 = 0 ∧ out.products.data 3 = 5 ∧
      (∀ i, ¬ (i ∈ out.identity_indices ∧ i ∈ out.product_indices)) := by
  obtain ⟨out, h1, h2, _, _, h5, h6, h7, _⟩ := async_partition_product_chunk_zero_section
    (Curve.plain Int) ⟨4, fun _ => 7⟩ 1 (fun _ => 5) (by decide)
  exact ⟨out, h1, h2, h6 0 (by decide), h6 2 (by decide), h7 0 (by decide), h5⟩

/-! ## `to_device_copier`: the bytes written -/

theorem fill_from_host_bytes (capacity : Nat) (b : pinned_buffer) (src : List (Fin 256)) :
    (b.fill_from_host capacity src).1.bytes ++ (b.fill_from_host capacity src).2 =
      b.bytes ++ src := by
  simp [pinned_buffer.fill_from_host, List.append_assoc]

theorem fill_from_host_size (capacity : Nat) (b : pinned_buffer) (src : List (Fin 256)) :
    (b.fill_from_host capacity src).1.size = b.size + min src.length (capacity - b.size) := by
  simp [pinned_buffer.fill_from_host, pinned_buffer.size]

theorem fill_from_host_rest (capacity : Nat) (b : pinned_buffer) (src : List (Fin 256)) :
    (b.fill_from_host capacity src).2.length =
      src.length - min src.length (capacity - b.size) := by
  simp [pinned_buffer.fill_from_host, pinned_buffer.size]

theorem device_memory_append (ops : List StreamOp) (op : StreamOp) :
    device_memory (ops ++ [op]) = StreamOp.apply (device_memory ops) op := by
  simp [device_memory, List.foldl_append]

theorem device_memory_memcpy (ops : List StreamOp) (P B : List (Fin 256))
    (h : ∀ i, device_memory ops i = P[i]?) (i : Nat) :
    device_memory (ops ++ [StreamOp.async_memcpy_host_to_device P.length B]) i = (P ++ B)[i]? := by
  rw [device_memory_append]
  simp only [StreamOp.apply]
  by_cases hi : i < P.length
  · rw [if_neg (by omega), h, List.getElem?_append_left hi]
  · have hi' : P.length ≤ i := by omega
    rw [List.getElem?_append_right hi']
    by_cases hj : i < P.length + B.length
    · rw [if_pos ⟨hi', hj⟩]
    · rw [if_neg (by omega), h, List.getElem?_eq_none (by omega), List.getElem?_eq_none (by omega)]

theorem device_memory_await (ops : List StreamOp) :
    device_memory (ops ++ [StreamOp.await_stream]) = device_memory ops := by
  rw [device_memory_append]; rfl

theorem pinned_buffer_eq_nil (b : pinned_buffer) (h : b.empty = true) : b = ⟨[]⟩ := by
  cases b with
  | mk bytes =>
    simp only [pinned_buffer.empty, pinned_buffer.size, beq_iff_eq] at h
    rw [List.length_eq_zero.mp h]

theorem copy_loop_data (D capacity : Nat) (hcap : 1 ≤ capacity) :
    ∀ (fuel : Nat) (c : to_device_copier) (src P : List (Fin 256)),
      src.length < fuel →
      c.dst_size ≠ 0 → c.dst_data = P.length → c.dst_data + c.dst_size = D →
      c.active_buffer_.size < capacity → c.active_buffer_.size < c.dst_size →
      P.length + c.active_buffer_.size + src.length ≤ D →
      (∀ i, device_memory c.stream_ i = P[i]?) →
      ∃ c1 P1, to_device_copier.copy_loop capacity fuel c src = .ok c1 ∧
        copier_inv D capacity c1 P1 ∧
        P1 ++ c1.active_buffer_.bytes = P ++ c.active_buffer_.bytes ++ src := by
  intro fuel
  induction fuel with
  | zero => intro c src P h; omega
  | succ fuel ih =>
    intro c src P hfuel hne hdata hD hA hAd htot hmem
    rw [to_device_copier.copy_loop]
    by_cases hsrc : src = []
    · subst hsrc
      exact ⟨c, P, by simp, ⟨hmem, Or.inl ⟨hne, hdata, hD, hA, hAd⟩⟩, by simp⟩
    · have hpos : 0 < src.length := List.length_pos.mpr hsrc
      have hemp : src.isEmpty = false := by
        cases src with
        | nil => exact absurd rfl hsrc
        | cons a l => rfl
      rw [hemp]
      simp only [Bool.false_eq_true, if_false]
      have h1 := fill_from_host_size capacity c.active_buffer_ src
      have h2 := fill_from_host_rest capacity c.active_buffer_ src
      have h3 := fill_from_host_bytes capacity c.active_buffer_ src
      generalize c.active_buffer_.fill_from_host capacity src = filled at h1 h2 h3
      have hlen : filled.1.bytes.length = filled.1.size := rfl
      by_cases hbreak : filled.1.size = c.dst_size
      · rw [if_pos hbreak]
        have hrest : filled.2 = [] := List.length_eq_zero.mp (by omega)
        rw [hrest, List.append_nil] at h3
        refine ⟨{ dst_data := 0, dst_size := 0, active_buffer_ := filled.1.reset,
                  alt_buffer_ := c.alt_buffer_.reset,
                  stream_ := c.stream_ ++ [StreamOp.async_memcpy_host_to_device c.dst_data
                    filled.1.bytes, StreamOp.await_stream] },
          P ++ filled.1.bytes, ?_, ⟨?_, Or.inr ⟨rfl, rfl, ?_⟩⟩, ?_⟩
        · simp only [to_device_copier.copy_finish, hrest, List.isEmpty_nil, not_true_eq_false,
            if_false]
          rw [if_neg (by omega)]
        · intro i
          show device_memory (c.stream_ ++ [StreamOp.async_memcpy_host_to_device c.dst_data
            filled.1.bytes, StreamOp.await_stream]) i = _
          have : c.stream_ ++ [StreamOp.async_memcpy_host_to_device c.dst_data
              filled.1.bytes, StreamOp.await_stream] =
              (c.stream_ ++ [StreamOp.async_memcpy_host_to_device c.dst_data filled.1.bytes]) ++
                [StreamOp.await_stream] := by simp
          rw [this, device_memory_await, hdata]
          exact device_memory_memcpy _ _ _ hmem i
        · rw [List.length_append]; omega
        · show (P ++ filled.1.bytes) ++ [] = _
          rw [List.append_nil, List.append_assoc, h3]
      · rw [if_neg hbreak]
        by_cases hfull : filled.1.size = capacity
        · have hf : filled.1.full capacity = true := by
            simp [pinned_buffer.full, hfull]
          simp only [hf, not_true_eq_false, if_false]
          have hle : capacity < c.dst_size := by omega
          have key : ∀ (ops : List StreamOp), (∀ i, device_memory ops i = P[i]?) →
              ∃ c1 P1, to_device_copier.copy_loop capacity fuel
                  { dst_data := c.dst_data + filled.1.size
                    dst_size := c.dst_size - filled.1.size
                    active_buffer_ := ⟨[]⟩
                    alt_buffer_ := filled.1
                    stream_ := ops ++ [StreamOp.async_memcpy_host_to_device c.dst_data
                      filled.1.bytes] } filled.2 = .ok c1 ∧
                copier_inv D capacity c1 P1 ∧
                P1 ++ c1.active_buffer_.bytes = P ++ c.active_buffer_.bytes ++ src := by
            intro ops hops
            obtain ⟨c1, P1, hr, hinv, hcat⟩ := ih
              { dst_data := c.dst_data + filled.1.size
                dst_size := c.dst_size - filled.1.size
                active_buffer_ := ⟨[]⟩
                alt_buffer_ := filled.1
                stream_ := ops ++ [StreamOp.async_memcpy_host_to_device c.dst_data
                  filled.1.bytes] } filled.2 (P ++ filled.1.bytes)
              (by omega)
              (by show c.dst_size - filled.1.size ≠ 0; omega)
              (by show c.dst_data + filled.1.size = (P ++ filled.1.bytes).length
                  rw [List.length_append]; omega)
              (by show c.dst_data + filled.1.size + (c.dst_size - filled.1.size) = D; omega)
              (by show 0 < capacity; omega)
              (by show 0 < c.dst_size - filled.1.size; omega)
              (by show (P ++ filled.1.bytes).length + 0 + filled.2.length ≤ D
                  rw [List.length_append]; omega)
              (by intro i
                  show device_memory (ops ++ [StreamOp.async_memcpy_host_to_device c.dst_data
                    filled.1.bytes]) i = _
                  rw [hdata]; exact device_memory_memcpy _ _ _ hops i)
            refine ⟨c1, P1, hr, hinv, ?_⟩
            rw [hcat]
            show P ++ filled.1.bytes ++ [] ++ filled.2 = _
            rw [List.append_nil, List.append_assoc, h3, List.append_assoc]
          by_cases ha : c.alt_buffer_.empty = true
          · simp only [ha, not_true_eq_false, if_false]
            rw [if_neg (show ¬ c.dst_size < filled.1.size by omega)]
            rw [pinned_buffer_eq_nil _ ha]
            exact key c.stream_ hmem
          · simp only [ha, Bool.false_eq_true, not_false_eq_true, if_true]
            rw [if_neg (show ¬ c.dst_size < filled.1.size by omega)]
            exact key (c.stream_ ++ [StreamOp.await_stream])
              (by intro i; rw [device_memory_await]; exact hmem i)
        · have hf : filled.1.full capacity = false := by
            simp [pinned_buffer.full, hfull]
          simp only [hf, Bool.false_eq_true, not_false_eq_true, if_true]
          have hrest : filled.2 = [] := List.length_eq_zero.mp (by omega)
          rw [hrest, List.append_nil] at h3
          refine ⟨{ c with active_buffer_ := filled.1 }, P, by simp [hrest],
            ⟨hmem, Or.inl ⟨hne, hdata, hD, ?_, ?_⟩⟩, ?_⟩
          · show filled.1.size < capacity
            omega
          · show filled.1.size < c.dst_size
            omega
          · show P ++ filled.1.bytes = _
            rw [List.append_assoc, h3]

theorem copy_data (D capacity : Nat) (hcap : 1 ≤ capacity) (c : to_device_copier)
    (src P : List (Fin 256)) (hinv : copier_inv D capacity c P)
    (htot : P.length + c.active_buffer_.size + src.length ≤ D) :
    ∃ c1 P1, c.copy capacity src = .ok c1 ∧ copier_inv D capacity c1 P1 ∧
      P1 ++ c1.active_buffer_.bytes = P ++ c.active_buffer_.bytes ++ src := by
  obtain ⟨hmem, hrun | hfin⟩ := hinv
  · obtain ⟨hne, hdata, hD, hA, hAd⟩ := hrun
    rw [to_device_copier.copy, if_neg (by omega), if_neg hne]
    exact copy_loop_data D capacity hcap _ c src P (by omega) hne hdata hD hA hAd htot hmem
  · obtain ⟨hz, hact, hP⟩ := hfin
    have hsrc : src = [] := List.length_eq_zero.mp (by omega)
    subst hsrc
    rw [to_device_copier.copy, if_neg (by simp), if_pos hz]
    exact ⟨c, P, rfl, ⟨hmem, Or.inr ⟨hz, hact, hP⟩⟩, by simp⟩

theorem copy_all_data (D capacity : Nat) (hcap : 1 ≤ capacity) :
    ∀ (calls : List (List (Fin 256))) (c : to_device_copier) (P : List (Fin 256)),
      copier_inv D capacity c P →
      P.length + c.active_buffer_.size + (calls.map List.length).sum ≤ D →
      ∃ c1 P1, c.copy_all capacity calls = .ok c1 ∧ copier_inv D capacity c1 P1 ∧
        P1 ++ c1.active_buffer_.bytes = P ++ c.active_buffer_.bytes ++ calls.flatten := by
  intro calls
  induction calls with
  | nil =>
    intro c P hinv _
    exact ⟨c, P, rfl, hinv, by simp⟩
  | cons src calls ih =>
    intro c P hinv htot
    simp only [List.map_cons, List.sum_cons] at htot
    obtain ⟨c1, P1, h1, hinv1, hcat1⟩ := copy_data D capacity hcap c src P hinv (by omega)
    have hlen : P1.length + c1.active_buffer_.size =
        P.length + c.active_buffer_.size + src.length := by
      have := congrArg List.length hcat1
      simp only [List.length_append] at this
      exact this
    obtain ⟨c2, P2, h2, hinv2, hcat2⟩ := ih c1 P1 hinv1 (by omega)
    refine ⟨c2, P2, ?_, hinv2, ?_⟩
    · rw [to_device_copier.copy_all, List.foldlM_cons, h1]
      exact h2
    · rw [hcat2, hcat1, List.flatten_cons]
      simp only [List.append_assoc]

theorem copier_inv_create (D capacity : Nat) (hcap : 1 ≤ capacity) :
    copier_inv D capacity (to_device_copier.create D) [] := by
  refine ⟨fun i => by simp [to_device_copier.create, device_memory], ?_⟩
  by_cases hD : D = 0
  · exact Or.inr ⟨hD, rfl, hD.symm⟩
  · refine Or.inl ⟨hD, rfl, by simp [to_device_copier.create], ?_, ?_⟩
    · show 0 < capacity
      omega
    · show 0 < D
      omega

theorem copy_all_create (D capacity : Nat) (calls : List (List (Fin 256))) (hcap : 1 ≤ capacity)
    (htot : (calls.map List.length).sum ≤ D) :
    ∃ c P, (to_device_copier.create D).copy_all capacity calls = .ok c ∧
      calls.flatten = P ++ c.active_buffer_.bytes ∧
      (∀ i, device_memory c.stream_ i = P[i]?) ∧
      (∀ i, D ≤ i → device_memory c.stream_ i = none) ∧
      ((calls.map List.length).sum = D → c.active_buffer_.bytes = []) ∧
      c.active_buffer_.size < capacity := by
  obtain ⟨c, P, hr, hinv, hcat⟩ := copy_all_data D capacity hcap calls
    (to_device_copier.create D) [] (copier_inv_create D capacity hcap)
    (by show 0 + 0 + _ ≤ D; omega)
  have hcat' : calls.flatten = P ++ c.active_buffer_.bytes := by
    rw [hcat]; simp [to_device_copier.create]
  have hlen : (calls.map List.length).sum = P.length + c.active_buffer_.size := by
    have := congrArg List.length hcat'
    rw [List.length_flatten, List.length_append] at this
    exact this
  obtain ⟨hmem, hrun | hfin⟩ := hinv
  · obtain ⟨hne, hdata, hD, hA, hAd⟩ := hrun
    refine ⟨c, P, hr, hcat', hmem, ?_, ?_, hA⟩
    · intro i hi
      rw [hmem, List.getElem?_eq_none (by omega)]
    · intro h; omega
  · obtain ⟨hz, hact, hP⟩ := hfin
    refine ⟨c, P, hr, hcat', hmem, ?_, fun _ => hact, ?_⟩
    · intro i hi
      rw [hmem, List.getElem?_eq_none (by omega)]
    · show c.active_buffer_.bytes.length < capacity
      rw [hact]; exact hcap

/-! ## `to_device_copier`: the copies in flight -/

theorem in_flight_append (xs ys : List StreamOp) :
    ∀ k, in_flight k (xs ++ ys) = in_flight (in_flight k xs) ys := by
  induction xs with
  | nil => intro k; rfl
  | cons op xs ih =>
    intro k
    cases op with
    | async_memcpy_host_to_device dst bytes => exact ih (k + 1)
    | await_stream => exact ih 0

theorem paced_append (D : Nat) (xs ys : List StreamOp) :
    ∀ k, paced D k xs = true → paced D (in_flight k xs) ys = true →
      paced D k (xs ++ ys) = true := by
  induction xs with
  | nil => intro k _ h; exact h
  | cons op xs ih =>
    intro k hx hy
    cases op with
    | async_memcpy_host_to_device dst bytes =>
      simp only [paced, Bool.and_eq_true, Bool.or_eq_true, beq_iff_eq] at hx
      simp only [List.cons_append, paced, Bool.and_eq_true, Bool.or_eq_true, beq_iff_eq]
      refine ⟨?_, ih (k + 1) hx.2 hy⟩
      rcases hx.1 with h0 | ⟨⟨h1, hD⟩, hnext⟩
      · exact Or.inl h0
      · refine Or.inr ⟨⟨h1, hD⟩, ?_⟩
        cases xs with
        | nil => simp at hnext
        | cons a l => exact hnext
    | await_stream => exact ih 0 hx hy

theorem max_in_flight_of_paced (D : Nat) (ops : List StreamOp) :
    ∀ k, paced D k ops = true → k ≤ 2 → max_in_flight k ops ≤ 2 := by
  induction ops with
  | nil => intro k _ hk; exact hk
  | cons op ops ih =>
    intro k hp hk
    cases op with
    | async_memcpy_host_to_device dst bytes =>
      simp only [paced, Bool.and_eq_true, Bool.or_eq_true, beq_iff_eq] at hp
      have hk1 : k + 1 ≤ 2 := by
        rcases hp.1 with h0 | ⟨⟨h1, _⟩, _⟩ <;> omega
      have := ih (k + 1) hp.2 hk1
      simp only [max_in_flight]
      omega
    | await_stream =>
      have := ih 0 hp (by omega)
      simp only [max_in_flight]
      omega

theorem copy_loop_pace (D capacity : Nat) (hcap : 1 ≤ capacity) :
    ∀ (fuel : Nat) (c c1 : to_device_copier) (src : List (Fin 256)),
      paced D 0 c.stream_ = true →
      in_flight 0 c.stream_ = (if c.alt_buffer_.empty then 0 else 1) →
      c.dst_data + c.dst_size = D →
      to_device_copier.copy_loop capacity fuel c src = .ok c1 →
      pace_inv D c1 := by
  intro fuel
  induction fuel with
  | zero => intro c c1 src _ _ _ h; simp [to_device_copier.copy_loop] at h
  | succ fuel ih =>
    intro c c1 src hp hfl hD hr
    rw [to_device_copier.copy_loop] at hr
    by_cases hsrc : src.isEmpty = true
    · rw [if_pos hsrc] at hr
      cases hr
      exact ⟨hp, hfl, fun _ => hD⟩
    · rw [if_neg hsrc] at hr
      simp only [] at hr
      generalize c.active_buffer_.fill_from_host capacity src = filled at hr
      have hk : in_flight 0 c.stream_ ≤ 1 := by
        rw [hfl]; split <;> omega
      by_cases hbreak : filled.1.size = c.dst_size
      · rw [if_pos hbreak] at hr
        simp only [to_device_copier.copy_finish] at hr
        split at hr
        · cases hr
        · split at hr
          · cases hr
          · cases hr
            refine ⟨?_, ?_, fun h => absurd rfl h⟩
            · refine paced_append D _ _ 0 hp ?_
              have hend : c.dst_data + filled.1.bytes.length = D := by
                have : filled.1.bytes.length = filled.1.size := rfl
                omega
              simp only [paced, List.head?_cons, beq_self_eq_true, Bool.and_true,
                Bool.or_eq_true, beq_iff_eq, Bool.and_eq_true]
              omega
            · show in_flight 0 (c.stream_ ++ _) = _
              rw [in_flight_append]
              rfl
      · rw [if_neg hbreak] at hr
        by_cases hfull : filled.1.full capacity = true
        · simp only [hfull, not_true_eq_false, if_false] at hr
          have hsz : filled.1.size = capacity := by
            simpa [pinned_buffer.full] using hfull
          have hne : filled.1.empty = false := by
            simp only [pinned_buffer.empty, hsz, beq_eq_false_iff_ne]
            omega
          have key : ∀ (ops : List StreamOp) (alt : pinned_buffer), alt.empty = true →
              paced D 0 ops = true → in_flight 0 ops = 0 →
              (if c.dst_size < filled.1.size then Except.error Fault.out_of_bounds
               else to_device_copier.copy_loop capacity fuel
                { dst_data := c.dst_data + filled.1.size
                  dst_size := c.dst_size - filled.1.size
                  active_buffer_ := alt
                  alt_buffer_ := filled.1
                  stream_ := ops ++ [StreamOp.async_memcpy_host_to_device c.dst_data
                    filled.1.bytes] } filled.2) = .ok c1 → pace_inv D c1 := by
            intro ops alt halt hops hzero hrun
            by_cases hb : c.dst_size < filled.1.size
            · rw [if_pos hb] at hrun; cases hrun
            · rw [if_neg hb] at hrun
              refine ih _ c1 filled.2 ?_ ?_ ?_ hrun
              · refine paced_append D _ _ 0 hops ?_
                rw [hzero]
                simp [paced]
              · show in_flight 0 (ops ++ _) = if filled.1.empty = true then 0 else 1
                rw [in_flight_append, hzero, hne]
                rfl
              · show c.dst_data + filled.1.size + (c.dst_size - filled.1.size) = D
                omega
          by_cases ha : c.alt_buffer_.empty = true
          · simp only [ha, not_true_eq_false, if_false] at hr
            refine key c.stream_ c.alt_buffer_ ha hp ?_ hr
            rw [hfl, if_pos ha]
          · simp only [ha, Bool.false_eq_true, not_false_eq_true, if_true] at hr
            refine key (c.stream_ ++ [StreamOp.await_stream]) c.alt_buffer_.reset rfl ?_ ?_ hr
            · exact paced_append D _ _ 0 hp rfl
            · rw [in_flight_append]; rfl
        · simp only [hfull, Bool.false_eq_true, not_false_eq_true, if_true] at hr
          split at hr
          · cases hr
            exact ⟨hp, hfl, fun _ => hD⟩
          · cases hr

theorem copy_pace (D capacity : Nat) (hcap : 1 ≤ capacity) (c c1 : to_device_copier)
    (src : List (Fin 256)) (hinv : pace_inv D c) (hr : c.copy capacity src = .ok c1) :
    pace_inv D c1 := by
  rw [to_device_copier.copy] at hr
  split at hr
  · cases hr
  · split at hr
    · cases hr; exact hinv
    · rename_i _ hne
      exact copy_loop_pace D capacity hcap _ c c1 src hinv.1 hinv.2.1 (hinv.2.2 hne) hr

theorem copy_all_pace (D capacity : Nat) (hcap : 1 ≤ capacity) :
    ∀ (calls : List (List (Fin 256))) (c c1 : to_device_copier),
      pace_inv D c → c.copy_all capacity calls = .ok c1 → pace_inv D c1 := by
  intro calls
  induction calls with
  | nil =>
    intro c c1 hinv hr
    cases hr
    exact hinv
  | cons src calls ih =>
    intro c c1 hinv hr
    rw [to_device_copier.copy_all, List.foldlM_cons] at hr
    cases hc : c.copy capacity src with
    | error e => rw [hc] at hr; cases hr
    | ok c2 =>
      rw [hc] at hr
      exact ih c2 c1 (copy_pace D capacity hcap c c2 src hinv hc) hr

theorem pace_inv_create (D : Nat) : pace_inv D (to_device_copier.create D) :=
  ⟨rfl, rfl, fun _ => by simp [to_device_copier.create]⟩

/-! ## `to_device_copier`: delivery and pacing -/

/-- C11 (as stated, refuted). With a destination of 2 bytes and a capacity of 4, one call of
`copy` with the single byte 7 completes without issuing any operation on the stream: the byte
stays in the active pinned buffer and offset 0 of the destination is not written, although the
sizes of the calls total 1, which is at most 2. -/
theorem to_device_copier_pending_bytes_not_written :
    (to_device_copier.create 2).copy_all 4 [[7]] = .ok ⟨0, 2, ⟨[7]⟩, ⟨[]⟩, []⟩ ∧
      device_memory ([] : List StreamOp) 0 = none ∧
      ([[7]] : List (List (Fin 256))).flatten[0]? = some 7 := by
  refine ⟨rfl, rfl, rfl⟩

/-- C11 (amended). For every destination of `D` bytes, every capacity of at least 1 and every
sequence of calls of `copy` whose sizes total at most `D`, all calls complete and the
concatenation of the inputs in call order is `P` followed by the bytes held in the active pinned
buffer, where `P` is written to the device from offset 0 on and nothing else is written, in
particular nothing at or behind offset `D`. When the sizes total exactly `D` the active buffer is
empty, so that the device holds the whole concatenation; otherwise fewer than `capacity` bytes are
pending in the active buffer and are not written. -/
theorem to_device_copier_delivers_written_part (D capacity : Nat)
    (calls : List (List (Fin 256))) (hcap : 1 ≤ capacity)
    (htot : (calls.map List.length).sum ≤ D) :
    ∃ c P, (to_device_copier.create D).copy_all capacity calls = .ok c ∧
      calls.flatten = P ++ c.active_buffer_.bytes ∧
      (∀ i, device_memory c.stream_ i = P[i]?) ∧
      (∀ i, D ≤ i → device_memory c.stream_ i = none) ∧
      ((calls.map List.length).sum = D → c.active_buffer_.bytes = []) ∧
      c.active_buffer_.size < capacity :=
  copy_all_create D capacity calls hcap htot

theorem to_device_copier_delivers_written_part_witness :
    ∃ c P, (to_device_copier.create 6).copy_all 4 [[1, 2, 3], [4, 5, 6]] = .ok c ∧
      ([[1, 2, 3], [4, 5, 6]] : List (List (Fin 256))).flatten = P ++ c.active_buffer_.bytes ∧
      (∀ i, device_memory c.stream_ i = P[i]?) ∧
      c.active_buffer_.bytes = [] := by
  obtain ⟨c, P, h1, h2, h3, _, h5, _⟩ := to_device_copier_delivers_written_part 6 4
    [[1, 2, 3], [4, 5, 6]] (by decide) (by decide)
  exact ⟨c, P, h1, h2, h3, h5 (by decide)⟩

/-- C12 (as stated, refuted). With a destination of 6 bytes and a capacity of 4, one call of
`copy` with 6 bytes issues the copy of the first 4 bytes and then, without an await in between,
the copy of the last 2 bytes: two copies are in flight. -/
theorem to_device_copier_two_copies_in_flight :
    (to_device_copier.create 6).copy_all 4 [[1, 2, 3, 4, 5, 6]] =
        .ok ⟨0, 0, ⟨[]⟩, ⟨[]⟩,
          [StreamOp.async_memcpy_host_to_device 0 [1, 2, 3, 4],
           StreamOp.async_memcpy_host_to_device 4 [5, 6], StreamOp.await_stream]⟩ ∧
      max_in_flight 0
          [StreamOp.async_memcpy_host_to_device 0 [1, 2, 3, 4],
           StreamOp.async_memcpy_host_to_device 4 [5, 6], StreamOp.await_stream] = 2 := by
  refine ⟨rfl, rfl⟩

/-- C12 (amended). In every state reached from a new copier for a destination of `D` bytes by
calls of `copy` that complete (capacity at least 1), the stream is paced: every copy was issued
with no copy in flight, except that the copy ending at the last byte of the destination may have
been issued with one copy in flight and was then followed at once by an await. Hence at most two
copies were in flight at any moment, and at most one is in flight between two calls. -/
theorem to_device_copier_paced (D capacity : Nat) (calls : List (List (Fin 256)))
    (c : to_device_copier) (hcap : 1 ≤ capacity)
    (hr : (to_device_copier.create D).copy_all capacity calls = .ok c) :
    paced D 0 c.stream_ = true ∧ max_in_flight 0 c.stream_ ≤ 2 ∧ in_flight 0 c.stream_ ≤ 1 := by
  have hinv := copy_all_pace D capacity hcap calls _ c (pace_inv_create D) hr
  refine ⟨hinv.1, max_in_flight_of_paced D _ 0 hinv.1 (by omega), ?_⟩
  rw [hinv.2.1]
  split <;> omega

theorem to_device_copier_paced_witness :
    paced 6 0
        [StreamOp.async_memcpy_host_to_device 0 [1, 2, 3, 4],
         StreamOp.async_memcpy_host_to_device 4 [5, 6], StreamOp.await_stream] = true ∧
      max_in_flight 0
        [StreamOp.async_memcpy_host_to_device 0 [1, 2, 3, 4],
         StreamOp.async_memcpy_host_to_device 4 [5, 6], StreamOp.await_stream] ≤ 2 ∧
      in_flight 0
        [StreamOp.async_memcpy_host_to_device 0 [1, 2, 3, 4],
         StreamOp.async_memcpy_host_to_device 4 [5, 6], StreamOp.await_stream] ≤ 1 :=
  to_device_copier_paced 6 4 [[1, 2, 3, 4, 5, 6]]
    ⟨0, 0, ⟨[]⟩, ⟨[]⟩,
      [StreamOp.async_memcpy_host_to_device 0 [1, 2, 3, 4],
       StreamOp.async_memcpy_host_to_device 4 [5, 6], StreamOp.await_stream]⟩
    (by decide) rfl

/-! ## `pinned_buffer_pool` -/

theorem is_free_list_nil (next : Nat → Option Nat) (p : Option Nat) :
    is_free_list next p [] = true ↔ p = none := by
  simp [is_free_list]

theorem is_free_list_cons (next : Nat → Option Nat) (p : Option Nat) (h : Nat) (l : List Nat) :
    is_free_list next p (h :: l) = true ↔ p = some h ∧ is_free_list next (next h) l = true := by
  simp [is_free_list]

theorem is_free_list_unique (next : Nat → Option Nat) :
    ∀ (l1 l2 : List Nat) (p : Option Nat),
      is_free_list next p l1 = true → is_free_list next p l2 = true → l1 = l2 := by
  intro l1
  induction l1 with
  | nil =>
    intro l2 p h1 h2
    rw [is_free_list_nil] at h1
    cases l2 with
    | nil => rfl
    | cons a l =>
      rw [is_free_list_cons] at h2
      rw [h1] at h2
      cases h2.1
  | cons a l1 ih =>
    intro l2 p h1 h2
    rw [is_free_list_cons] at h1
    cases l2 with
    | nil =>
      rw [is_free_list_nil] at h2
      rw [h2] at h1
      cases h1.1
    | cons b l2 =>
      rw [is_free_list_cons] at h2
      have hab : a = b := by
        have := h1.1.symm.trans h2.1
        exact Option.some.inj this
      subst hab
      rw [ih l2 _ h1.2 h2.2]

theorem is_free_list_suffix (next : Nat → Option Nat) (h : Nat) (b : List Nat) :
    ∀ (a : List Nat) (p : Option Nat), is_free_list next p (a ++ h :: b) = true →
      is_free_list next (some h) (h :: b) = true := by
  intro a
  induction a with
  | nil =>
    intro p hp
    rw [List.nil_append, is_free_list_cons] at hp
    rw [is_free_list_cons]
    exact ⟨rfl, hp.2⟩
  | cons x a ih =>
    intro p hp
    rw [List.cons_append, is_free_list_cons] at hp
    exact ih _ hp.2

theorem is_free_list_head_not_mem (next : Nat → Option Nat) (p : Option Nat) (h : Nat)
    (l : List Nat) (hl : is_free_list next p (h :: l) = true) : h ∉ l := by
  intro hmem
  obtain ⟨a, b, hab⟩ := List.append_of_mem hmem
  have hp : p = some h := ((is_free_list_cons next p h l).mp hl).1
  rw [hp] at hl
  have hs : is_free_list next (some h) (h :: b) = true := by
    have := hl
    rw [hab] at this
    exact is_free_list_suffix next h b (h :: a) _ this
  have := is_free_list_unique next _ _ _ hl hs
  have hlen := congrArg List.length this
  rw [hab] at hlen
  simp only [List.length_cons, List.length_append] at hlen
  omega

theorem is_free_list_congr (next next1 : Nat → Option Nat) :
    ∀ (l : List Nat) (p : Option Nat), (∀ g ∈ l, next1 g = next g) →
      is_free_list next p l = true → is_free_list next1 p l = true := by
  intro l
  induction l with
  | nil => intro p _ h; exact h
  | cons a l ih =>
    intro p hg h
    rw [is_free_list_cons] at h ⊢
    refine ⟨h.1, ?_⟩
    rw [hg a (List.mem_cons_self a l)]
    exact ih _ (fun g hgl => hg g (List.mem_cons_of_mem a hgl)) h.2

theorem size_loop_eq (next : Nat → Option Nat) :
    ∀ (l : List Nat) (fuel : Nat) (p : Option Nat) (res : Nat),
      is_free_list next p l = true → l.length ≤ fuel →
      pinned_buffer_pool.size_loop next fuel p res = .ok (res + l.length) := by
  intro l
  induction l with
  | nil =>
    intro fuel p res h _
    rw [is_free_list_nil] at h
    subst h
    cases fuel <;> rfl
  | cons a l ih =>
    intro fuel p res h hf
    rw [is_free_list_cons] at h
    rw [h.1]
    cases fuel with
    | zero => simp at hf
    | succ fuel =>
      rw [pinned_buffer_pool.size_loop, ih fuel _ (res + 1) h.2 (by simpa using hf)]
      rw [List.length_cons]
      congr 1
      omega

theorem release_then_acquire (malloc_ok : Bool) (s : pinned_buffer_pool) (l : List Nat) (h : Nat)
    (hl : is_free_list s.next s.head_ l = true) (hmem : h ∉ l) (hnext : s.next h = none) :
    ∃ s1, s.release_handle h = .ok s1 ∧ is_free_list s1.next s1.head_ (h :: l) = true ∧
      s1.acquire_handle malloc_ok = .ok (h, s) := by
  refine ⟨{ s with next := fun g => if g = h then s.head_ else s.next g, head_ := some h },
    ?_, ?_, ?_⟩
  · rw [pinned_buffer_pool.release_handle, if_neg (by simp [hnext])]
  · rw [is_free_list_cons]
    refine ⟨rfl, ?_⟩
    simp only [if_true]
    refine is_free_list_congr s.next _ l _ (fun g hg => ?_) hl
    have hgh : g ≠ h := fun e => hmem (e ▸ hg)
    show (if g = h then s.head_ else s.next g) = s.next g
    rw [if_neg hgh]
  · cases s with
    | mk head next allocated =>
      simp only [pinned_buffer_pool.acquire_handle, if_true]
      simp only [reduceCtorEq, if_false]
      refine congrArg Except.ok (Prod.ext rfl ?_)
      simp only [pinned_buffer_pool.mk.injEq, true_and, and_true]
      refine ⟨by simp, ?_⟩
      funext g
      by_cases hg : g = h
      · simp only [hg, if_true]; exact hnext.symm
      · simp only [hg, if_false]

theorem acquire_handle_nonempty (malloc_ok : Bool) (s : pinned_buffer_pool) (h : Nat)
    (l : List Nat) (hl : is_free_list s.next s.head_ (h :: l) = true) :
    ∃ s1, s.acquire_handle malloc_ok = .ok (h, s1) ∧ s1.next h = none ∧
      is_free_list s1.next s1.head_ l = true ∧ s1.allocated = s.allocated := by
  have hnot := is_free_list_head_not_mem s.next s.head_ h l hl
  rw [is_free_list_cons] at hl
  refine ⟨{ s with head_ := s.next h, next := fun g => if g = h then none else s.next g },
    ?_, by simp, ?_, rfl⟩
  · simp only [pinned_buffer_pool.acquire_handle, hl.1, reduceCtorEq, if_false]
  · refine is_free_list_congr s.next _ l _ (fun g hg => ?_) hl.2
    have hgh : g ≠ h := fun e => hnot (e ▸ hg)
    show (if g = h then none else s.next g) = s.next g
    rw [if_neg hgh]

theorem acquire_handle_empty (s : pinned_buffer_pool) (hhead : s.head_ = none) :
    ∃ s1, s.acquire_handle true = .ok (s.allocated, s1) ∧ s1.next s.allocated = none ∧
      s1.head_ = none ∧ s1.allocated = s.allocated + 1 ∧
      ∀ g, g ≠ s.allocated → s1.next g = s.next g := by
  refine ⟨{ head_ := none, next := fun g => if g = s.allocated then none else
              (if g = s.allocated then none else s.next g), allocated := s.allocated + 1 },
    ?_, by simp, rfl, rfl, fun g hg => by simp [hg]⟩
  simp [pinned_buffer_pool.acquire_handle, hhead, new_handle]

/-- C13. For every pool whose free list consists of the handles `l`, in this order: `size()`
returns the length of `l`; for every handle `h` not in `l` whose `next` is `nullptr`,
`release_handle(h)` makes the free list `h :: l`, so that `size()` is larger by exactly 1, and the
next `acquire_handle()` returns `h` and restores the state before the release, in which the free
list is `l` and the `next` of `h` is `nullptr`; `acquire_handle()` on a pool with the free list
`h0 :: l1` returns the head `h0` with `next` reset to `nullptr` and leaves the free list `l1`, so
that `size()` is smaller by exactly 1; `acquire_handle()` on an empty pool, when `cudaMallocHost`
succeeds, returns the object just created with `next` equal to `nullptr` and leaves the pool
empty. The loop of `size()` is given any budget of at least the length of the free list. -/
theorem pinned_buffer_pool_lifo (malloc_ok : Bool) (s : pinned_buffer_pool) (l : List Nat)
    (hl : is_free_list s.next s.head_ l = true) :
    (∀ fuel, l.length ≤ fuel → s.size fuel = .ok l.length) ∧
    (∀ h, h ∉ l → s.next h = none →
      ∃ s1, s.release_handle h = .ok s1 ∧ is_free_list s1.next s1.head_ (h :: l) = true ∧
        (∀ fuel, l.length + 1 ≤ fuel → s1.size fuel = .ok (l.length + 1)) ∧
        s1.acquire_handle malloc_ok = .ok (h, s)) ∧
    (∀ h0 l1, l = h0 :: l1 →
      ∃ s1, s.acquire_handle malloc_ok = .ok (h0, s1) ∧ s1.next h0 = none ∧
        is_free_list s1.next s1.head_ l1 = true ∧
        (∀ fuel, l.length ≤ fuel → s1.size fuel = .ok (l.length - 1))) ∧
    (l = [] →
      ∃ s1, s.acquire_handle true = .ok (s.allocated, s1) ∧ s1.next s.allocated = none ∧
        s1.allocated = s.allocated + 1 ∧ is_free_list s1.next s1.head_ [] = true ∧
        (∀ fuel, s1.size fuel = .ok 0)) := by
  have hsize : ∀ (t : pinned_buffer_pool) (m : List Nat),
      is_free_list t.next t.head_ m = true → ∀ fuel, m.length ≤ fuel →
        t.size fuel = .ok m.length := by
    intro t m hm fuel hf
    rw [pinned_buffer_pool.size, size_loop_eq t.next m fuel _ 0 hm hf, Nat.zero_add]
  refine ⟨hsize s l hl, ?_, ?_, ?_⟩
  · intro h hmem hnext
    obtain ⟨s1, h1, h2, h3⟩ := release_then_acquire malloc_ok s l h hl hmem hnext
    exact ⟨s1, h1, h2, fun fuel hf => hsize s1 (h :: l) h2 fuel hf, h3⟩
  · intro h0 l1 hl1
    subst hl1
    obtain ⟨s1, h1, h2, h3, _⟩ := acquire_handle_nonempty malloc_ok s h0 l1 hl
    refine ⟨s1, h1, h2, h3, fun fuel hf => ?_⟩
    have := hsize s1 l1 h3 fuel (by simp only [List.length_cons] at hf; omega)
    rw [this]; rfl
  · intro hnil
    subst hnil
    rw [is_free_list_nil] at hl
    obtain ⟨s1, h1, h2, h3, h4, _⟩ := acquire_handle_empty s hl
    refine ⟨s1, h1, h2, h4, (is_free_list_nil _ _).mpr h3, fun fuel => ?_⟩
    exact hsize s1 [] ((is_free_list_nil _ _).mpr h3) fuel (Nat.zero_le _)

theorem pinned_buffer_pool_lifo_witness :
    (∃ s1, pinned_buffer_pool.release_handle
        ⟨some 1, fun g => if g = 1 then some 0 else none, 3⟩ 2 = .ok s1 ∧
      s1.size 3 = .ok 3 ∧
      s1.acquire_handle true =
        .ok (2, ⟨some 1, fun g => if g = 1 then some 0 else none, 3⟩)) ∧
    pinned_buffer_pool.size 2 ⟨some 1, fun g => if g = 1 then some 0 else none, 3⟩ = .ok 2 := by
  obtain ⟨h1, h2, _, _⟩ := pinned_buffer_pool_lifo true
    ⟨some 1, fun g => if g = 1 then some 0 else none, 3⟩ [1, 0] (by decide)
  obtain ⟨s1, hr, _, hs, ha⟩ := h2 2 (by decide) (by decide)
  exact ⟨⟨s1, hr, hs 3 (by decide), ha⟩, h1 2 (by decide)⟩

/-! ## `in_memory_partition_table_accessor` -/

theorem in_memory_partition_table_accessor_eq (sizeof_T : Nat) (bytes : List (Fin 256))
    (h : bytes.length % sizeof_T = 0) :
    in_memory_partition_table_accessor sizeof_T (some bytes) =
      .ok ⟨bytes.length / sizeof_T, fun i => (bytes.drop (i * sizeof_T)).take sizeof_T⟩ := by
  simp [in_memory_partition_table_accessor, h]

/-- C14. Opening a partition-table file that can be read, for an element type with
`sizeof(T) ≥ 1`, fails, and then by the release assertion, if and only if the size of the file is
not a multiple of `sizeof(T)`. When the size is a multiple the table has exactly
`size / sizeof(T)` elements, every element has `sizeof(T)` bytes, and byte `j` of element `i` is
byte `i * sizeof(T) + j` of the file. -/
theorem in_memory_partition_table_accessor_size (sizeof_T : Nat) (bytes : List (Fin 256))
    (hT : 1 ≤ sizeof_T) :
    ((∃ e, in_memory_partition_table_accessor sizeof_T (some bytes) = .error e) ↔
      bytes.length % sizeof_T ≠ 0) ∧
    (in_memory_partition_table_accessor sizeof_T (some bytes) = .error .release_assert ↔
      bytes.length % sizeof_T ≠ 0) ∧
    (bytes.length % sizeof_T = 0 →
      ∃ table, in_memory_partition_table_accessor sizeof_T (some bytes) = .ok table ∧
        table.size = bytes.length / sizeof_T ∧
        table.size * sizeof_T = bytes.length ∧
        (∀ i, i < table.size → (table.data i).length = sizeof_T) ∧
        (∀ i j, i < table.size → j < sizeof_T →
          (table.data i)[j]? = bytes[i * sizeof_T + j]?)) := by
  refine ⟨?_, ?_, ?_⟩
  · by_cases h : bytes.length % sizeof_T = 0
    · rw [in_memory_partition_table_accessor_eq sizeof_T bytes h]
      simp [h]
    · simp [in_memory_partition_table_accessor, h]
  · by_cases h : bytes.length % sizeof_T = 0
    · rw [in_memory_partition_table_accessor_eq sizeof_T bytes h]
      simp [h]
    · simp [in_memory_partition_table_accessor, h]
  · intro h
    have hmul : bytes.length / sizeof_T * sizeof_T = bytes.length :=
      Nat.div_mul_cancel (Nat.dvd_of_mod_eq_zero h)
    refine ⟨_, in_memory_partition_table_accessor_eq sizeof_T bytes h, rfl, hmul, ?_, ?_⟩
    · intro i hi
      have hi' : (i + 1) * sizeof_T ≤ bytes.length := by
        calc (i + 1) * sizeof_T ≤ bytes.length / sizeof_T * sizeof_T :=
              Nat.mul_le_mul_right _ hi
          _ = bytes.length := hmul
      have hexp : (i + 1) * sizeof_T = i * sizeof_T + sizeof_T := by ring
      show ((bytes.drop (i * sizeof_T)).take sizeof_T).length = sizeof_T
      rw [List.length_take, List.length_drop]
      omega
    · intro i j hi hj
      show ((bytes.drop (i * sizeof_T)).take sizeof_T)[j]? = _
      rw [List.getElem?_take_of_lt hj, List.getElem?_drop]

theorem in_memory_partition_table_accessor_size_witness :
    (in_memory_partition_table_accessor 2 (some [1, 2, 3]) = .error .release_assert ↔
      [1, 2, 3].length % 2 ≠ 0) ∧
    (∃ table, in_memory_partition_table_accessor 2 (some [1, 2, 3, 4]) = .ok table ∧
      table.size = 2 ∧ table.data 1 = [3, 4]) := by
  refine ⟨(in_memory_partition_table_accessor_size 2 [1, 2, 3] (by decide)).2.1, ?_⟩
  obtain ⟨table, h1, h2, _, _, _⟩ :=
    (in_memory_partition_table_accessor_size 2 [1, 2, 3, 4] (by decide)).2.2 (by decide)
  refine ⟨table, h1, h2, ?_⟩
  have h3 : in_memory_partition_table_accessor 2 (some [1, 2, 3, 4]) =
      .ok ⟨2, fun i => (([1, 2, 3, 4] : List (Fin 256)).drop (i * 2)).take 2⟩ := rfl
  rw [h3] at h1
  cases h1
  rfl

theorem async_copy_precomputed_sums_to_device_eq {T : Type} (debug_asserts : Bool)
    (table_ dest : Span T) (first : Nat) (h : first + dest.size ≤ table_.size) :
    async_copy_precomputed_sums_to_device debug_asserts table_ dest true first =
      .ok ⟨dest.size, fun i => if i < dest.size then table_.data (first + i) else dest.data i⟩ := by
  rw [async_copy_precomputed_sums_to_device, if_neg (by simp; omega), Span.subspan, if_pos h]
  show async_copy_host_to_device dest _ = _
  rw [async_copy_host_to_device, if_pos (Nat.le_refl _)]

theorem async_copy_precomputed_sums_to_device_release {T : Type} (table_ dest : Span T)
    (dest_on_device : Bool) (first : Nat) (h : table_.size < first + dest.size) :
    async_copy_precomputed_sums_to_device false table_ dest dest_on_device first =
      .error .out_of_bounds := by
  rw [async_copy_precomputed_sums_to_device, if_neg (by simp), Span.subspan,
    if_neg (by omega)]
  rfl

/-- C15 (as stated, refuted). In a build without debug assertions, a table of 4 elements, a
`dest` of 2 elements in device memory and `first = 3`, so that `first + d = 5 > 4`: the call does
not stop at its assertion, which is an `SXT_DEBUG_ASSERT`, but goes on to
`basct::subspan(table_, 3, 2)`, which reaches past the end of the table. In a build with debug
assertions the same call stops at the assertion. -/
theorem async_copy_precomputed_sums_to_device_release_past_end :
    async_copy_precomputed_sums_to_device false (Span.ofList [10, 11, 12, 13])
        (⟨2, fun _ => (0 : Nat)⟩ : Span Nat) true 3 = .error .out_of_bounds ∧
    async_copy_precomputed_sums_to_device false (Span.ofList [10, 11, 12, 13])
        (⟨2, fun _ => (0 : Nat)⟩ : Span Nat) true 3 ≠ .error .debug_assert ∧
    async_copy_precomputed_sums_to_device true (Span.ofList [10, 11, 12, 13])
        (⟨2, fun _ => (0 : Nat)⟩ : Span Nat) true 3 = .error .debug_assert := by
  refine ⟨rfl, ?_, rfl⟩
  intro h
  have h2 : (Except.error Fault.out_of_bounds : Except Fault (Span Nat)) =
      .error .debug_assert := h
  exact absurd (Except.error.inj h2) (by decide)

/-- C15 (amended). For every table of `N` elements, every `dest` of `d` elements and every `first`
with `first + d > N`: in a build with debug assertions
`async_copy_precomputed_sums_to_device` stops at its assertion and copies nothing; in a build
without them it does not stop there and forms the subspan `table_[first .. first + d)`, which
reaches past the end of the table. When `first + d ≤ N` and `dest` is device memory the call
completes in either build, and `dest` then holds exactly the elements
`first, …, first + d - 1` of the table. -/
theorem async_copy_precomputed_sums_to_device_bounds {T : Type} (table_ dest : Span T)
    (first : Nat) :
    (table_.size < first + dest.size →
      ∀ dest_on_device,
        async_copy_precomputed_sums_to_device true table_ dest dest_on_device first =
          .error .debug_assert ∧
        async_copy_precomputed_sums_to_device false table_ dest dest_on_device first =
          .error .out_of_bounds) ∧
    (first + dest.size ≤ table_.size →
      ∀ debug_asserts,
        ∃ out, async_copy_precomputed_sums_to_device debug_asserts table_ dest true first =
            .ok out ∧
          out.size = dest.size ∧ ∀ i, i < dest.size → out.data i = table_.data (first + i)) := by
  refine ⟨fun h dev => ⟨?_, ?_⟩, fun h debug_asserts => ?_⟩
  · rw [async_copy_precomputed_sums_to_device, if_pos ⟨rfl, by simp; omega⟩]
  · exact async_copy_precomputed_sums_to_device_release table_ dest dev first h
  · refine ⟨_, async_copy_precomputed_sums_to_device_eq debug_asserts table_ dest first h,
      rfl, ?_⟩
    intro i hi
    show (if i < dest.size then table_.data (first + i) else dest.data i) = _
    rw [if_pos hi]

theorem async_copy_precomputed_sums_to_device_bounds_witness :
    (async_copy_precomputed_sums_to_device true (Span.ofList [10, 11, 12, 13])
        (⟨2, fun _ => (0 : Nat)⟩ : Span Nat) true 3 = .error .debug_assert ∧
      async_copy_precomputed_sums_to_device false (Span.ofList [10, 11, 12, 13])
        (⟨2, fun _ => (0 : Nat)⟩ : Span Nat) true 3 = .error .out_of_bounds) ∧
    ∃ out, async_copy_precomputed_sums_to_device false (Span.ofList [10, 11, 12, 13])
        (⟨2, fun _ => (0 : Nat)⟩ : Span Nat) true 2 = .ok out ∧
      out.data 0 = 12 ∧ out.data 1 = 13 := by
  refine ⟨(async_copy_precomputed_sums_to_device_bounds (Span.ofList [10, 11, 12, 13])
    (⟨2, fun _ => (0 : Nat)⟩ : Span Nat) 3).1 (by decide) true, ?_⟩
  obtain ⟨out, h1, _, h3⟩ := (async_copy_precomputed_sums_to_device_bounds
    (Span.ofList [10, 11, 12, 13]) (⟨2, fun _ => (0 : Nat)⟩ : Span Nat) 2).2 (by decide) false
  exact ⟨out, h1, h3 0 (by decide), h3 1 (by decide)⟩

/-! ## The `main` of the multiexponentiation benchmark -/

theorem main_eq (from_chars : String → Option Nat)
    (a0 curve_str n_str num_samples_str num_outputs_str element_num_bytes_str verbose_str : String)
    (n num_samples num_outputs element_num_bytes : Nat)
    (h1 : from_chars n_str = some n) (h2 : from_chars num_samples_str = some num_samples)
    (h3 : from_chars num_outputs_str = some num_outputs)
    (h4 : from_chars element_num_bytes_str = some element_num_bytes)
    (hc1 : curve_str ≠ "curve25519") (hc2 : curve_str ≠ "bls12_381")
    (hc3 : curve_str ≠ "bls12-381") (hc4 : curve_str ≠ "bn254") (hc5 : curve_str ≠ "grumpkin") :
    main from_chars [a0, curve_str, n_str, num_samples_str, num_outputs_str,
      element_num_bytes_str, verbose_str] = ⟨0, none⟩ := by
  simp [main, h1, h2, h3, h4, hc1, hc2, hc3, hc4, hc5]

/-- C16 (what the code does). For every invocation with exactly six arguments whose four numeric
arguments parse and whose curve string is none of `curve25519`, `bls12_381`, `bls12-381`, `bn254`
and `grumpkin`, `main` runs no benchmark and returns 0, not -1. -/
theorem main_unsupported_curve_returns_zero (from_chars : String → Option Nat)
    (a0 curve_str n_str num_samples_str num_outputs_str element_num_bytes_str verbose_str : String)
    (n num_samples num_outputs element_num_bytes : Nat)
    (h1 : from_chars n_str = some n) (h2 : from_chars num_samples_str = some num_samples)
    (h3 : from_chars num_outputs_str = some num_outputs)
    (h4 : from_chars element_num_bytes_str = some element_num_bytes)
    (hc1 : curve_str ≠ "curve25519") (hc2 : curve_str ≠ "bls12_381")
    (hc3 : curve_str ≠ "bls12-381") (hc4 : curve_str ≠ "bn254") (hc5 : curve_str ≠ "grumpkin") :
    (main from_chars [a0, curve_str, n_str, num_samples_str, num_outputs_str,
      element_num_bytes_str, verbose_str]).exit_code = 0 ∧
    (main from_chars [a0, curve_str, n_str, num_samples_str, num_outputs_str,
      element_num_bytes_str, verbose_str]).benchmarked = none := by
  rw [main_eq from_chars a0 curve_str n_str num_samples_str num_outputs_str
    element_num_bytes_str verbose_str n num_samples num_outputs element_num_bytes
    h1 h2 h3 h4 hc1 hc2 hc3 hc4 hc5]
  exact ⟨rfl, rfl⟩

theorem main_unsupported_curve_returns_zero_witness :
    (main (fun _ => some 1) ["benchmark", "foo", "1", "1", "1", "1", "0"]).exit_code = 0 ∧
    (main (fun _ => some 1) ["benchmark", "foo", "1", "1", "1", "1", "0"]).benchmarked = none :=
  main_unsupported_curve_returns_zero (fun _ => some 1) "benchmark" "foo" "1" "1" "1" "1" "0"
    1 1 1 1 rfl rfl rfl rfl (by decide) (by decide) (by decide) (by decide) (by decide)

/-! ## `element_p3` -/

theorem element_p3_eq_iff {E F : Type} [CommRing F] (f51 : Field51 E F) (lhs rhs : element_p3 E) :
    element_p3.eq f51 lhs rhs = true ↔
      f51.value lhs.X * f51.value rhs.Z = f51.value rhs.X * f51.value lhs.Z ∧
      f51.value lhs.Y * f51.value rhs.Z = f51.value rhs.Y * f51.value lhs.Z := by
  simp only [element_p3.eq]
  by_cases h : f51.eq (f51.mul lhs.X rhs.Z) (f51.mul rhs.X lhs.Z) = true
  · have h1 := h
    rw [f51.eq_iff, f51.mul_value, f51.mul_value] at h1
    simp only [h, Bool.not_true, Bool.false_eq_true, if_false, f51.eq_iff, f51.mul_value]
    exact ⟨fun h2 => ⟨h1, h2⟩, fun h2 => h2.2⟩
  · have h1 := h
    rw [f51.eq_iff, f51.mul_value, f51.mul_value] at h1
    simp only [Bool.not_eq_true] at h
    simp only [h, Bool.not_false, if_true, Bool.false_eq_true, false_iff]
    exact fun h2 => h1 h2.1

/-- C17. For every representation of the field with its multiplication and comparison,
`operator==(lhs, rhs)` on `element_p3` is true if and only if `lhs.X·rhs.Z = rhs.X·lhs.Z` and
`lhs.Y·rhs.Z = rhs.Y·lhs.Z` in the field. Hence every element `e` equals
`(k·X, k·Y, k·Z, k·T)` for every field element `k`, in particular every non-zero one, and the
relation is reflexive and symmetric. -/
theorem element_p3_eq_projective {E F : Type} [CommRing F] (f51 : Field51 E F) :
    (∀ lhs rhs : element_p3 E, element_p3.eq f51 lhs rhs = true ↔
      f51.value lhs.X * f51.value rhs.Z = f51.value rhs.X * f51.value lhs.Z ∧
      f51.value lhs.Y * f51.value rhs.Z = f51.value rhs.Y * f51.value lhs.Z) ∧
    (∀ (e : element_p3 E) (k : E),
      element_p3.eq f51 e ⟨f51.mul k e.X, f51.mul k e.Y, f51.mul k e.Z, f51.mul k e.T⟩ = true) ∧
    (∀ e : element_p3 E, element_p3.eq f51 e e = true) ∧
    (∀ lhs rhs : element_p3 E, element_p3.eq f51 lhs rhs = element_p3.eq f51 rhs lhs) := by
  refine ⟨element_p3_eq_iff f51, ?_, ?_, ?_⟩
  · intro e k
    rw [element_p3_eq_iff]
    simp only [f51.mul_value]
    constructor <;> ring
  · intro e
    rw [element_p3_eq_iff]
    exact ⟨rfl, rfl⟩
  · intro lhs rhs
    rw [Bool.eq_iff_iff, element_p3_eq_iff, element_p3_eq_iff]
    constructor
    · exact fun h => ⟨h.1.symm, h.2.symm⟩
    · exact fun h => ⟨h.1.symm, h.2.symm⟩

theorem element_p3_eq_projective_witness :
    element_p3.eq (Field51.plain Int) ⟨1, 2, 3, 4⟩ ⟨5 * 1, 5 * 2, 5 * 3, 5 * 4⟩ = true ∧
    element_p3.eq (Field51.plain Int) ⟨1, 2, 3, 4⟩ ⟨1, 2, 3, 4⟩ = true :=
  ⟨(element_p3_eq_projective (Field51.plain Int)).2.1 ⟨1, 2, 3, 4⟩ 5,
   (element_p3_eq_projective (Field51.plain Int)).2.2.1 ⟨1, 2, 3, 4⟩⟩

/-- C18 (what the code does). For every `element_p3` value `e`, `is_marked` is false immediately
after `mark`, and `is_marked(e)` is true for every `e` whose limb `Z[4]` is not the sentinel
`unset_marker_v`: the comparison in `is_marked` is inverted. The function `mark` changes nothing
but `Z[4]`, which it sets to the sentinel. For the reference `element97`, `is_marked` is true
immediately after `mark`. -/
theorem element_p3_is_marked_inverted (e : element_p3 f51_element) :
    element_p3.is_marked (element_p3.mark e) = false ∧
    (e.Z.limb4 ≠ unset_marker_v → element_p3.is_marked e = true) ∧
    (element_p3.mark e).X = e.X ∧ (element_p3.mark e).Y = e.Y ∧ (element_p3.mark e).T = e.T ∧
    (element_p3.mark e).Z = { e.Z with limb4 := unset_marker_v } ∧
    (∀ r : element97, element97.is_marked (element97.mark r) = true) := by
  refine ⟨?_, ?_, rfl, rfl, rfl, rfl, fun _ => rfl⟩
  · simp [element_p3.is_marked, element_p3.mark]
  · intro h
    simp [element_p3.is_marked, h]

theorem element_p3_is_marked_inverted_witness :
    element_p3.is_marked (element_p3.mark
      ⟨⟨0, 0, 0, 0, 0⟩, ⟨1, 0, 0, 0, 0⟩, ⟨1, 0, 0, 0, 0⟩, ⟨0, 0, 0, 0, 0⟩⟩) = false ∧
    element_p3.is_marked
      ⟨⟨0, 0, 0, 0, 0⟩, ⟨1, 0, 0, 0, 0⟩, ⟨1, 0, 0, 0, 0⟩, ⟨0, 0, 0, 0, 0⟩⟩ = true :=
  ⟨(element_p3_is_marked_inverted
      ⟨⟨0, 0, 0, 0, 0⟩, ⟨1, 0, 0, 0, 0⟩, ⟨1, 0, 0, 0, 0⟩, ⟨0, 0, 0, 0, 0⟩⟩).1,
   (element_p3_is_marked_inverted
      ⟨⟨0, 0, 0, 0, 0⟩, ⟨1, 0, 0, 0, 0⟩, ⟨1, 0, 0, 0, 0⟩, ⟨0, 0, 0, 0, 0⟩⟩).2.1 (by decide)⟩

/-! ## `element97` -/

theorem element97_create_value (x : Nat) : (element97.create x).value < 97 :=
  Nat.mod_lt _ (by decide)

/-- C19. For all `a`, `b` constructed from any `uint32_t` values and all results written into
default-constructed elements: `add(a, identity) == a`, `add(a, b) == add(b, a)`,
`double_element(a) == add(a, a)` and `add(a, neg(a)) == identity`, where `==` compares both
members. Every operation leaves a `value` below 97 in its result, for arbitrary operands; `cneg`
with `b = 0` keeps the `value` it finds, and `add_inplace` leaves 13 in its second operand. -/
theorem element97_group_laws (x y r r1 : Nat) :
    element97.add (element97.uninitialized r) (element97.create x) element97.identity =
      element97.create x ∧
    element97.add (element97.uninitialized r) (element97.create x) (element97.create y) =
      element97.add (element97.uninitialized r1) (element97.create y) (element97.create x) ∧
    element97.double_element (element97.uninitialized r) (element97.create x) =
      element97.add (element97.uninitialized r1) (element97.create x) (element97.create x) ∧
    element97.add (element97.uninitialized r) (element97.create x)
        (element97.neg (element97.uninitialized r1) (element97.create x)) =
      element97.identity ∧
    (element97.create x).value < 97 ∧
    (∀ res e f : element97,
      (element97.add res e f).value < 97 ∧ (element97.double_element res e).value < 97 ∧
      (element97.neg res e).value < 97 ∧ (element97.add_inplace res e).1.value < 97 ∧
      (element97.add_inplace res e).2.value < 97 ∧
      (∀ b, res.value < 97 → (element97.cneg res b).value < 97)) := by
  have hx : u32 x % 97 < 97 := Nat.mod_lt _ (by decide)
  have hy : u32 y % 97 < 97 := Nat.mod_lt _ (by decide)
  refine ⟨?_, ?_, ?_, ?_, hx, ?_⟩
  · simp only [element97.add, element97.uninitialized, element97.create, element97.identity,
      element97.mk.injEq, and_true, u32]
    omega
  · simp only [element97.add, element97.uninitialized, element97.create,
      element97.mk.injEq, and_true, u32]
    omega
  · simp only [element97.add, element97.double_element, element97.uninitialized,
      element97.create]
  · simp only [element97.add, element97.neg, element97.uninitialized, element97.create,
      element97.identity, element97.mk.injEq, and_true]
    rw [usub_of_le (by decide) (Nat.le_of_lt hx)]
    generalize u32 x % 97 = v at hx
    rw [u32_of_lt (by omega), u32_of_lt (by decide)]
    omega
  · intro res e f
    refine ⟨Nat.mod_lt _ (by decide), Nat.mod_lt _ (by decide), Nat.mod_lt _ (by decide),
      Nat.mod_lt _ (by decide), Nat.mod_lt _ (by decide), ?_⟩
    intro b hres
    simp only [element97.cneg]
    split
    · exact Nat.mod_lt _ (by decide)
    · exact hres

theorem element97_group_laws_witness :
    element97.add (element97.uninitialized 5) (element97.create 100)
        (element97.neg (element97.uninitialized 6) (element97.create 100)) =
      element97.identity ∧
    (element97.cneg (element97.create 100) 1).value < 97 :=
  ⟨(element97_group_laws 100 0 5 6).2.2.2.1,
   ((element97_group_laws 100 0 5 6).2.2.2.2.2 (element97.create 100) (element97.create 0)
      (element97.create 0)).2.2.2.2.2 1 (by decide)⟩

/-! ## Independence of the second operand of `add_inplace` -/

theorem partition_product_kernel_loop_plain {T : Type} [AddCommGroup T] (c : Curve T)
    (partition_table : Span T) (scalars : Span (Fin 256)) (step bit_offset : Nat) :
    ∀ (fuel n table_ptr scalars_ptr : Nat) (res : T),
      partition_product_kernel_loop c partition_table scalars step bit_offset fuel n table_ptr
          scalars_ptr res =
        partition_product_kernel_loop (Curve.plain T) partition_table scalars step bit_offset
          fuel n table_ptr scalars_ptr res := by
  intro fuel
  induction fuel with
  | zero =>
    intro n table_ptr scalars_ptr res
    rw [partition_product_kernel_loop, partition_product_kernel_loop]
  | succ fuel ih =>
    intro n table_ptr scalars_ptr res
    rw [partition_product_kernel_loop, partition_product_kernel_loop]
    by_cases hn : n > 16
    · simp only [if_pos hn]
      refine congrArg _ (funext fun partition_index => ?_)
      refine congrArg _ (funext fun e => ?_)
      rw [ih, c.add_inplace_fst]
      rfl
    · simp only [if_neg hn]

theorem partition_product_kernel_plain {T : Type} [AddCommGroup T] (c : Curve T)
    (partition_table : Span T) (scalars : Span (Fin 256))
    (byte_index bit_offset num_products n : Nat) :
    partition_product_kernel c partition_table scalars byte_index bit_offset num_products n =
      partition_product_kernel (Curve.plain T) partition_table scalars byte_index bit_offset
        num_products n := by
  simp only [partition_product_kernel]
  refine congrArg _ (funext fun partition_index => ?_)
  refine congrArg _ (funext fun res => ?_)
  rw [partition_product_kernel_loop_plain c]

theorem combine_reduce_output_reduction_plain {T : Type} [AddCommGroup T] (c : Curve T)
    (partials : Span T) (ptr num_partials : Nat) :
    ∀ (fuel reduction_index : Nat) (e : T),
      combine_reduce_output_reduction c partials ptr num_partials fuel reduction_index e =
        combine_reduce_output_reduction (Curve.plain T) partials ptr num_partials fuel
          reduction_index e := by
  intro fuel
  induction fuel with
  | zero => intro _ _; rfl
  | succ fuel ih =>
    intro reduction_index e
    simp only [combine_reduce_output_reduction]
    refine congrArg _ (funext fun ep => ?_)
    rw [ih, c.add_inplace_fst]
    rfl

theorem combine_reduce_output_bits_plain {T : Type} [AddCommGroup T] (c : Curve T)
    (partials : Span T) (num_partials reduction_size : Nat) :
    ∀ (bit_index ptr : Nat) (e : T),
      combine_reduce_output_bits c partials num_partials reduction_size bit_index ptr e =
        combine_reduce_output_bits (Curve.plain T) partials num_partials reduction_size
          bit_index ptr e := by
  intro bit_index
  induction bit_index with
  | zero => intro _ _; rfl
  | succ bit_index ih =>
    intro ptr e
    simp only [combine_reduce_output_bits]
    refine congrArg _ (funext fun ptr1 => ?_)
    rw [combine_reduce_output_reduction_plain c, c.double_element_eq]
    refine congrArg _ (funext fun e1 => ?_)
    rw [ih]

theorem combine_reduce_output_plain {T : Type} [AddCommGroup T] (c : Curve T)
    (partials : Span T) (ptr num_partials reduction_size bit_width : Nat) :
    combine_reduce_output c partials ptr num_partials reduction_size bit_width =
      combine_reduce_output (Curve.plain T) partials ptr num_partials reduction_size
        bit_width := by
  simp only [combine_reduce_output]
  refine congrArg _ (funext fun ptr1 => ?_)
  refine congrArg _ (funext fun e => ?_)
  rw [combine_reduce_output_reduction_plain c]
  refine congrArg _ (funext fun e1 => ?_)
  rw [combine_reduce_output_bits_plain c]

theorem partition_product_kernel_run_table {T : Type} [AddCommGroup T] (c : Curve T)
    (products partition_table : Span T) (scalars : Span (Fin 256))
    (byte_index bit_offset num_products n : Nat) (out : Span T × Span T)
    (h : partition_product_kernel_run c products partition_table scalars byte_index bit_offset
      num_products n = .ok out) : out.2 = partition_table := by
  simp only [partition_product_kernel_run] at h
  cases hk : partition_product_kernel c partition_table scalars byte_index bit_offset
      num_products n with
  | error e => rw [hk] at h; cases h
  | ok w =>
    rw [hk] at h
    cases hw : products.write w.1 w.2 with
    | error e =>
      simp only [bind, Except.bind, hw] at h
      cases h
    | ok p =>
      simp only [bind, Except.bind, hw, pure, Except.pure] at h
      cases h
      rfl

theorem combine_reduce_output_run_partials {T : Type} [AddCommGroup T] (c : Curve T)
    (res : Span T) (res_index : Nat) (partials : Span T)
    (ptr num_partials reduction_size bit_width : Nat) (out : Span T × Span T)
    (h : combine_reduce_output_run c res res_index partials ptr num_partials reduction_size
      bit_width = .ok out) : out.2 = partials := by
  simp only [combine_reduce_output_run] at h
  cases hk : combine_reduce_output c partials ptr num_partials reduction_size bit_width with
  | error e => rw [hk] at h; cases h
  | ok w =>
    rw [hk] at h
    cases hw : res.write res_index w with
    | error e =>
      simp only [bind, Except.bind, hw] at h
      cases h
    | ok p =>
      simp only [bind, Except.bind, hw, pure, Except.pure] at h
      cases h
      rfl

/-- C20. For any two implementations `c1`, `c2` of the curve concept, whose `add_inplace` both
leave the sum in the first operand and leave arbitrary, possibly different, values in the second,
`partition_product_kernel` and `combine_reduce_output` return identical results, on every input
and including the runs that stop at a fault, and so do the kernels taken with their stores; a
completed call leaves the partition table, respectively the array of partials, as it was. -/
theorem kernels_ignore_second_operand {T : Type} [AddCommGroup T] (c1 c2 : Curve T) :
    (∀ (partition_table : Span T) (scalars : Span (Fin 256))
        (byte_index bit_offset num_products n : Nat),
      partition_product_kernel c1 partition_table scalars byte_index bit_offset num_products n =
        partition_product_kernel c2 partition_table scalars byte_index bit_offset
          num_products n) ∧
    (∀ (partials : Span T) (ptr num_partials reduction_size bit_width : Nat),
      combine_reduce_output c1 partials ptr num_partials reduction_size bit_width =
        combine_reduce_output c2 partials ptr num_partials reduction_size bit_width) ∧
    (∀ (products partition_table : Span T) (scalars : Span (Fin 256))
        (byte_index bit_offset num_products n : Nat),
      partition_product_kernel_run c1 products partition_table scalars byte_index bit_offset
          num_products n =
        partition_product_kernel_run c2 products partition_table scalars byte_index bit_offset
          num_products n ∧
      ∀ out, partition_product_kernel_run c1 products partition_table scalars byte_index
          bit_offset num_products n = .ok out → out.2 = partition_table) ∧
    (∀ (res : Span T) (res_index : Nat) (partials : Span T)
        (ptr num_partials reduction_size bit_width : Nat),
      combine_reduce_output_run c1 res res_index partials ptr num_partials reduction_size
          bit_width =
        combine_reduce_output_run c2 res res_index partials ptr num_partials reduction_size
          bit_width ∧
      ∀ out, combine_reduce_output_run c1 res res_index partials ptr num_partials
          reduction_size bit_width = .ok out → out.2 = partials) := by
  refine ⟨?_, ?_, ?_, ?_⟩
  · intro partition_table scalars byte_index bit_offset num_products n
    rw [partition_product_kernel_plain c1, partition_product_kernel_plain c2]
  · intro partials ptr num_partials reduction_size bit_width
    rw [combine_reduce_output_plain c1, combine_reduce_output_plain c2]
  · intro products partition_table scalars byte_index bit_offset num_products n
    refine ⟨?_, fun out h => partition_product_kernel_run_table c1 _ _ _ _ _ _ _ out h⟩
    simp only [partition_product_kernel_run]
    rw [partition_product_kernel_plain c1, partition_product_kernel_plain c2]
  · intro res res_index partials ptr num_partials reduction_size bit_width
    refine ⟨?_, fun out h => combine_reduce_output_run_partials c1 _ _ _ _ _ _ _ out h⟩
    simp only [combine_reduce_output_run]
    rw [combine_reduce_output_plain c1, combine_reduce_output_plain c2]

theorem kernels_ignore_second_operand_witness :
    combine_reduce_output (Curve.plain Int) (Span.ofList [1, 0, 3, 1]) 2 2 2 2 =
      combine_reduce_output (Curve.clobber Int 13) (Span.ofList [1, 0, 3, 1]) 2 2 2 2 ∧
    combine_reduce_output (Curve.clobber Int 13) (Span.ofList [1, 0, 3, 1]) 2 2 2 2 = .ok 6 :=
  ⟨(kernels_ignore_second_operand (Curve.plain Int) (Curve.clobber Int 13)).2.1
      (Span.ofList [1, 0, 3, 1]) 2 2 2 2, rfl⟩

/-! ## The output lengths of the benchmark -/

theorem output_lengths_loop_eq (n : Nat) :
    ∀ (fuel length_counter : Nat) (output_lengths : List Nat),
      length_counter + fuel < 4294967296 →
      output_lengths_loop n fuel length_counter output_lengths =
        output_lengths ++ (List.range fuel).map (fun j => min (length_counter + j + 1) n) := by
  intro fuel
  induction fuel with
  | zero => intro c acc _; simp [output_lengths_loop]
  | succ fuel ih =>
    intro c acc h
    rw [output_lengths_loop]
    rw [u32_of_lt (by omega), ih _ _ (by omega), List.range_succ_eq_map, List.map_cons,
      List.map_map, List.append_assoc]
    congr 1
    rw [List.singleton_append, Nat.add_zero]
    congr 1
    apply List.map_congr_left
    intro j _
    simp only [Function.comp_apply, Nat.succ_eq_add_one]
    congr 1
    omega

theorem run_benchmark_output_lengths_eq (num_outputs n : Nat) (hn : n < 4294967296)
    (ho : num_outputs < 4294967296) :
    run_benchmark_output_lengths num_outputs n =
      (List.range num_outputs).map (fun i =>
        if n ≤ num_outputs then min (i + 1) n else n - num_outputs + 1 + i) := by
  unfold run_benchmark_output_lengths
  by_cases h : n > num_outputs
  · simp only [if_pos h]
    rw [usub_of_le hn (by omega), output_lengths_loop_eq n _ _ _ (by omega), List.nil_append]
    apply List.map_congr_left
    intro i hi
    rw [List.mem_range] at hi
    rw [if_neg (by omega)]
    omega
  · simp only [if_neg h]
    rw [output_lengths_loop_eq n _ _ _ (by omega), List.nil_append]
    apply List.map_congr_left
    intro i hi
    rw [if_pos (by omega)]
    omega

/-- C25. For `n` and `num_outputs ≥ 1` in the range of `unsigned`, `run_benchmark` sets
`output_lengths[i] = min(i + 1, n)` for all `i < num_outputs` when `n ≤ num_outputs`, and
`output_lengths[i] = n - num_outputs + 1 + i` when `n > num_outputs`. In both cases the lengths
are non-decreasing, each is at most `n`, each is at least 1 when `n ≥ 1`, and the last is `n`. -/
theorem run_benchmark_output_lengths_triangle (num_outputs n : Nat) (hn : n < 4294967296)
    (ho : num_outputs < 4294967296) (h1 : 1 ≤ num_outputs) :
    (run_benchmark_output_lengths num_outputs n).length = num_outputs ∧
    (∀ i, i < num_outputs → (run_benchmark_output_lengths num_outputs n).getD i 0 =
      if n ≤ num_outputs then min (i + 1) n else n - num_outputs + 1 + i) ∧
    (∀ i, i + 1 < num_outputs → (run_benchmark_output_lengths num_outputs n).getD i 0 ≤
      (run_benchmark_output_lengths num_outputs n).getD (i + 1) 0) ∧
    (∀ i, i < num_outputs → (run_benchmark_output_lengths num_outputs n).getD i 0 ≤ n) ∧
    (1 ≤ n → ∀ i, i < num_outputs →
      1 ≤ (run_benchmark_output_lengths num_outputs n).getD i 0) ∧
    (run_benchmark_output_lengths num_outputs n).getD (num_outputs - 1) 0 = n := by
  have hget : ∀ i, i < num_outputs → (run_benchmark_output_lengths num_outputs n).getD i 0 =
      if n ≤ num_outputs then min (i + 1) n else n - num_outputs + 1 + i := by
    intro i hi
    rw [run_benchmark_output_lengths_eq num_outputs n hn ho, List.getD_eq_getElem?_getD,
      List.getElem?_map, List.getElem?_range hi]
    rfl
  refine ⟨?_, hget, ?_, ?_, ?_, ?_⟩
  · rw [run_benchmark_output_lengths_eq num_outputs n hn ho, List.length_map, List.length_range]
  · intro i hi
    rw [hget i (by omega), hget (i + 1) hi]
    split <;> omega
  · intro i hi
    rw [hget i hi]
    split <;> omega
  · intro hn1 i hi
    rw [hget i hi]
    split <;> omega
  · rw [hget _ (by omega)]
    split <;> omega

theorem run_benchmark_output_lengths_triangle_witness :
    run_benchmark_output_lengths 5 3 = [1, 2, 3, 3, 3] ∧
    run_benchmark_output_lengths 3 5 = [3, 4, 5] ∧
    (run_benchmark_output_lengths 5 3).getD (5 - 1) 0 = 3 :=
  ⟨rfl, rfl,
   (run_benchmark_output_lengths_triangle 5 3 (by decide) (by decide) (by decide)).2.2.2.2.2⟩

/-! ## The host `inner_product` -/

theorem inner_product_loop_eq {F : Type} [CommRing F] (lhs rhs : Span F) :
    ∀ (fuel i : Nat) (res : F), i + fuel ≤ lhs.size → i + fuel ≤ rhs.size →
      inner_product_loop lhs rhs fuel i res =
        .ok (res + ∑ j in Finset.range fuel, lhs.data (i + j) * rhs.data (i + j)) := by
  intro fuel
  induction fuel with
  | zero => intro i res _ _; simp [inner_product_loop]
  | succ fuel ih =>
    intro i res hl hr
    rw [inner_product_loop]
    simp only [Span.read, if_pos (show i < lhs.size by omega), if_pos (show i < rhs.size by omega),
      bind, Except.bind]
    rw [ih (i + 1) _ (by omega) (by omega), Finset.sum_range_succ']
    refine congrArg Except.ok ?_
    simp only [s25o_muladd, Nat.add_zero]
    have : ∀ j, i + 1 + j = i + (j + 1) := fun j => by omega
    simp only [this]
    ring

theorem inner_product_eq {F : Type} [CommRing F] (lhs rhs : Span F)
    (hm : 1 ≤ min lhs.size rhs.size) :
    inner_product lhs rhs =
      .ok (∑ i in Finset.range (min lhs.size rhs.size), lhs.data i * rhs.data i) := by
  have hl : 1 ≤ lhs.size := le_trans hm (Nat.min_le_left _ _)
  have hr : 1 ≤ rhs.size := le_trans hm (Nat.min_le_right _ _)
  have hml : min lhs.size rhs.size ≤ lhs.size := Nat.min_le_left _ _
  have hmr : min lhs.size rhs.size ≤ rhs.size := Nat.min_le_right _ _
  unfold inner_product
  simp only [gt_iff_lt, not_lt, Nat.le_zero_eq]
  rw [if_neg (by omega)]
  simp only [Span.read, if_pos (show 0 < lhs.size by omega), if_pos (show 0 < rhs.size by omega),
    bind, Except.bind]
  rw [inner_product_loop_eq lhs rhs _ 1 _ (by omega) (by omega)]
  refine congrArg Except.ok ?_
  obtain ⟨k, hk⟩ : ∃ k, min lhs.size rhs.size = k + 1 := ⟨min lhs.size rhs.size - 1, by omega⟩
  rw [hk, Nat.add_sub_cancel, Finset.sum_range_succ']
  simp only [s25o_mul, Nat.add_zero]
  have : ∀ j, 1 + j = j + 1 := fun j => by omega
  simp only [this]
  ring

/-- C27. For every `lhs` and `rhs` with `m = min(|lhs|, |rhs|) ≥ 1`, `inner_product` completes and
sets `res` to the sum over `i < m` of `lhs[i] * rhs[i]` in the scalar field; spans of the same
sizes that agree with `lhs` and `rhs` below `m` give the same result, so the elements of the
longer span at the indices from `m` on do not affect it. -/
theorem inner_product_sum {F : Type} [CommRing F] (lhs rhs : Span F)
    (hm : 1 ≤ min lhs.size rhs.size) :
    inner_product lhs rhs =
      .ok (∑ i in Finset.range (min lhs.size rhs.size), lhs.data i * rhs.data i) ∧
    ∀ lhs1 rhs1 : Span F, lhs1.size = lhs.size → rhs1.size = rhs.size →
      (∀ i, i < min lhs.size rhs.size → lhs1.data i = lhs.data i ∧ rhs1.data i = rhs.data i) →
      inner_product lhs1 rhs1 = inner_product lhs rhs := by
  refine ⟨inner_product_eq lhs rhs hm, ?_⟩
  intro lhs1 rhs1 h1 h2 hag
  rw [inner_product_eq lhs rhs hm, inner_product_eq lhs1 rhs1 (by rw [h1, h2]; exact hm), h1, h2]
  refine congrArg Except.ok (Finset.sum_congr rfl ?_)
  intro i hi
  rw [Finset.mem_range] at hi
  rw [(hag i hi).1, (hag i hi).2]

theorem inner_product_sum_witness :
    inner_product (Span.ofList [1, 2, 3]) (Span.ofList [4, 5, 6, 7] : Span Int) =
      .ok (∑ i in Finset.range (min 3 4),
        (Span.ofList [1, 2, 3] : Span Int).data i * (Span.ofList [4, 5, 6, 7] : Span Int).data i) ∧
    inner_product (Span.ofList [1, 2, 3]) (Span.ofList [4, 5, 6, 7] : Span Int) = .ok 32 :=
  ⟨(inner_product_sum (Span.ofList [1, 2, 3]) (Span.ofList [4, 5, 6, 7] : Span Int)
      (by decide)).1, rfl⟩

/-! ## `to_device_copier`: the assertion of `copy` and the bounds of the destination -/

theorem copies_in_bounds_append (D : Nat) (xs ys : List StreamOp) :
    copies_in_bounds D (xs ++ ys) = (copies_in_bounds D xs && copies_in_bounds D ys) := by
  induction xs with
  | nil => simp [copies_in_bounds]
  | cons op xs ih =>
    cases op with
    | async_memcpy_host_to_device dst bytes =>
      show (decide (dst + bytes.length ≤ D) && copies_in_bounds D (xs ++ ys)) = _
      rw [ih]
      simp only [copies_in_bounds, Bool.and_assoc]
    | await_stream =>
      show copies_in_bounds D (xs ++ ys) = _
      rw [ih]
      rfl

theorem copy_loop_bounds (D capacity : Nat) :
    ∀ (fuel : Nat) (c c1 : to_device_copier) (src : List (Fin 256)),
      copies_in_bounds D c.stream_ = true → c.dst_data + c.dst_size = D →
      to_device_copier.copy_loop capacity fuel c src = .ok c1 →
      copies_in_bounds D c1.stream_ = true ∧ (c1.dst_size ≠ 0 → c1.dst_data + c1.dst_size = D) := by
  intro fuel
  induction fuel with
  | zero => intro c c1 src _ _ h; simp [to_device_copier.copy_loop] at h
  | succ fuel ih =>
    intro c c1 src hb hD hr
    rw [to_device_copier.copy_loop] at hr
    by_cases hsrc : src.isEmpty = true
    · rw [if_pos hsrc] at hr
      cases hr
      exact ⟨hb, fun _ => hD⟩
    · rw [if_neg hsrc] at hr
      simp only [] at hr
      generalize c.active_buffer_.fill_from_host capacity src = filled at hr
      have hlen : filled.1.bytes.length = filled.1.size := rfl
      by_cases hbreak : filled.1.size = c.dst_size
      · rw [if_pos hbreak] at hr
        simp only [to_device_copier.copy_finish] at hr
        split at hr
        · cases hr
        · split at hr
          · cases hr
          · cases hr
            refine ⟨?_, fun h => absurd rfl h⟩
            show copies_in_bounds D (c.stream_ ++ _) = true
            rw [copies_in_bounds_append, hb]
            simp only [copies_in_bounds, Bool.and_true, Bool.true_and, decide_eq_true_eq]
            omega
      · rw [if_neg hbreak] at hr
        by_cases hfull : filled.1.full capacity = true
        · simp only [hfull, not_true_eq_false, if_false] at hr
          have key : ∀ (ops : List StreamOp) (alt : pinned_buffer),
              copies_in_bounds D ops = true →
              (if c.dst_size < filled.1.size then Except.error Fault.out_of_bounds
               else to_device_copier.copy_loop capacity fuel
                { dst_data := c.dst_data + filled.1.size
                  dst_size := c.dst_size - filled.1.size
                  active_buffer_ := alt
                  alt_buffer_ := filled.1
                  stream_ := ops ++ [StreamOp.async_memcpy_host_to_device c.dst_data
                    filled.1.bytes] } filled.2) = .ok c1 →
              copies_in_bounds D c1.stream_ = true ∧
                (c1.dst_size ≠ 0 → c1.dst_data + c1.dst_size = D) := by
            intro ops alt hops hrun
            by_cases hlt : c.dst_size < filled.1.size
            · rw [if_pos hlt] at hrun; cases hrun
            · rw [if_neg hlt] at hrun
              refine ih _ c1 filled.2 ?_ ?_ hrun
              · show copies_in_bounds D (ops ++ _) = true
                rw [copies_in_bounds_append, hops]
                simp only [copies_in_bounds, Bool.and_true, Bool.true_and, decide_eq_true_eq]
                omega
              · show c.dst_data + filled.1.size + (c.dst_size - filled.1.size) = D
                omega
          by_cases ha : c.alt_buffer_.empty = true
          · simp only [ha, not_true_eq_false, if_false] at hr
            exact key c.stream_ c.alt_buffer_ hb hr
          · simp only [ha, Bool.false_eq_true, not_false_eq_true, if_true] at hr
            refine key (c.stream_ ++ [StreamOp.await_stream]) c.alt_buffer_.reset ?_ hr
            rw [copies_in_bounds_append, hb]
            rfl
        · simp only [hfull, Bool.false_eq_true, not_false_eq_true, if_true] at hr
          split at hr
          · cases hr
            exact ⟨hb, fun _ => hD⟩
          · cases hr

theorem copy_all_bounds (D capacity : Nat) :
    ∀ (calls : List (List (Fin 256))) (c c1 : to_device_copier),
      copies_in_bounds D c.stream_ = true → (c.dst_size ≠ 0 → c.dst_data + c.dst_size = D) →
      c.copy_all capacity calls = .ok c1 →
      copies_in_bounds D c1.stream_ = true ∧ (c1.dst_size ≠ 0 → c1.dst_data + c1.dst_size = D) := by
  intro calls
  induction calls with
  | nil =>
    intro c c1 hb hD hr
    cases hr
    exact ⟨hb, hD⟩
  | cons src calls ih =>
    intro c c1 hb hD hr
    rw [to_device_copier.copy_all, List.foldlM_cons] at hr
    cases hc : c.copy capacity src with
    | error e => rw [hc] at hr; cases hr
    | ok c2 =>
      rw [hc] at hr
      have h2 : copies_in_bounds D c2.stream_ = true ∧
          (c2.dst_size ≠ 0 → c2.dst_data + c2.dst_size = D) := by
        rw [to_device_copier.copy] at hc
        split at hc
        · cases hc
        · split at hc
          · cases hc; exact ⟨hb, hD⟩
          · rename_i _ hne
            exact copy_loop_bounds D capacity _ c c2 src hb (hD hne) hc
      exact ih c2 c1 h2.1 h2.2 hr

/-- C29 (as stated, refuted). With a destination of 3 bytes and a capacity of 4, a call of `copy`
with 2 bytes completes and leaves them in the active buffer; a second call with 2 bytes passes
the release assertion, since 2 is at most `dst_.size() = 3`, fills the active buffer to 4 bytes
and issues a copy of 4 bytes to the 3-byte destination, followed by `dst_.subspan(4)`. A call
with 4 bytes in the same state is stopped by the release assertion. -/
theorem to_device_copier_assertion_not_enough :
    (to_device_copier.create 3).copy_all 4 [[1, 2]] = .ok ⟨0, 3, ⟨[1, 2]⟩, ⟨[]⟩, []⟩ ∧
    to_device_copier.copy 4 ⟨0, 3, ⟨[1, 2]⟩, ⟨[]⟩, []⟩ [3, 4] = .error .out_of_bounds ∧
    (to_device_copier.create 3).copy_all 4 [[1, 2], [3, 4]] = .error .out_of_bounds ∧
    to_device_copier.copy 4 ⟨0, 3, ⟨[1, 2]⟩, ⟨[]⟩, []⟩ [3, 4, 5, 6] = .error .release_assert := by
  refine ⟨rfl, rfl, rfl, rfl⟩

/-- C29 (amended). For every destination of `D` bytes, every capacity of at least 1 and every
sequence of calls of `copy` whose sizes total at most `D`, every call completes, so that no copy
larger than `dst_` is issued and `dst_.subspan` is never called with an offset beyond
`dst_.size()`, and every copy issued on the stream writes inside the `D` bytes of the
destination. -/
theorem to_device_copier_in_bounds (D capacity : Nat) (calls : List (List (Fin 256)))
    (hcap : 1 ≤ capacity) (htot : (calls.map List.length).sum ≤ D) :
    ∃ c, (to_device_copier.create D).copy_all capacity calls = .ok c ∧
      copies_in_bounds D c.stream_ = true := by
  obtain ⟨c, P, hr, _⟩ := copy_all_create D capacity calls hcap htot
  refine ⟨c, hr, ?_⟩
  exact (copy_all_bounds D capacity calls (to_device_copier.create D) c rfl
    (fun _ => by simp [to_device_copier.create]) hr).1

theorem to_device_copier_in_bounds_witness :
    ∃ c, (to_device_copier.create 6).copy_all 4 [[1, 2, 3], [4, 5, 6]] = .ok c ∧
      copies_in_bounds 6 c.stream_ = true :=
  to_device_copier_in_bounds 6 4 [[1, 2, 3], [4, 5, 6]] (by decide) (by decide)

/-! ## The shape of the partial products on the host path -/

/-- C30 (failing input). With one output of bit width 3 and 8 host-resident partial products,
`combine_reduce` computes the reduction size `8 / 3 = 2` and `combine_reduce_chunk` the stride
`num_partials = 8 / 2 = 4`, which is not the total bit count 3; its release assertion passes,
since `8 = 4 * 2`, and the call completes with the value `(p0 + p4) + 2 (p1 + p5) + 4 (p2 + p6)`.
With the same partial products resident on the device the second release assertion,
`partial_products.size() == slice_num_partials * reduction_size`, stops the call. -/
theorem combine_reduce_chunk_accepts_misshaped_partials :
    (combine_reduce (Curve.plain Int) ⟨1, fun _ => 0⟩ [(0, 1)] [3]
        (Span.ofList [1, 2, 3, 4, 5, 6, 7, 8]) false).map Span.toList = .ok [62] ∧
    (combine_reduce_chunk (Curve.plain Int) 1 (Span.ofList (partial_sum [3]))
        (Span.ofList [1, 2, 3, 4, 5, 6, 7, 8]) false 2 0) = .ok [62] ∧
    8 / (8 / 3) = 4 ∧
    combine_reduce (Curve.plain Int) ⟨1, fun _ => 0⟩ [] [3]
        (Span.ofList [1, 2, 3, 4, 5, 6, 7, 8]) true = .error .release_assert := by
  refine ⟨rfl, rfl, rfl, rfl⟩

/-! ## The table reads of `partition_product_kernel` -/

theorem compute_partition_index_loop_lt (scalars : Span (Fin 256)) (ptr step mask : Nat) :
    ∀ (fuel i res r : Nat), res < 65536 →
      compute_partition_index_loop scalars ptr step mask fuel i res = .ok r → r < 65536 := by
  intro fuel
  induction fuel with
  | zero =>
    intro i res r hres h
    simp only [compute_partition_index_loop] at h
    cases h
    exact hres
  | succ fuel ih =>
    intro i res r hres h
    rw [compute_partition_index_loop] at h
    cases hb : scalars.read (ptr + u32 (i * step)) with
    | error e => rw [hb] at h; cases h
    | ok byte =>
      rw [hb] at h
      refine ih (i + 1) _ r ?_ h
      exact Nat.or_lt_two_pow (n := 16) hres (Nat.mod_lt _ (by decide))

theorem compute_partition_index_lt (scalars : Span (Fin 256)) (ptr step n bit_index r : Nat)
    (h : compute_partition_index scalars ptr step n bit_index = .ok r) : r < 65536 :=
  compute_partition_index_loop_lt scalars ptr step _ _ 0 0 r (by decide) h

theorem partition_product_kernel_loop_reads_zero (scalars : Span (Fin 256))
    (step bit_offset n table_ptr scalars_ptr : Nat) :
    partition_product_kernel_loop_reads scalars step bit_offset 0 n table_ptr scalars_ptr = [] :=
  rfl

theorem partition_product_kernel_loop_reads_succ (scalars : Span (Fin 256))
    (step bit_offset fuel n table_ptr scalars_ptr : Nat) :
    partition_product_kernel_loop_reads scalars step bit_offset (fuel + 1) n table_ptr
        scalars_ptr =
      if n > 16 then
        match compute_partition_index scalars (scalars_ptr + u32 (16 * step)) step (n - 16)
            bit_offset with
        | .error _ => []
        | .ok partition_index =>
          (table_ptr + 65536 + partition_index) ::
            partition_product_kernel_loop_reads scalars step bit_offset fuel (n - 16)
              (table_ptr + 65536) (scalars_ptr + u32 (16 * step))
      else [] :=
  rfl

theorem partition_product_kernel_loop_reads_lt (scalars : Span (Fin 256))
    (step bit_offset : Nat) :
    ∀ (fuel n table_ptr scalars_ptr idx : Nat),
      idx ∈ partition_product_kernel_loop_reads scalars step bit_offset fuel n table_ptr
        scalars_ptr →
      idx < table_ptr + (n + 15) / 16 * 65536 := by
  intro fuel
  induction fuel with
  | zero =>
    intro n table_ptr scalars_ptr idx h
    rw [partition_product_kernel_loop_reads_zero] at h
    cases h
  | succ fuel ih =>
    intro n table_ptr scalars_ptr idx h
    rw [partition_product_kernel_loop_reads_succ] at h
    by_cases hn : n > 16
    · simp only [if_pos hn] at h
      cases hc : compute_partition_index scalars (scalars_ptr + u32 (16 * step)) step (n - 16)
          bit_offset with
      | error e => rw [hc] at h; simp at h
      | ok partition_index =>
        rw [hc] at h
        have hlt := compute_partition_index_lt _ _ _ _ _ _ hc
        simp only [List.mem_cons] at h
        rcases h with h | h
        · omega
        · have := ih _ _ _ _ h
          omega
    · simp only [if_neg hn] at h
      simp at h

theorem partition_product_kernel_reads_lt (scalars : Span (Fin 256))
    (byte_index bit_offset num_products n idx : Nat) (hn : 1 ≤ n)
    (h : idx ∈ partition_product_kernel_reads scalars byte_index bit_offset num_products n) :
    idx < divide_up n 16 * 65536 := by
  have hd : divide_up n 16 = (n + 15) / 16 := rfl
  rw [hd]
  simp only [partition_product_kernel_reads] at h
  cases hc : compute_partition_index scalars byte_index (num_products / 8) n bit_offset with
  | error e => rw [hc] at h; simp at h
  | ok partition_index =>
    rw [hc] at h
    have hlt := compute_partition_index_lt _ _ _ _ _ _ hc
    simp only [List.mem_cons] at h
    rcases h with h | h
    · omega
    · have := partition_product_kernel_loop_reads_lt _ _ _ _ _ _ _ _ h
      omega

theorem partition_product_kernel_loop_reads_sum {T : Type} [AddCommGroup T] (c : Curve T)
    (partition_table : Span T) (scalars : Span (Fin 256)) (step bit_offset : Nat) :
    ∀ (fuel n table_ptr scalars_ptr : Nat) (res r : T),
      partition_product_kernel_loop c partition_table scalars step bit_offset fuel n table_ptr
        scalars_ptr res = .ok r →
      r = res + ((partition_product_kernel_loop_reads scalars step bit_offset fuel n table_ptr
        scalars_ptr).map partition_table.data).sum ∧
      ∀ idx ∈ partition_product_kernel_loop_reads scalars step bit_offset fuel n table_ptr
        scalars_ptr, idx < partition_table.size := by
  intro fuel
  induction fuel with
  | zero =>
    intro n table_ptr scalars_ptr res r h
    rw [partition_product_kernel_loop] at h
    rw [partition_product_kernel_loop_reads_zero]
    by_cases hn : n > 16
    · simp only [if_pos hn] at h
      cases h
    · simp only [if_neg hn] at h
      cases h
      simp
  | succ fuel ih =>
    intro n table_ptr scalars_ptr res r h
    rw [partition_product_kernel_loop] at h
    rw [partition_product_kernel_loop_reads_succ]
    by_cases hn : n > 16
    · simp only [if_pos hn] at h ⊢
      cases hc : compute_partition_index scalars (scalars_ptr + u32 (16 * step)) step (n - 16)
          bit_offset with
      | error e => rw [hc] at h; cases h
      | ok partition_index =>
        rw [hc] at h
        simp only [bind, Except.bind] at h
        cases hread : partition_table.read (table_ptr + 65536 + partition_index) with
        | error e => rw [hread] at h; cases h
        | ok e =>
          rw [hread] at h
          simp only [] at h
          have hidx : table_ptr + 65536 + partition_index < partition_table.size := by
            by_contra hcon
            simp [Span.read, hcon] at hread
          have he : e = partition_table.data (table_ptr + 65536 + partition_index) := by
            simp only [Span.read, if_pos hidx] at hread
            cases hread
            rfl
          obtain ⟨h1, h2⟩ := ih _ _ _ _ _ h
          refine ⟨?_, ?_⟩
          · rw [h1, c.add_inplace_fst, List.map_cons, List.sum_cons, he, add_assoc]
          · intro idx hmem
            simp only [List.mem_cons] at hmem
            rcases hmem with hmem | hmem
            · rw [hmem]; exact hidx
            · exact h2 idx hmem
    · simp only [if_neg hn] at h ⊢
      cases h
      simp

theorem partition_product_kernel_reads_sum {T : Type} [AddCommGroup T] (c : Curve T)
    (partition_table : Span T) (scalars : Span (Fin 256))
    (byte_index bit_offset num_products n : Nat) (out : Nat × T)
    (h : partition_product_kernel c partition_table scalars byte_index bit_offset num_products
      n = .ok out) :
    out.2 = ((partition_product_kernel_reads scalars byte_index bit_offset num_products n).map
      partition_table.data).sum ∧
    ∀ idx ∈ partition_product_kernel_reads scalars byte_index bit_offset num_products n,
      idx < partition_table.size := by
  simp only [partition_product_kernel] at h
  simp only [partition_product_kernel_reads]
  cases hc : compute_partition_index scalars byte_index (num_products / 8) n bit_offset with
  | error e => rw [hc] at h; cases h
  | ok partition_index =>
    rw [hc] at h
    simp only [bind, Except.bind] at h
    cases hread : partition_table.read partition_index with
    | error e => rw [hread] at h; cases h
    | ok e =>
      rw [hread] at h
      simp only [] at h
      have hidx : partition_index < partition_table.size := by
        by_contra hcon
        simp [Span.read, hcon] at hread
      have he : e = partition_table.data partition_index := by
        simp only [Span.read, if_pos hidx] at hread
        cases hread
        rfl
      cases hl : partition_product_kernel_loop c partition_table scalars (num_products / 8)
          bit_offset n n 0 byte_index e with
      | error e1 => rw [hl] at h; cases h
      | ok r =>
        rw [hl] at h
        simp only [pure, Except.pure] at h
        cases h
        obtain ⟨h1, h2⟩ := partition_product_kernel_loop_reads_sum c partition_table scalars
          (num_products / 8) bit_offset n n 0 byte_index e r hl
        refine ⟨?_, ?_⟩
        · show r = _
          rw [h1, List.map_cons, List.sum_cons, he]
        · intro idx hmem
          simp only [List.mem_cons] at hmem
          rcases hmem with hmem | hmem
          · rw [hmem]; exact hidx
          · exact h2 idx hmem

/-- C28 (as stated, refuted). For `n = 0`, which is what `8 * scalars.size() / num_products` gives
for an empty array of scalars and one product, `partition_product_kernel` reads
`partition_table[0]`, and 0 is not less than `⌈0 / 16⌉ · 2^16 = 0`: `partition_product` obtains a
view of no entries and its first kernel call reads outside of it. -/
theorem partition_product_kernel_reads_empty_table :
    partition_product_kernel_reads ⟨0, fun _ => 0⟩ 0 0 1 0 = [0] ∧
    divide_up 0 16 * 65536 = 0 ∧
    partition_product (Curve.plain Int) ⟨1, fun _ => 0⟩ (Span.ofList [5]) ⟨0, fun _ => 0⟩ 0 =
      .error .out_of_bounds := by
  refine ⟨rfl, rfl, rfl⟩

/-- C28 (amended). For every `n ≥ 1`, every array of scalars and every product index, given by
`byte_index` and `bit_offset`, every index at which `partition_product_kernel` reads
`partition_table` is strictly less than `⌈n / 16⌉ · 2^16`, the number of table entries that
`partition_product` and `async_partition_product` obtain for the call. The indices are those of
the kernel: whenever the kernel completes on a table, it returns the sum of the entries at these
indices, all of which lie inside the table. -/
theorem partition_product_kernel_reads_in_bounds {T : Type} [AddCommGroup T] (c : Curve T)
    (partition_table : Span T) (scalars : Span (Fin 256))
    (byte_index bit_offset num_products n : Nat) (hn : 1 ≤ n) :
    (∀ idx ∈ partition_product_kernel_reads scalars byte_index bit_offset num_products n,
      idx < divide_up n 16 * 65536) ∧
    (∀ out : Nat × T,
      partition_product_kernel c partition_table scalars byte_index bit_offset num_products n =
        .ok out →
      out.2 = ((partition_product_kernel_reads scalars byte_index bit_offset num_products n).map
        partition_table.data).sum) :=
  ⟨fun idx h => partition_product_kernel_reads_lt scalars byte_index bit_offset num_products n
      idx hn h,
   fun out h => (partition_product_kernel_reads_sum c partition_table scalars
      byte_index bit_offset num_products n out h).1⟩

theorem partition_product_kernel_reads_in_bounds_witness :
    partition_product_kernel_reads
        (Span.ofList [1, 0, 1, 0, 0, 0, 0, 0, 0, 0, 0, 0, 0, 0, 0, 0, 1]) 0 0 8 17 =
      [5, 65537] ∧
    ∀ idx ∈ partition_product_kernel_reads
        (Span.ofList [1, 0, 1, 0, 0, 0, 0, 0, 0, 0, 0, 0, 0, 0, 0, 0, 1]) 0 0 8 17,
      idx < divide_up 17 16 * 65536 :=
  ⟨rfl, (partition_product_kernel_reads_in_bounds (Curve.plain Int) ⟨0, fun _ => 0⟩
    (Span.ofList [1, 0, 1, 0, 0, 0, 0, 0, 0, 0, 0, 0, 0, 0, 0, 0, 1]) 0 0 8 17 (by decide)).1⟩

/-! ## The conversions between projective and affine elements -/

theorem to_element_affine_of_ne {F : Type} [Field F] [DecidableEq F]
    (identity : element_affine F) (p : element_p2 F) (hZ : p.Z ≠ 0) :
    to_element_affine identity p = ⟨p.X * p.Z⁻¹, p.Y * p.Z⁻¹, false⟩ := by
  simp [to_element_affine, f12o_invert, basn_cmov, hZ]

theorem to_element_affine_of_eq {F : Type} [Field F] [DecidableEq F]
    (identity : element_affine F) (p : element_p2 F) (hZ : p.Z = 0) :
    to_element_affine identity p = identity := by
  simp [to_element_affine, f12o_invert, basn_cmov, hZ]

/-- C21. For every projective `p` with `Z ≠ 0`, `to_element_p2(to_element_affine(p))` is
`(X/Z, Y/Z, 1)`, which is projectively equal to `p`; for every `p` with `Z = 0`,
`to_element_affine(p)` is exactly `element_affine::identity()`, and converting back gives `Z = 0`
since the identity has its flag `infinity` set; for every affine `a` with `infinity = false`,
`to_element_affine(to_element_p2(a))` is exactly `a`. -/
theorem conversion_round_trip {F : Type} [Field F] [DecidableEq F]
    (identity : element_affine F) (hid : identity.infinity = true) :
    (∀ p : element_p2 F, p.Z ≠ 0 →
      to_element_p2 (to_element_affine identity p) = ⟨p.X / p.Z, p.Y / p.Z, 1⟩ ∧
      (to_element_p2 (to_element_affine identity p)).X * p.Z =
        p.X * (to_element_p2 (to_element_affine identity p)).Z ∧
      (to_element_p2 (to_element_affine identity p)).Y * p.Z =
        p.Y * (to_element_p2 (to_element_affine identity p)).Z) ∧
    (∀ p : element_p2 F, p.Z = 0 →
      to_element_affine identity p = identity ∧
      (to_element_p2 (to_element_affine identity p)).Z = 0) ∧
    (∀ a : element_affine F, a.infinity = false →
      to_element_affine identity (to_element_p2 a) = a) := by
  refine ⟨?_, ?_, ?_⟩
  · intro p hZ
    have h : to_element_p2 (to_element_affine identity p) = ⟨p.X / p.Z, p.Y / p.Z, 1⟩ := by
      rw [to_element_affine_of_ne identity p hZ]
      simp [to_element_p2, basn_cmov, div_eq_mul_inv]
    rw [h]
    refine ⟨rfl, ?_, ?_⟩
    · show p.X / p.Z * p.Z = p.X * 1
      rw [div_mul_cancel₀ _ hZ, mul_one]
    · show p.Y / p.Z * p.Z = p.Y * 1
      rw [div_mul_cancel₀ _ hZ, mul_one]
  · intro p hZ
    rw [to_element_affine_of_eq identity p hZ]
    exact ⟨rfl, by simp [to_element_p2, basn_cmov, hid]⟩
  · intro a ha
    have hp : to_element_p2 a = ⟨a.X, a.Y, 1⟩ := by
      simp [to_element_p2, basn_cmov, ha]
    rw [hp, to_element_affine_of_ne identity _ (by simp)]
    cases a with
    | mk X Y infinity =>
      simp only at ha
      simp [ha]

theorem conversion_round_trip_witness :
    to_element_p2 (to_element_affine (⟨0, 1, true⟩ : element_affine ℚ) ⟨6, 9, 3⟩) =
      ⟨6 / 3, 9 / 3, 1⟩ ∧
    to_element_affine (⟨0, 1, true⟩ : element_affine ℚ) ⟨6, 9, 0⟩ = ⟨0, 1, true⟩ :=
  ⟨((conversion_round_trip (⟨0, 1, true⟩ : element_affine ℚ) rfl).1 ⟨6, 9, 3⟩
      (by simp)).1,
   ((conversion_round_trip (⟨0, 1, true⟩ : element_affine ℚ) rfl).2.1 ⟨6, 9, 0⟩ rfl).1⟩

/-! ## The transposition of the scalars -/

theorem mapM_read_eq {T : Type} (s : Span T) (f : Nat → Nat) :
    ∀ (l : List Nat), (∀ i ∈ l, f i < s.size) →
      l.mapM (fun i => s.read (f i)) = .ok (l.map (fun i => s.data (f i))) := by
  intro l
  induction l with
  | nil => intro _; rfl
  | cons a l ih =>
    intro h
    rw [List.mapM_cons, ih (fun i hi => h i (List.mem_cons_of_mem a hi))]
    simp only [Span.read, if_pos (h a (List.mem_cons_self a l)), bind, Except.bind, pure,
      Except.pure, List.map_cons]

theorem transpose_index_lt (element_num_bytes n j : Nat) (hn : 1 ≤ n)
    (hj : j < n * element_num_bytes) : transpose_index element_num_bytes n j <
      n * element_num_bytes := by
  unfold transpose_index
  have hq : j / n < element_num_bytes := Nat.div_lt_of_lt_mul hj
  have hr : j % n ≤ n - 1 := Nat.le_sub_one_of_lt (Nat.mod_lt _ (by omega))
  have h1 : j % n * element_num_bytes ≤ (n - 1) * element_num_bytes :=
    Nat.mul_le_mul_right _ hr
  have h2 : (n - 1) * element_num_bytes + element_num_bytes = n * element_num_bytes := by
    obtain ⟨m, rfl⟩ : ∃ m, n = m + 1 := ⟨n - 1, by omega⟩
    rw [Nat.add_sub_cancel]; ring
  omega

theorem transpose_index_inverse (element_num_bytes n j : Nat) (_hn : 1 ≤ n)
    (hj : j < n * element_num_bytes) :
    transpose_index n element_num_bytes (transpose_index element_num_bytes n j) = j := by
  have hq : j / n < element_num_bytes := Nat.div_lt_of_lt_mul hj
  have hb : 0 < element_num_bytes := Nat.lt_of_le_of_lt (Nat.zero_le _) hq
  unfold transpose_index
  rw [Nat.add_mul_div_right _ _ hb, Nat.add_mul_mod_self_right, Nat.div_eq_of_lt hq,
    Nat.mod_eq_of_lt hq, Nat.zero_add]
  have := Nat.mod_add_div j n
  rw [Nat.mul_comm] at this
  exact this

theorem transpose_scalars_eq (len : Nat) (scalars : Span (Fin 256))
    (element_num_bytes n offset : Nat) (hn : 1 ≤ n)
    (hlen : offset + len ≤ n * element_num_bytes)
    (hsize : scalars.size = n * element_num_bytes) :
    transpose_scalars len scalars element_num_bytes n offset =
      .ok ((List.range len).map (fun i =>
        scalars.data ((i + offset) / n + (i + offset) % n * element_num_bytes))) := by
  unfold transpose_scalars
  rw [mapM_read_eq scalars (fun i => transpose_index element_num_bytes n (i + offset))]
  · rfl
  · intro i hi
    rw [List.mem_range] at hi
    rw [hsize]
    exact transpose_index_lt element_num_bytes n (i + offset) hn (by omega)

/-- C22. For every `element_num_bytes ≥ 1`, `n ≥ 1`, offset and output length `len` with
`offset + len ≤ n * element_num_bytes`, and `scalars` of `n * element_num_bytes` bytes,
`transpose_scalars` writes
`array[i] = scalars[(i + offset) / n + ((i + offset) mod n) * element_num_bytes]` for every
`i < len`. With offset 0 and `len = n * element_num_bytes` the map of the positions stays below
`n * element_num_bytes` and is inverted by the map with `n` and `element_num_bytes` exchanged,
and the other way round, so that it is a bijection; transposing the result with `n` and
`element_num_bytes` exchanged gives back the bytes of `scalars`. -/
theorem transpose_scalars_permutation (scalars : Span (Fin 256))
    (element_num_bytes n : Nat) (hb : 1 ≤ element_num_bytes) (hn : 1 ≤ n)
    (hsize : scalars.size = n * element_num_bytes) :
    (∀ offset len, offset + len ≤ n * element_num_bytes →
      ∃ array, transpose_scalars len scalars element_num_bytes n offset = .ok array ∧
        array.length = len ∧
        ∀ i, i < len → array[i]? =
          some (scalars.data ((i + offset) / n + (i + offset) % n * element_num_bytes))) ∧
    (∀ j, j < n * element_num_bytes →
      transpose_index element_num_bytes n j < n * element_num_bytes ∧
      transpose_index n element_num_bytes (transpose_index element_num_bytes n j) = j ∧
      transpose_index element_num_bytes n (transpose_index n element_num_bytes j) = j) ∧
    (∃ array, transpose_scalars (n * element_num_bytes) scalars element_num_bytes n 0 =
        .ok array ∧
      transpose_scalars (n * element_num_bytes) (Span.ofList array) n element_num_bytes 0 =
        .ok scalars.toList) := by
  have hinv : ∀ j, j < n * element_num_bytes →
      transpose_index element_num_bytes n (transpose_index n element_num_bytes j) = j := by
    intro j hj
    exact transpose_index_inverse n element_num_bytes j hb (by rw [Nat.mul_comm]; exact hj)
  have hlt : ∀ j, j < n * element_num_bytes →
      transpose_index n element_num_bytes j < n * element_num_bytes := by
    intro j hj
    have := transpose_index_lt n element_num_bytes j hb (by rw [Nat.mul_comm]; exact hj)
    rw [Nat.mul_comm] at this
    exact this
  refine ⟨?_, ?_, ?_⟩
  · intro offset len hlen
    refine ⟨_, transpose_scalars_eq len scalars element_num_bytes n offset hn hlen hsize,
      by simp, ?_⟩
    intro i hi
    rw [List.getElem?_map, List.getElem?_range hi]
    rfl
  · intro j hj
    exact ⟨transpose_index_lt element_num_bytes n j hn hj,
      transpose_index_inverse element_num_bytes n j hn hj, hinv j hj⟩
  · refine ⟨_, transpose_scalars_eq (n * element_num_bytes) scalars element_num_bytes n 0 hn
      (by omega) hsize, ?_⟩
    rw [transpose_scalars_eq (n * element_num_bytes) _ n element_num_bytes 0 hb
      (by rw [Nat.mul_comm]; omega) (by simp [Span.ofList, Nat.mul_comm])]
    refine congrArg Except.ok ?_
    unfold Span.toList
    rw [hsize]
    apply List.map_congr_left
    intro k hk
    rw [List.mem_range] at hk
    have hk1 := hlt k hk
    simp only [Nat.add_zero, Span.ofList]
    rw [List.getD_eq_getElem?_getD, List.getElem?_map, List.getElem?_range (by
      simpa [transpose_index] using hk1)]
    simp only [Option.map_some', Option.getD_some]
    have := hinv k hk
    unfold transpose_index at this
    rw [this]

theorem transpose_scalars_permutation_witness :
    transpose_scalars 4 (Span.ofList [1, 2, 3, 4]) 2 2 0 = .ok [1, 3, 2, 4] ∧
    transpose_scalars 3 (Span.ofList [1, 2, 3, 4]) 2 2 1 = .ok [3, 2, 4] ∧
    transpose_scalars 3 (Span.ofList [1, 2, 3, 4]) 2 2 0 = .ok [1, 3, 2] ∧
    ∃ array, transpose_scalars (2 * 2) (Span.ofList [1, 2, 3, 4]) 2 2 0 = .ok array ∧
      transpose_scalars (2 * 2) (Span.ofList array) 2 2 0 =
        .ok (Span.ofList [1, 2, 3, 4] : Span (Fin 256)).toList :=
  ⟨rfl, rfl, rfl,
   (transpose_scalars_permutation (Span.ofList [1, 2, 3, 4]) 2 2 (by decide) (by decide)
      rfl).2.2⟩

/-! ## The expansion of the exponents of `g` -/

theorem g_exponent_factor_succ {F : Type} [CommRing F] (x : Span F) (r k t i : Nat) :
    g_exponent_factor x r k (t + 1) i =
      g_exponent_factor x r k t i * (if i.testBit (r - 1 + t) then x.data (k - 1 - t) else 1) := by
  unfold g_exponent_factor
  rw [Finset.prod_range_succ]

theorem g_exponent_factor_congr {F : Type} [CommRing F] (x : Span F) (r k t i j : Nat)
    (h : ∀ s, s < t → i.testBit (r - 1 + s) = j.testBit (r - 1 + s)) :
    g_exponent_factor x r k t i = g_exponent_factor x r k t j := by
  unfold g_exponent_factor
  apply Finset.prod_congr rfl
  intro s hs
  rw [Finset.mem_range] at hs
  rw [h s hs]

theorem g_exponents_loop_eq {F : Type} [CommRing F] (x : Span F) (g0 : Span F) (r k : Nat)
    (hk : x.size = k) (hnp : 2 ^ (r - 1 + k) ≤ 4294967295) :
    ∀ (fuel t : Nat) (g : Span F) (reads : List Nat), t + fuel = k →
      g.size = 2 ^ (r - 1 + k) →
      (∀ i, i < 2 ^ (r - 1 + t) →
        g.data i = g0.data (i % 2 ^ (r - 1)) * g_exponent_factor x r k t i) →
      ∃ out, g_exponents_loop x (2 ^ (r - 1 + k)) fuel (2 ^ (r - 1 + t)) (k - t) g reads =
          .ok (out, reads ++ (List.range fuel).map (fun s => k - t - 1 - s)) ∧
        out.size = 2 ^ (r - 1 + k) ∧
        ∀ i, i < 2 ^ (r - 1 + k) →
          out.data i = g0.data (i % 2 ^ (r - 1)) * g_exponent_factor x r k k i := by
  intro fuel
  induction fuel with
  | zero =>
    intro t g reads ht hsize hinv
    have htk : t = k := by omega
    subst htk
    refine ⟨g, ?_, hsize, hinv⟩
    simp [g_exponents_loop]
  | succ fuel ih =>
    intro t g reads ht hsize hinv
    have htk : t < k := by omega
    have hpow : 2 ^ (r - 1 + t) < 2 ^ (r - 1 + k) :=
      Nat.pow_lt_pow_right (by decide) (by omega)
    have hdouble : 2 ^ (r - 1 + t) * 2 = 2 ^ (r - 1 + (t + 1)) := by
      rw [← Nat.add_assoc, Nat.pow_succ]
    have hle : 2 ^ (r - 1 + (t + 1)) ≤ 2 ^ (r - 1 + k) :=
      Nat.pow_le_pow_right (by decide) (by omega)
    rw [g_exponents_loop, if_pos (Nat.ne_of_lt hpow)]
    obtain ⟨m, hm⟩ : ∃ m, k - t = m + 1 := ⟨k - t - 1, by omega⟩
    rw [hm]
    simp only [ptr_dec]
    have hmk : m < x.size := by omega
    simp only [Span.read, if_pos hmk]
    rw [if_neg (by rw [hsize]; omega)]
    rw [hdouble, u32_of_lt (by omega)]
    have hmt : m = k - (t + 1) := by omega
    rw [hmt]
    obtain ⟨out, hout, hsz, hval⟩ := ih (t + 1)
      ⟨g.size, fun i =>
        if 2 ^ (r - 1 + t) ≤ i ∧ i < 2 ^ (r - 1 + t) + 2 ^ (r - 1 + t) then
          s25o_mul (x.data (k - (t + 1))) (g.data (i - 2 ^ (r - 1 + t)))
        else g.data i⟩ (reads ++ [k - (t + 1)]) (by omega) hsize (by
        intro i hi
        simp only []
        by_cases hlow : i < 2 ^ (r - 1 + t)
        · rw [if_neg (by omega), hinv i hlow, g_exponent_factor_succ,
            Nat.testBit_lt_two_pow hlow]
          simp
        · have hi2 : i < 2 ^ (r - 1 + t) + 2 ^ (r - 1 + t) := by omega
          rw [if_pos ⟨by omega, hi2⟩]
          obtain ⟨y, hy⟩ : ∃ y, i = 2 ^ (r - 1 + t) + y := ⟨i - 2 ^ (r - 1 + t), by omega⟩
          have hylt : y < 2 ^ (r - 1 + t) := by omega
          rw [hy, Nat.add_sub_cancel_left, hinv y hylt, g_exponent_factor_succ,
            Nat.testBit_two_pow_add_eq, Nat.testBit_lt_two_pow hylt]
          have hmod : (2 ^ (r - 1 + t) + y) % 2 ^ (r - 1) = y % 2 ^ (r - 1) := by
            rw [Nat.pow_add, Nat.mul_add_mod]
          have hfac : g_exponent_factor x r k t (2 ^ (r - 1 + t) + y) =
              g_exponent_factor x r k t y := by
            apply g_exponent_factor_congr
            intro s hs
            exact Nat.testBit_two_pow_add_gt (by omega) y
          rw [hmod, hfac]
          have hidx : k - (t + 1) = k - 1 - t := by omega
          simp only [s25o_mul, Bool.not_false, if_true, hidx]
          ring)
    refine ⟨out, ?_, hsz, hval⟩
    rw [hout]
    refine congrArg Except.ok (Prod.ext rfl ?_)
    show reads ++ [k - (t + 1)] ++ _ = reads ++ _
    rw [List.range_succ_eq_map, List.map_cons, List.map_map, List.append_assoc,
      List.singleton_append]
    have h0 : k - (t + 1) + 1 - 1 - 0 = k - (t + 1) := by omega
    rw [h0]
    refine congrArg (fun l => reads ++ (k - (t + 1)) :: l) ?_
    apply List.map_congr_left
    intro s _
    simp only [Function.comp_apply, Nat.succ_eq_add_one]
    omega

theorem async_compute_g_exponents_partial_eq {F : Type} [CommRing F] (g x : Span F)
    (r k : Nat) (hr : 1 ≤ r) (hk : x.size = k) (hk1 : 1 ≤ k) (hsize : g.size = 2 ^ (r - 1 + k))
    (hnp : 2 ^ (r - 1 + k) ≤ 4294967295) :
    ∃ out, async_compute_g_exponents_partial g x r true =
        .ok (out, (List.range k).map (fun s => k - 1 - s)) ∧
      out.size = 2 ^ (r - 1 + k) ∧
      ∀ i, i < 2 ^ (r - 1 + k) →
        out.data i = g.data (i % 2 ^ (r - 1)) * g_exponent_factor x r k k i := by
  have hle : 2 ^ (r - 1) ≤ 2 ^ (r - 1 + k) := Nat.pow_le_pow_right (by decide) (by omega)
  obtain ⟨out, hout, hsz, hval⟩ := g_exponents_loop_eq x g r k hk hnp k 0 g [] (by omega) hsize
    (by
      intro i hi
      rw [Nat.add_zero] at hi
      rw [Nat.mod_eq_of_lt hi]
      simp [g_exponent_factor])
  refine ⟨out, ?_, hsz, hval⟩
  unfold async_compute_g_exponents_partial
  simp only [Nat.one_shiftLeft, hk]
  rw [if_neg (fun hcon => hcon ⟨hnp, trivial, hsize, by omega, by omega⟩)]
  rw [u32_of_lt (by omega)]
  simp only [Nat.add_zero, Nat.sub_zero, List.nil_append] at hout
  exact hout

/-- C26. For every `round_first = r ≥ 1`, every `x_sq_vector` of length `k ≥ 1` and host-resident
`g_exponents` of length `2^(r-1+k)`, at most `UINT_MAX` as the assertion requires,
`async_compute_g_exponents_partial` completes after exactly `k` doubling steps; it reads
`x_sq_vector[k-1], …, x_sq_vector[0]` in this order and nothing before `x_sq_vector[0]`, leaves
`g_exponents[0 .. 2^(r-1))` unchanged, and for every `i` in `[2^(r-1), 2^(r-1+k))` sets
`g_exponents[i]` to `g0[i mod 2^(r-1)]` times the product of `x_sq_vector[k-1-t]` over the `t < k`
for which bit `r-1+t` of `i` is set, `g0` being the initial content. -/
theorem async_compute_g_exponents_partial_expansion {F : Type} [CommRing F] (g0 x : Span F)
    (r k : Nat) (hr : 1 ≤ r) (hk : x.size = k) (hk1 : 1 ≤ k)
    (hsize : g0.size = 2 ^ (r - 1 + k)) (hnp : 2 ^ (r - 1 + k) ≤ 4294967295) :
    ∃ out reads, async_compute_g_exponents_partial g0 x r true = .ok (out, reads) ∧
      reads = (List.range k).map (fun s => k - 1 - s) ∧ reads.length = k ∧
      out.size = g0.size ∧
      (∀ i, i < 2 ^ (r - 1) → out.data i = g0.data i) ∧
      (∀ i, 2 ^ (r - 1) ≤ i → i < 2 ^ (r - 1 + k) →
        out.data i = g0.data (i % 2 ^ (r - 1)) *
          ∏ t in (Finset.range k).filter (fun t => i.testBit (r - 1 + t) = true),
            x.data (k - 1 - t)) := by
  obtain ⟨out, hout, hsz, hval⟩ :=
    async_compute_g_exponents_partial_eq g0 x r k hr hk hk1 hsize hnp
  refine ⟨out, _, hout, rfl, by simp, by rw [hsz, hsize], ?_, ?_⟩
  · intro i hi
    have hle : 2 ^ (r - 1) ≤ 2 ^ (r - 1 + k) := Nat.pow_le_pow_right (by decide) (by omega)
    rw [hval i (by omega), Nat.mod_eq_of_lt hi]
    have hone : g_exponent_factor x r k k i = 1 := by
      unfold g_exponent_factor
      apply Finset.prod_eq_one
      intro t _
      have : i < 2 ^ (r - 1 + t) :=
        lt_of_lt_of_le hi (Nat.pow_le_pow_right (by decide) (by omega))
      rw [Nat.testBit_lt_two_pow this]
      simp
    rw [hone, mul_one]
  · intro i _ hi
    rw [hval i hi, Finset.prod_filter]
    rfl

theorem async_compute_g_exponents_partial_expansion_witness :
    ( async_compute_g_exponents_partial (Span.ofList [1, 0, 0, 0]) (Span.ofList [2, 3] : Span Int)
        1 true).map (fun o => (o.1.toList, o.2)) = .ok ([1, 3, 2, 6], [1, 0]) ∧
    ∃ out reads, async_compute_g_exponents_partial (Span.ofList [1, 0, 0, 0])
        (Span.ofList [2, 3] : Span Int) 1 true = .ok (out, reads) ∧
      reads = (List.range 2).map (fun s => 2 - 1 - s) ∧ out.data 0 = 1 := by
  refine ⟨rfl, ?_⟩
  obtain ⟨out, reads, h1, h2, _, _, h5, _⟩ := async_compute_g_exponents_partial_expansion
    (Span.ofList [1, 0, 0, 0]) (Span.ofList [2, 3] : Span Int) 1 2 (by decide) rfl (by decide)
    rfl (by decide)
  exact ⟨out, reads, h1, h2, h5 0 (by decide)⟩

/-! ## Limb arithmetic -/

theorem shiftRight_64 (x : Nat) : x >>> 64 = x / 18446744073709551616 := by
  rw [Nat.shiftRight_eq_div_pow]

theorem basfld_sbb_zero (a b : Nat) :
    basfld_sbb 0 a b =
      ((a + (340282366920938463463374607431768211456 - b)) %
          340282366920938463463374607431768211456 % 18446744073709551616,
       (a + (340282366920938463463374607431768211456 - b)) %
          340282366920938463463374607431768211456 / 18446744073709551616 %
            18446744073709551616) := by
  simp only [basfld_sbb, u64, shiftRight_64, Nat.zero_shiftRight, Nat.add_zero]

theorem basfld_sbb_ones (a b : Nat) :
    basfld_sbb 18446744073709551615 a b =
      ((a + (340282366920938463463374607431768211456 - (b + 1))) %
          340282366920938463463374607431768211456 % 18446744073709551616,
       (a + (340282366920938463463374607431768211456 - (b + 1))) %
          340282366920938463463374607431768211456 / 18446744073709551616 %
            18446744073709551616) := by
  have h : (18446744073709551615 : Nat) >>> 63 = 1 := by decide
  simp only [basfld_sbb, u64, shiftRight_64, h]

theorem basfld_sbb_spec (borrow a b : Nat) (ha : a < 18446744073709551616)
    (hb : b < 18446744073709551616) (hbo : borrow = 0 ∨ borrow = 18446744073709551615) :
    ∃ c, c ≤ 1 ∧ (basfld_sbb borrow a b).1 < 18446744073709551616 ∧
      (basfld_sbb borrow a b).1 + b + (if borrow = 0 then 0 else 1) =
        a + 18446744073709551616 * c ∧
      (basfld_sbb borrow a b).2 = (if c = 0 then 0 else 18446744073709551615) := by
  rcases hbo with h | h
  · subst h
    rw [basfld_sbb_zero, if_pos rfl]
    by_cases hab : b ≤ a
    · refine ⟨0, by omega, ?_, ?_, ?_⟩
      · show _ % 18446744073709551616 < _
        omega
      · show _ % 18446744073709551616 + b + 0 = _
        omega
      · rw [if_pos rfl]
        show _ % 18446744073709551616 = _
        omega
    · refine ⟨1, by omega, ?_, ?_, ?_⟩
      · show _ % 18446744073709551616 < _
        omega
      · show _ % 18446744073709551616 + b + 0 = _
        omega
      · rw [if_neg (by decide)]
        show _ % 18446744073709551616 = _
        omega
  · subst h
    rw [basfld_sbb_ones, if_neg (by decide)]
    by_cases hab : b + 1 ≤ a
    · refine ⟨0, by omega, ?_, ?_, ?_⟩
      · show _ % 18446744073709551616 < _
        omega
      · show _ % 18446744073709551616 + b + 1 = _
        omega
      · rw [if_pos rfl]
        show _ % 18446744073709551616 = _
        omega
    · refine ⟨1, by omega, ?_, ?_, ?_⟩
      · show _ % 18446744073709551616 < _
        omega
      · show _ % 18446744073709551616 + b + 1 = _
        omega
      · rw [if_neg (by decide)]
        show _ % 18446744073709551616 = _
        omega

theorem and_all_ones (x : Nat) (hx : x < 18446744073709551616) :
    x &&& 18446744073709551615 = x := by
  have h : (18446744073709551615 : Nat) = 2 ^ 64 - 1 := by norm_num
  rw [h, Nat.and_pow_two_sub_one_eq_mod]
  exact Nat.mod_eq_of_lt (by norm_num; exact hx)

theorem select_limb (a r borrow : Nat) (ha : a < 18446744073709551616)
    (hr : r < 18446744073709551616) (hbo : borrow = 0 ∨ borrow = 18446744073709551615) :
    (a &&& borrow) ||| (r &&& basn_cmov 0 (u64 (borrow + 18446744073709551615)) (borrow == 0)) =
      if borrow = 0 then r else a := by
  rcases hbo with h | h
  · subst h
    have hm : basn_cmov 0 (u64 (0 + 18446744073709551615)) ((0 : Nat) == 0) =
        18446744073709551615 := by decide
    rw [hm, and_all_ones r hr]
    simp
  · subst h
    have hm : basn_cmov 0 (u64 (18446744073709551615 + 18446744073709551615))
        ((18446744073709551615 : Nat) == 0) = 0 := by decide
    rw [hm, and_all_ones a ha]
    simp

theorem basfld_sbb_carry (borrow cin a b : Nat) (ha : a < 18446744073709551616)
    (hb : b < 18446744073709551616) (hcin : cin ≤ 1)
    (hbo : borrow = if cin = 0 then 0 else 18446744073709551615) :
    ∃ c, c ≤ 1 ∧ (basfld_sbb borrow a b).1 < 18446744073709551616 ∧
      (basfld_sbb borrow a b).1 + b + cin = a + 18446744073709551616 * c ∧
      (basfld_sbb borrow a b).2 = (if c = 0 then 0 else 18446744073709551615) := by
  have hcases : borrow = 0 ∨ borrow = 18446744073709551615 := by
    rw [hbo]; split <;> simp
  obtain ⟨c, hc, hr, he, hbout⟩ := basfld_sbb_spec borrow a b ha hb hcases
  refine ⟨c, hc, hr, ?_, hbout⟩
  have hci : (if borrow = 0 then 0 else 1) = cin := by
    rw [hbo]
    by_cases h0 : cin = 0
    · simp [h0]
    · have : cin = 1 := by omega
      simp [this]
  rw [hci] at he
  exact he

theorem subtract_p_eq (p0 p1 p2 p3 p4 p5 a0 a1 a2 a3 a4 a5 : Nat)
    (hp0 : p0 < 18446744073709551616) (hp1 : p1 < 18446744073709551616)
    (hp2 : p2 < 18446744073709551616) (hp3 : p3 < 18446744073709551616)
    (hp4 : p4 < 18446744073709551616) (hp5 : p5 < 18446744073709551616)
    (ha0 : a0 < 18446744073709551616) (ha1 : a1 < 18446744073709551616)
    (ha2 : a2 < 18446744073709551616) (ha3 : a3 < 18446744073709551616)
    (ha4 : a4 < 18446744073709551616) (ha5 : a5 < 18446744073709551616) :
    ∃ r0 r1 r2 r3 r4 r5,
      subtract_p [p0, p1, p2, p3, p4, p5] [a0, a1, a2, a3, a4, a5] = [r0, r1, r2, r3, r4, r5] ∧
      r0 < 18446744073709551616 ∧ r1 < 18446744073709551616 ∧ r2 < 18446744073709551616 ∧
      r3 < 18446744073709551616 ∧ r4 < 18446744073709551616 ∧ r5 < 18446744073709551616 ∧
      limbs_value [r0, r1, r2, r3, r4, r5] =
        if limbs_value [p0, p1, p2, p3, p4, p5] ≤ limbs_value [a0, a1, a2, a3, a4, a5] then
          limbs_value [a0, a1, a2, a3, a4, a5] - limbs_value [p0, p1, p2, p3, p4, p5]
        else limbs_value [a0, a1, a2, a3, a4, a5] := by
  obtain ⟨c0, hc0, hr0, he0, hb0⟩ := basfld_sbb_carry 0 0 a0 p0 ha0 hp0 (by omega) rfl
  obtain ⟨c1, hc1, hr1, he1, hb1⟩ :=
    basfld_sbb_carry (basfld_sbb 0 a0 p0).2 c0 a1 p1 ha1 hp1 hc0 hb0
  obtain ⟨c2, hc2, hr2, he2, hb2⟩ :=
    basfld_sbb_carry (basfld_sbb (basfld_sbb 0 a0 p0).2 a1 p1).2 c1 a2 p2 ha2 hp2 hc1 hb1
  obtain ⟨c3, hc3, hr3, he3, hb3⟩ :=
    basfld_sbb_carry (basfld_sbb (basfld_sbb (basfld_sbb 0 a0 p0).2 a1 p1).2 a2 p2).2 c2 a3 p3
      ha3 hp3 hc2 hb2
  obtain ⟨c4, hc4, hr4, he4, hb4⟩ :=
    basfld_sbb_carry
      (basfld_sbb (basfld_sbb (basfld_sbb (basfld_sbb 0 a0 p0).2 a1 p1).2 a2 p2).2 a3 p3).2
      c3 a4 p4 ha4 hp4 hc3 hb3
  obtain ⟨c5, hc5, hr5, he5, hb5⟩ :=
    basfld_sbb_carry
      (basfld_sbb (basfld_sbb (basfld_sbb (basfld_sbb (basfld_sbb 0 a0 p0).2 a1 p1).2 a2
        p2).2 a3 p3).2 a4 p4).2
      c4 a5 p5 ha5 hp5 hc4 hb4
  unfold subtract_p
  simp only [List.getD_cons_zero, List.getD_cons_succ]
  generalize basfld_sbb 0 a0 p0 = s0 at *
  generalize basfld_sbb s0.2 a1 p1 = s1 at *
  generalize basfld_sbb s1.2 a2 p2 = s2 at *
  generalize basfld_sbb s2.2 a3 p3 = s3 at *
  generalize basfld_sbb s3.2 a4 p4 = s4 at *
  generalize basfld_sbb s4.2 a5 p5 = s5 at *
  have hbo : s5.2 = 0 ∨ s5.2 = 18446744073709551615 := by
    rw [hb5]; split <;> simp
  rw [select_limb a0 s0.1 s5.2 ha0 hr0 hbo, select_limb a1 s1.1 s5.2 ha1 hr1 hbo,
    select_limb a2 s2.1 s5.2 ha2 hr2 hbo, select_limb a3 s3.1 s5.2 ha3 hr3 hbo,
    select_limb a4 s4.1 s5.2 ha4 hr4 hbo, select_limb a5 s5.1 s5.2 ha5 hr5 hbo]
  refine ⟨_, _, _, _, _, _, rfl, ?_⟩
  simp only [limbs_value]
  have hcomb : (s0.1 + 18446744073709551616 * (s1.1 + 18446744073709551616 * (s2.1 +
      18446744073709551616 * (s3.1 + 18446744073709551616 * (s4.1 +
      18446744073709551616 * (s5.1 + 18446744073709551616 * 0)))))) +
      (p0 + 18446744073709551616 * (p1 + 18446744073709551616 * (p2 +
      18446744073709551616 * (p3 + 18446744073709551616 * (p4 +
      18446744073709551616 * (p5 + 18446744073709551616 * 0)))))) =
      (a0 + 18446744073709551616 * (a1 + 18446744073709551616 * (a2 +
      18446744073709551616 * (a3 + 18446744073709551616 * (a4 +
      18446744073709551616 * (a5 + 18446744073709551616 * 0)))))) +
      18446744073709551616 ^ 6 * c5 := by
    zify at he0 he1 he2 he3 he4 he5 ⊢
    linear_combination he0 + 18446744073709551616 * he1 + 18446744073709551616 ^ 2 * he2 +
      18446744073709551616 ^ 3 * he3 + 18446744073709551616 ^ 4 * he4 +
      18446744073709551616 ^ 5 * he5
  have hpow : (18446744073709551616 : Nat) ^ 6 =
      39402006196394479212279040100143613805079739270465446667948293404245721771497210611414266254884915640806627990306816 := by
    norm_num
  rw [hpow] at hcomb
  clear he0 he1 he2 he3 he4 he5 hb0 hb1 hb2 hb3 hb4
  by_cases h5 : c5 = 0
  · have hz : s5.2 = 0 := by rw [hb5, if_pos h5]
    simp only [hz, if_true]
    refine ⟨hr0, hr1, hr2, hr3, hr4, hr5, ?_⟩
    clear hb5 hbo hz
    rw [if_pos (by omega)]
    omega
  · have hz : s5.2 = 18446744073709551615 := by rw [hb5, if_neg h5]
    have hne : ¬ (18446744073709551615 : Nat) = 0 := by decide
    simp only [hz, hne, if_false]
    refine ⟨ha0, ha1, ha2, ha3, ha4, ha5, ?_⟩
    clear hb5 hbo hz
    rw [if_neg (by omega)]

theorem list_length_six (l : List Nat) (h : l.length = 6) :
    ∃ x0 x1 x2 x3 x4 x5, l = [x0, x1, x2, x3, x4, x5] := by
  rcases l with _ | ⟨x0, _ | ⟨x1, _ | ⟨x2, _ | ⟨x3, _ | ⟨x4, _ | ⟨x5, _ | ⟨x6, l⟩⟩⟩⟩⟩⟩⟩
  all_goals simp at h
  exact ⟨x0, x1, x2, x3, x4, x5, rfl⟩

/-- C23. For every array `a` of six 64-bit limbs and every modulus `p_v` of six 64-bit limbs, such
as the modulus of the base field of BLS12-381, `subtract_p` sets `ret` to six 64-bit limbs of
value `a - p` when `a ≥ p` and of value `a` when `a < p`, the values being taken with the least
significant limb first. Hence for every `a < 2p` the value of the result is `a mod p` and is less
than `p`. -/
theorem subtract_p_conditional (p_v a : List Nat) (hp : p_v.length = 6) (ha : a.length = 6)
    (hpl : ∀ x ∈ p_v, x < 18446744073709551616) (hal : ∀ x ∈ a, x < 18446744073709551616) :
    (subtract_p p_v a).length = 6 ∧
    (∀ x ∈ subtract_p p_v a, x < 18446744073709551616) ∧
    limbs_value (subtract_p p_v a) =
      (if limbs_value p_v ≤ limbs_value a then limbs_value a - limbs_value p_v
       else limbs_value a) ∧
    (limbs_value a < 2 * limbs_value p_v →
      limbs_value (subtract_p p_v a) = limbs_value a % limbs_value p_v ∧
      limbs_value (subtract_p p_v a) < limbs_value p_v) := by
  obtain ⟨p0, p1, p2, p3, p4, p5, rfl⟩ := list_length_six p_v hp
  obtain ⟨a0, a1, a2, a3, a4, a5, rfl⟩ := list_length_six a ha
  obtain ⟨r0, r1, r2, r3, r4, r5, hr, h0, h1, h2, h3, h4, h5, hval⟩ :=
    subtract_p_eq p0 p1 p2 p3 p4 p5 a0 a1 a2 a3 a4 a5
      (hpl p0 (by simp)) (hpl p1 (by simp)) (hpl p2 (by simp)) (hpl p3 (by simp))
      (hpl p4 (by simp)) (hpl p5 (by simp))
      (hal a0 (by simp)) (hal a1 (by simp)) (hal a2 (by simp)) (hal a3 (by simp))
      (hal a4 (by simp)) (hal a5 (by simp))
  rw [hr]
  refine ⟨rfl, ?_, hval, ?_⟩
  · intro x hx
    simp only [List.mem_cons, List.mem_singleton, List.not_mem_nil, or_false] at hx
    rcases hx with h | h | h | h | h | h <;> rw [h] <;> assumption
  · intro hlt
    rw [hval]
    generalize limbs_value [p0, p1, p2, p3, p4, p5] = P at hlt ⊢
    generalize limbs_value [a0, a1, a2, a3, a4, a5] = A at hlt ⊢
    by_cases hle : P ≤ A
    · rw [if_pos hle]
      have h1 : A % P = (A - P) % P := Nat.mod_eq_sub_mod hle
      rw [h1, Nat.mod_eq_of_lt (by omega)]
      exact ⟨rfl, by omega⟩
    · rw [if_neg hle, Nat.mod_eq_of_lt (by omega)]
      exact ⟨rfl, by omega⟩

theorem subtract_p_conditional_witness :
    limbs_value f12b_p_v =
      4002409555221667393417789825735904156556882819939007885332058136124031650490837864442687629129015664037894272559787 ∧
    subtract_p f12b_p_v
        [13402431016077863596, 2210141511517208575, 7435674573564081700, 7239337960414712511,
         5412103778470702295, 1873798617647539866] = [1, 0, 0, 0, 0, 0] ∧
    limbs_value (subtract_p f12b_p_v
        [13402431016077863596, 2210141511517208575, 7435674573564081700, 7239337960414712511,
         5412103778470702295, 1873798617647539866]) =
      (if limbs_value f12b_p_v ≤ limbs_value
          [13402431016077863596, 2210141511517208575, 7435674573564081700,
           7239337960414712511, 5412103778470702295, 1873798617647539866] then
        limbs_value
          [13402431016077863596, 2210141511517208575, 7435674573564081700,
           7239337960414712511, 5412103778470702295, 1873798617647539866] -
          limbs_value f12b_p_v
       else limbs_value
          [13402431016077863596, 2210141511517208575, 7435674573564081700,
           7239337960414712511, 5412103778470702295, 1873798617647539866]) :=
  ⟨by decide, by decide,
   (subtract_p_conditional f12b_p_v
      [13402431016077863596, 2210141511517208575, 7435674573564081700, 7239337960414712511,
       5412103778470702295, 1873798617647539866] rfl rfl (by decide) (by decide)).2.2.1⟩

/-! ## Montgomery reduction -/

theorem basfld_mac_spec (carry a b c : Nat) (hcarry : carry < 18446744073709551616)
    (ha : a < 18446744073709551616) (hb : b < 18446744073709551616)
    (hc : c < 18446744073709551616) :
    (basfld_mac carry a b c).1 + 18446744073709551616 * (basfld_mac carry a b c).2 =
        a + b * c + carry ∧
      (basfld_mac carry a b c).1 < 18446744073709551616 ∧
      (basfld_mac carry a b c).2 < 18446744073709551616 := by
  have hX : b * c ≤ 18446744073709551615 * 18446744073709551615 :=
    Nat.mul_le_mul (by omega) (by omega)
  simp only [basfld_mac, u64, shiftRight_64]
  generalize b * c = X at hX ⊢
  norm_num at hX
  refine ⟨?_, ?_, ?_⟩ <;> omega

theorem basfld_adc_spec (a b c : Nat) (ha : a < 18446744073709551616)
    (hb : b < 18446744073709551616) (hc : c < 18446744073709551616) :
    (basfld_adc a b c).1 + 18446744073709551616 * (basfld_adc a b c).2 = a + b + c ∧
      (basfld_adc a b c).1 < 18446744073709551616 ∧
      (basfld_adc a b c).2 < 18446744073709551616 := by
  simp only [basfld_adc, u64, shiftRight_64]
  refine ⟨?_, ?_, ?_⟩ <;> omega

theorem basfld_mac_low (a inv_v p0 : Nat) (ha : a < 18446744073709551616)
    (hp0 : p0 < 18446744073709551616)
    (hinv : (inv_v * p0 + 1) % 18446744073709551616 = 0) :
    (basfld_mac 0 a (u64 (a * inv_v)) p0).1 = 0 := by
  have hk : u64 (a * inv_v) < 18446744073709551616 := Nat.mod_lt _ (by decide)
  have hspec := basfld_mac_spec 0 a (u64 (a * inv_v)) p0 (by decide) ha hk hp0
  have hmod : (a + u64 (a * inv_v) * p0) % 18446744073709551616 = 0 := by
    have h1 : u64 (a * inv_v) * p0 % 18446744073709551616 =
        a * inv_v * p0 % 18446744073709551616 := by
      unfold u64
      rw [Nat.mul_mod, Nat.mod_mod, ← Nat.mul_mod]
    have h2 : a + a * inv_v * p0 = a * (inv_v * p0 + 1) := by ring
    rw [Nat.add_mod, h1, ← Nat.add_mod, h2, Nat.mul_mod, hinv, Nat.mul_zero, Nat.zero_mod]
  obtain ⟨h3, h4, _⟩ := hspec
  generalize (basfld_mac 0 a (u64 (a * inv_v)) p0).1 = r at h3 h4 ⊢
  generalize (basfld_mac 0 a (u64 (a * inv_v)) p0).2 = c at h3
  generalize u64 (a * inv_v) * p0 = X at h3 hmod
  omega

theorem f25b_subtract_p_eq (p0 p1 p2 p3 a0 a1 a2 a3 : Nat)
    (hp0 : p0 < 18446744073709551616) (hp1 : p1 < 18446744073709551616)
    (hp2 : p2 < 18446744073709551616) (hp3 : p3 < 18446744073709551616)
    (ha0 : a0 < 18446744073709551616) (ha1 : a1 < 18446744073709551616)
    (ha2 : a2 < 18446744073709551616) (ha3 : a3 < 18446744073709551616) :
    ∃ r0 r1 r2 r3,
      f25b_subtract_p [p0, p1, p2, p3] [a0, a1, a2, a3] = [r0, r1, r2, r3] ∧
      r0 < 18446744073709551616 ∧ r1 < 18446744073709551616 ∧ r2 < 18446744073709551616 ∧
      r3 < 18446744073709551616 ∧
      limbs_value [r0, r1, r2, r3] =
        if limbs_value [p0, p1, p2, p3] ≤ limbs_value [a0, a1, a2, a3] then
          limbs_value [a0, a1, a2, a3] - limbs_value [p0, p1, p2, p3]
        else limbs_value [a0, a1, a2, a3] := by
  obtain ⟨c0, hc0, hr0, he0, hb0⟩ := basfld_sbb_carry 0 0 a0 p0 ha0 hp0 (by omega) rfl
  obtain ⟨c1, hc1, hr1, he1, hb1⟩ :=
    basfld_sbb_carry (basfld_sbb 0 a0 p0).2 c0 a1 p1 ha1 hp1 hc0 hb0
  obtain ⟨c2, hc2, hr2, he2, hb2⟩ :=
    basfld_sbb_carry (basfld_sbb (basfld_sbb 0 a0 p0).2 a1 p1).2 c1 a2 p2 ha2 hp2 hc1 hb1
  obtain ⟨c3, hc3, hr3, he3, hb3⟩ :=
    basfld_sbb_carry (basfld_sbb (basfld_sbb (basfld_sbb 0 a0 p0).2 a1 p1).2 a2 p2).2 c2 a3 p3
      ha3 hp3 hc2 hb2
  unfold f25b_subtract_p
  simp only [List.getD_cons_zero, List.getD_cons_succ]
  generalize basfld_sbb 0 a0 p0 = s0 at *
  generalize basfld_sbb s0.2 a1 p1 = s1 at *
  generalize basfld_sbb s1.2 a2 p2 = s2 at *
  generalize basfld_sbb s2.2 a3 p3 = s3 at *
  have hbo : s3.2 = 0 ∨ s3.2 = 18446744073709551615 := by
    rw [hb3]; split <;> simp
  rw [select_limb a0 s0.1 s3.2 ha0 hr0 hbo, select_limb a1 s1.1 s3.2 ha1 hr1 hbo,
    select_limb a2 s2.1 s3.2 ha2 hr2 hbo, select_limb a3 s3.1 s3.2 ha3 hr3 hbo]
  refine ⟨_, _, _, _, rfl, ?_⟩
  simp only [limbs_value]
  have hcomb : (s0.1 + 18446744073709551616 * (s1.1 + 18446744073709551616 * (s2.1 +
      18446744073709551616 * (s3.1 + 18446744073709551616 * 0)))) +
      (p0 + 18446744073709551616 * (p1 + 18446744073709551616 * (p2 +
      18446744073709551616 * (p3 + 18446744073709551616 * 0)))) =
      (a0 + 18446744073709551616 * (a1 + 18446744073709551616 * (a2 +
      18446744073709551616 * (a3 + 18446744073709551616 * 0)))) +
      18446744073709551616 ^ 4 * c3 := by
    zify at he0 he1 he2 he3 ⊢
    linear_combination he0 + 18446744073709551616 * he1 + 18446744073709551616 ^ 2 * he2 +
      18446744073709551616 ^ 3 * he3
  have hpow : (18446744073709551616 : Nat) ^ 4 =
      115792089237316195423570985008687907853269984665640564039457584007913129639936 := by
    norm_num
  rw [hpow] at hcomb
  clear he0 he1 he2 he3 hb0 hb1 hb2
  by_cases h3 : c3 = 0
  · have hz : s3.2 = 0 := by rw [hb3, if_pos h3]
    simp only [hz, if_true]
    refine ⟨hr0, hr1, hr2, hr3, ?_⟩
    clear hb3 hbo hz
    rw [if_pos (by omega)]
    omega
  · have hz : s3.2 = 18446744073709551615 := by rw [hb3, if_neg h3]
    have hne : ¬ (18446744073709551615 : Nat) = 0 := by decide
    simp only [hz, hne, if_false]
    refine ⟨ha0, ha1, ha2, ha3, ?_⟩
    clear hb3 hbo hz
    rw [if_neg (by omega)]

theorem reduce_limbs_eq (p0 p1 p2 p3 inv_v t0 t1 t2 t3 t4 t5 t6 t7 : Nat)
    (hp0 : p0 < 18446744073709551616) (hp1 : p1 < 18446744073709551616)
    (hp2 : p2 < 18446744073709551616) (hp3 : p3 < 18446744073709551616)
    (hinv : (inv_v * p0 + 1) % 18446744073709551616 = 0)
    (ht0 : t0 < 18446744073709551616) (ht1 : t1 < 18446744073709551616)
    (ht2 : t2 < 18446744073709551616) (ht3 : t3 < 18446744073709551616)
    (ht4 : t4 < 18446744073709551616) (ht5 : t5 < 18446744073709551616)
    (ht6 : t6 < 18446744073709551616) (ht7 : t7 < 18446744073709551616) :
    ∃ r4 r5 r6 r7 c k0 k1 k2 k3,
      reduce_limbs [p0, p1, p2, p3] inv_v [t0, t1, t2, t3, t4, t5, t6, t7] =
        ([r4, r5, r6, r7], c) ∧
      r4 < 18446744073709551616 ∧ r5 < 18446744073709551616 ∧ r6 < 18446744073709551616 ∧
      r7 < 18446744073709551616 ∧
      k0 < 18446744073709551616 ∧ k1 < 18446744073709551616 ∧ k2 < 18446744073709551616 ∧
      k3 < 18446744073709551616 ∧
      18446744073709551616 ^ 4 * (limbs_value [r4, r5, r6, r7] + 18446744073709551616 ^ 4 * c) =
        limbs_value [t0, t1, t2, t3, t4, t5, t6, t7] +
          limbs_value [k0, k1, k2, k3] * limbs_value [p0, p1, p2, p3] := by
  unfold reduce_limbs
  simp only [List.getD_cons_zero, List.getD_cons_succ]
  -- round 0
  have hz0 := basfld_mac_low t0 inv_v p0 ht0 hp0 hinv
  have hk0 : u64 (t0 * inv_v) < 18446744073709551616 := Nat.mod_lt _ (by decide)
  generalize u64 (t0 * inv_v) = k0 at hz0 hk0 ⊢
  obtain ⟨e00, -, c00⟩ := basfld_mac_spec 0 t0 k0 p0 (by decide) ht0 hk0 hp0
  generalize basfld_mac 0 t0 k0 p0 = m0 at hz0 e00 c00 ⊢
  obtain ⟨e01, r01, c01⟩ := basfld_mac_spec m0.2 t1 k0 p1 c00 ht1 hk0 hp1
  generalize basfld_mac m0.2 t1 k0 p1 = m1 at e01 r01 c01 ⊢
  obtain ⟨e02, r02, c02⟩ := basfld_mac_spec m1.2 t2 k0 p2 c01 ht2 hk0 hp2
  generalize basfld_mac m1.2 t2 k0 p2 = m2 at e02 r02 c02 ⊢
  obtain ⟨e03, r03, c03⟩ := basfld_mac_spec m2.2 t3 k0 p3 c02 ht3 hk0 hp3
  generalize basfld_mac m2.2 t3 k0 p3 = m3 at e03 r03 c03 ⊢
  obtain ⟨a0, ra0, ca0⟩ := basfld_adc_spec t4 0 m3.2 ht4 (by decide) c03
  generalize basfld_adc t4 0 m3.2 = d4 at a0 ra0 ca0 ⊢
  -- round 1
  have hz1 := basfld_mac_low m1.1 inv_v p0 r01 hp0 hinv
  have hk1 : u64 (m1.1 * inv_v) < 18446744073709551616 := Nat.mod_lt _ (by decide)
  generalize u64 (m1.1 * inv_v) = k1 at hz1 hk1 ⊢
  obtain ⟨e10, -, c10⟩ := basfld_mac_spec 0 m1.1 k1 p0 (by decide) r01 hk1 hp0
  generalize basfld_mac 0 m1.1 k1 p0 = n0 at hz1 e10 c10 ⊢
  obtain ⟨e11, r11, c11⟩ := basfld_mac_spec n0.2 m2.1 k1 p1 c10 r02 hk1 hp1
  generalize basfld_mac n0.2 m2.1 k1 p1 = n1 at e11 r11 c11 ⊢
  obtain ⟨e12, r12, c12⟩ := basfld_mac_spec n1.2 m3.1 k1 p2 c11 r03 hk1 hp2
  generalize basfld_mac n1.2 m3.1 k1 p2 = n2 at e12 r12 c12 ⊢
  obtain ⟨e13, r13, c13⟩ := basfld_mac_spec n2.2 d4.1 k1 p3 c12 ra0 hk1 hp3
  generalize basfld_mac n2.2 d4.1 k1 p3 = n3 at e13 r13 c13 ⊢
  obtain ⟨a1, ra1, ca1⟩ := basfld_adc_spec t5 d4.2 n3.2 ht5 ca0 c13
  generalize basfld_adc t5 d4.2 n3.2 = d5 at a1 ra1 ca1 ⊢
  -- round 2
  have hz2 := basfld_mac_low n1.1 inv_v p0 r11 hp0 hinv
  have hk2 : u64 (n1.1 * inv_v) < 18446744073709551616 := Nat.mod_lt _ (by decide)
  generalize u64 (n1.1 * inv_v) = k2 at hz2 hk2 ⊢
  obtain ⟨e20, -, c20⟩ := basfld_mac_spec 0 n1.1 k2 p0 (by decide) r11 hk2 hp0
  generalize basfld_mac 0 n1.1 k2 p0 = o0 at hz2 e20 c20 ⊢
  obtain ⟨e21, r21, c21⟩ := basfld_mac_spec o0.2 n2.1 k2 p1 c20 r12 hk2 hp1
  generalize basfld_mac o0.2 n2.1 k2 p1 = o1 at e21 r21 c21 ⊢
  obtain ⟨e22, r22, c22⟩ := basfld_mac_spec o1.2 n3.1 k2 p2 c21 r13 hk2 hp2
  generalize basfld_mac o1.2 n3.1 k2 p2 = o2 at e22 r22 c22 ⊢
  obtain ⟨e23, r23, c23⟩ := basfld_mac_spec o2.2 d5.1 k2 p3 c22 ra1 hk2 hp3
  generalize basfld_mac o2.2 d5.1 k2 p3 = o3 at e23 r23 c23 ⊢
  obtain ⟨a2, ra2, ca2⟩ := basfld_adc_spec t6 d5.2 o3.2 ht6 ca1 c23
  generalize basfld_adc t6 d5.2 o3.2 = d6 at a2 ra2 ca2 ⊢
  -- round 3
  have hz3 := basfld_mac_low o1.1 inv_v p0 r21 hp0 hinv
  have hk3 : u64 (o1.1 * inv_v) < 18446744073709551616 := Nat.mod_lt _ (by decide)
  generalize u64 (o1.1 * inv_v) = k3 at hz3 hk3 ⊢
  obtain ⟨e30, -, c30⟩ := basfld_mac_spec 0 o1.1 k3 p0 (by decide) r21 hk3 hp0
  generalize basfld_mac 0 o1.1 k3 p0 = q0 at hz3 e30 c30 ⊢
  obtain ⟨e31, r31, c31⟩ := basfld_mac_spec q0.2 o2.1 k3 p1 c30 r22 hk3 hp1
  generalize basfld_mac q0.2 o2.1 k3 p1 = q1 at e31 r31 c31 ⊢
  obtain ⟨e32, r32, c32⟩ := basfld_mac_spec q1.2 o3.1 k3 p2 c31 r23 hk3 hp2
  generalize basfld_mac q1.2 o3.1 k3 p2 = q2 at e32 r32 c32 ⊢
  obtain ⟨e33, r33, c33⟩ := basfld_mac_spec q2.2 d6.1 k3 p3 c32 ra2 hk3 hp3
  generalize basfld_mac q2.2 d6.1 k3 p3 = q3 at e33 r33 c33 ⊢
  obtain ⟨a3, ra3, -⟩ := basfld_adc_spec t7 d6.2 q3.2 ht7 ca2 c33
  generalize basfld_adc t7 d6.2 q3.2 = d7 at a3 ra3 ⊢
  refine ⟨q1.1, q2.1, q3.1, d7.1, d7.2, k0, k1, k2, k3, rfl, r31, r32, r33, ra3, hk0, hk1, hk2,
    hk3, ?_⟩
  simp only [limbs_value]
  zify at e00 e01 e02 e03 a0 e10 e11 e12 e13 a1
  zify at e20 e21 e22 e23 a2 e30 e31 e32 e33 a3
  zify at hz0 hz1 hz2 hz3 ⊢
  linear_combination e00 + 18446744073709551616 * e01 + 18446744073709551616 ^ 2 * e02 +
    18446744073709551616 ^ 3 * e03 + 18446744073709551616 ^ 4 * a0 +
    18446744073709551616 * e10 + 18446744073709551616 ^ 2 * e11 +
    18446744073709551616 ^ 3 * e12 + 18446744073709551616 ^ 4 * e13 +
    18446744073709551616 ^ 5 * a1 +
    18446744073709551616 ^ 2 * e20 + 18446744073709551616 ^ 3 * e21 +
    18446744073709551616 ^ 4 * e22 + 18446744073709551616 ^ 5 * e23 +
    18446744073709551616 ^ 6 * a2 +
    18446744073709551616 ^ 3 * e30 + 18446744073709551616 ^ 4 * e31 +
    18446744073709551616 ^ 5 * e32 + 18446744073709551616 ^ 6 * e33 +
    18446744073709551616 ^ 7 * a3 -
    hz0 - 18446744073709551616 * hz1 - 18446744073709551616 ^ 2 * hz2 -
    18446744073709551616 ^ 3 * hz3

theorem list_length_four (l : List Nat) (h : l.length = 4) :
    ∃ x0 x1 x2 x3, l = [x0, x1, x2, x3] := by
  rcases l with _ | ⟨x0, _ | ⟨x1, _ | ⟨x2, _ | ⟨x3, _ | ⟨x4, l⟩⟩⟩⟩⟩
  all_goals simp at h
  exact ⟨x0, x1, x2, x3, rfl⟩

theorem list_length_eight (l : List Nat) (h : l.length = 8) :
    ∃ x0 x1 x2 x3 x4 x5 x6 x7, l = [x0, x1, x2, x3, x4, x5, x6, x7] := by
  rcases l with _ | ⟨x0, _ | ⟨x1, _ | ⟨x2, _ | ⟨x3, _ | ⟨x4, _ | ⟨x5, _ | ⟨x6, _ | ⟨x7, _ |
    ⟨x8, l⟩⟩⟩⟩⟩⟩⟩⟩⟩
  all_goals simp at h
  exact ⟨x0, x1, x2, x3, x4, x5, x6, x7, rfl⟩

theorem limbs_value_four_lt (x0 x1 x2 x3 : Nat) (h0 : x0 < 18446744073709551616)
    (h1 : x1 < 18446744073709551616) (h2 : x2 < 18446744073709551616)
    (h3 : x3 < 18446744073709551616) :
    limbs_value [x0, x1, x2, x3] <
      115792089237316195423570985008687907853269984665640564039457584007913129639936 := by
  simp only [limbs_value]
  omega

theorem montgomery_bound (R c T K P : Nat)
    (hcomb : 115792089237316195423570985008687907853269984665640564039457584007913129639936 *
      (R + 115792089237316195423570985008687907853269984665640564039457584007913129639936 * c) =
        T + K * P)
    (hK : K < 115792089237316195423570985008687907853269984665640564039457584007913129639936)
    (h2p : 2 * P ≤
      115792089237316195423570985008687907853269984665640564039457584007913129639936)
    (htp : T < P *
      115792089237316195423570985008687907853269984665640564039457584007913129639936) :
    c = 0 ∧ R < 2 * P := by
  have hKP : (K + 1) * P ≤
      115792089237316195423570985008687907853269984665640564039457584007913129639936 * P :=
    Nat.mul_le_mul_right P (by omega)
  rw [Nat.add_mul, Nat.one_mul] at hKP
  generalize K * P = KP at hcomb hKP
  constructor <;> omega

theorem montgomery_congruence (h R T K P : Nat)
    (hcomb : 115792089237316195423570985008687907853269984665640564039457584007913129639936 *
      R = T + K * P)
    (hh : h = if P ≤ R then R - P else R) :
    h * 115792089237316195423570985008687907853269984665640564039457584007913129639936 % P =
      T % P := by
  by_cases hle : P ≤ R
  · rw [if_pos hle] at hh
    have heq : h * 115792089237316195423570985008687907853269984665640564039457584007913129639936
        + 115792089237316195423570985008687907853269984665640564039457584007913129639936 * P =
        T + K * P := by
      rw [← hcomb, hh, Nat.sub_mul, Nat.mul_comm P, Nat.mul_comm R]
      exact Nat.sub_add_cancel (Nat.mul_le_mul_left _ hle)
    rw [← Nat.add_mul_mod_self_right _
      115792089237316195423570985008687907853269984665640564039457584007913129639936 P, heq,
      Nat.add_mul_mod_self_right]
  · rw [if_neg hle] at hh
    rw [hh, Nat.mul_comm, hcomb, Nat.add_mul_mod_self_right]

/-- C24. For every modulus `p_v` of four 64-bit limbs with `2 p ≤ 2^256`, such as the modulus of
the base field of BN254, every `inv_v` with `inv_v · p_v[0] ≡ -1 (mod 2^64)` and every `t` of
eight 64-bit limbs with `t < p · 2^256`, `reduce` writes four 64-bit limbs `h` with
`value(h) < p` and `value(h) · 2^256 ≡ t (mod p)`; the carry that the last `adc` leaves in `tmp`
is 0, so that no carry out of the top limb is lost. -/
theorem reduce_montgomery (p_v t : List Nat) (inv_v : Nat) (hp : p_v.length = 4)
    (ht : t.length = 8) (hpl : ∀ x ∈ p_v, x < 18446744073709551616)
    (htl : ∀ x ∈ t, x < 18446744073709551616)
    (hinv : (inv_v * p_v.getD 0 0 + 1) % 18446744073709551616 = 0)
    (h2p : 2 * limbs_value p_v ≤
      115792089237316195423570985008687907853269984665640564039457584007913129639936)
    (htp : limbs_value t < limbs_value p_v *
      115792089237316195423570985008687907853269984665640564039457584007913129639936) :
    (reduce_limbs p_v inv_v t).2 = 0 ∧
    (reduce p_v inv_v t).length = 4 ∧
    (∀ x ∈ reduce p_v inv_v t, x < 18446744073709551616) ∧
    limbs_value (reduce p_v inv_v t) < limbs_value p_v ∧
    limbs_value (reduce p_v inv_v t) *
        115792089237316195423570985008687907853269984665640564039457584007913129639936 %
        limbs_value p_v = limbs_value t % limbs_value p_v := by
  obtain ⟨p0, p1, p2, p3, rfl⟩ := list_length_four p_v hp
  obtain ⟨t0, t1, t2, t3, t4, t5, t6, t7, rfl⟩ := list_length_eight t ht
  have hp0 := hpl p0 (by simp)
  have hp1 := hpl p1 (by simp)
  have hp2 := hpl p2 (by simp)
  have hp3 := hpl p3 (by simp)
  obtain ⟨r4, r5, r6, r7, c, k0, k1, k2, k3, hlimbs, hr4, hr5, hr6, hr7, hk0, hk1, hk2, hk3,
    hcomb⟩ := reduce_limbs_eq p0 p1 p2 p3 inv_v t0 t1 t2 t3 t4 t5 t6 t7 hp0 hp1 hp2 hp3 hinv
      (htl t0 (by simp)) (htl t1 (by simp)) (htl t2 (by simp)) (htl t3 (by simp))
      (htl t4 (by simp)) (htl t5 (by simp)) (htl t6 (by simp)) (htl t7 (by simp))
  have hpow : (18446744073709551616 : Nat) ^ 4 =
      115792089237316195423570985008687907853269984665640564039457584007913129639936 := by
    norm_num
  rw [hpow] at hcomb
  have hK := limbs_value_four_lt k0 k1 k2 k3 hk0 hk1 hk2 hk3
  obtain ⟨hc, hR⟩ := montgomery_bound _ _ _ _ _ hcomb hK h2p htp
  obtain ⟨h0, h1, h2, h3, hsub, hh0, hh1, hh2, hh3, hval⟩ :=
    f25b_subtract_p_eq p0 p1 p2 p3 r4 r5 r6 r7 hp0 hp1 hp2 hp3 hr4 hr5 hr6 hr7
  have hred : reduce [p0, p1, p2, p3] inv_v [t0, t1, t2, t3, t4, t5, t6, t7] =
      [h0, h1, h2, h3] := by
    rw [reduce, hlimbs]
    exact hsub
  rw [hred, hlimbs]
  rw [hc, Nat.mul_zero, Nat.add_zero] at hcomb
  refine ⟨hc, rfl, ?_, ?_, ?_⟩
  · intro x hx
    simp only [List.mem_cons, List.mem_singleton, List.not_mem_nil, or_false] at hx
    rcases hx with h | h | h | h <;> rw [h] <;> assumption
  · rw [hval]
    split <;> omega
  · exact montgomery_congruence _ _ _ _ _ hcomb hval

theorem reduce_montgomery_witness :
    limbs_value f25b_p_v =
      21888242871839275222246405745257275088696311157297823662689037894645226208583 ∧
    (f25b_inv_v * f25b_p_v.getD 0 0 + 1) % 18446744073709551616 = 0 ∧
    limbs_value (reduce f25b_p_v f25b_inv_v [1, 2, 3, 4, 5, 6, 7, 8]) < limbs_value f25b_p_v ∧
    limbs_value (reduce f25b_p_v f25b_inv_v [1, 2, 3, 4, 5, 6, 7, 8]) *
        115792089237316195423570985008687907853269984665640564039457584007913129639936 %
        limbs_value f25b_p_v = limbs_value [1, 2, 3, 4, 5, 6, 7, 8] % limbs_value f25b_p_v :=
  ⟨by decide, by decide,
   (reduce_montgomery f25b_p_v [1, 2, 3, 4, 5, 6, 7, 8] f25b_inv_v rfl rfl (by decide)
      (by decide) (by decide) (by decide) (by decide)).2.2.2.1,
   (reduce_montgomery f25b_p_v [1, 2, 3, 4, 5, 6, 7, 8] f25b_inv_v rfl rfl (by decide)
      (by decide) (by decide) (by decide) (by decide)).2.2.2.2⟩

end Blitzar
